import Mathlib

/-!
clic: command-line argument parsing (`src/cli.h`).

A shallow embedding of the arena allocator, the matcher, the registry and the dispatcher of
`cli.h`.

Conventions of the embedding

* A C string is the list of its bytes before the terminating NUL (`CString`).
* A pointer into `app->commands` / `app->options` is the index of the entry; `NULL` is `none`.
* `app->commands[0 .. command_count-1]` and `app->options[0 .. option_count-1]` are lists, the
  counts are their lengths.
* The 256-byte `value` array of an option is a list of bytes; `memset`, `strcpy` and `memcpy`
  are modelled on it byte by byte, and `cstr` reads the C string it holds.
* A handler (`cli_action`) is a function from the options it is handed to its `i32` result;
  every invocation is recorded in the `calls` trace of the run.
* `assert` failures and `cli_panic` abort the process (`ret = none`).
* `malloc`/`realloc`/`strdup` are taken to succeed, and the strings and function pointers handed
  to the declaration functions are taken to be valid (non-`NULL`).
* `argc` is the length of `argv`.
* Text written to stdout/stderr is not modelled.
-/

namespace Clic

/-- The bytes of a NUL-terminated C string, terminator excluded. -/
abbrev CString := List Char

/-- The terminating byte of a C string. -/
def NUL : Char := Char.ofNat 0

/-- `struct cli_option`. `command` is the index of the owning command, `none` for `NULL`. -/
structure cli_option where
  names : CString
  help_text : CString
  command : Option Nat
  required : Bool
  is_flag : Bool
  is_present : Bool
  value : List Char
  deriving DecidableEq

/-- `typedef i32 (*cli_action)(cli_option** opts, u32 opt_count)`: the handler sees the options
behind `opts[0 .. opt_count-1]` and returns its exit code. -/
abbrev cli_action := List cli_option → Int

/-- `struct cli_command`. -/
structure cli_command where
  names : CString
  action : cli_action
  help_text : CString

/-- `struct cli_app`; `command_count` and `option_count` are the lengths of the two lists. -/
structure cli_app where
  name : CString
  version : CString
  description : CString
  commands : List cli_command
  options : List cli_option
  default_action : Option cli_action

/-- Which handler a call went to: the action of command `i`, or the default action. -/
inductive Callee where
  | command (i : Nat)
  | default
  deriving DecidableEq

/-- One handler invocation: the callee and the options it was handed (`NULL, 0` is `[]`). -/
structure Call where
  callee : Callee
  opts : List cli_option
  deriving DecidableEq

/-- What a call of `cli_app_run` leaves behind: the application state, the handler invocations
it made, and its return value (`none` when the process was aborted). -/
structure Run where
  app : cli_app
  calls : List Call
  ret : Option Int

/-- How a block of statements ends: it falls through, executes `return code`, or aborts. -/
inductive Flow where
  | next
  | ret (code : Int)
  | abort
  deriving DecidableEq

/-! ## Arrays -/

/-- Reading `xs[k]`; `none` past the end. -/
def nth {α : Type} : List α → Nat → Option α
  | [], _ => none
  | x :: _, 0 => some x
  | _ :: xs, k + 1 => nth xs k

/-- Writing `xs[k] = f(xs[k])`. -/
def modify_at {α : Type} (f : α → α) : Nat → List α → List α
  | _, [] => []
  | 0, x :: xs => f x :: xs
  | k + 1, x :: xs => x :: modify_at f k xs

/-! ## Value buffer -/

/-- `sizeof(opt->value)`. -/
def VALUE_SIZE : Nat := 256

/-- `memset(opt->value, 0, sizeof(opt->value))`. -/
def memset_value : List Char := List.replicate VALUE_SIZE NUL

/-- Copying the bytes `src` to the start of the buffer `buf` (`strcpy`, `memcpy`). -/
def write_bytes (src buf : List Char) : List Char := src ++ buf.drop src.length

/-- The C string held by a buffer: its bytes up to the first NUL. -/
def cstr (buf : List Char) : CString := buf.takeWhile (fun c => c != NUL)

/-! ## Name-set matcher -/

/-- One call of `strtok(_, ",")` on the remaining text: skip leading delimiters; at the end of
the text there is no token; otherwise the token runs up to the next delimiter and the scan
resumes right after it. -/
def strtok (s : List Char) : Option (CString × List Char) :=
  match s.dropWhile (fun c => c == ',') with
  | [] => none
  | c :: cs =>
    some ((c :: cs).takeWhile (fun d => d != ','), ((c :: cs).dropWhile (fun d => d != ',')).drop 1)

/-- The `while (token != NULL)` loop of `split_names`: each token with its leading spaces
skipped. Every `strtok` call consumes at least one byte, so `fuel` bounds the iterations. -/
def split_names_loop : Nat → List Char → List CString
  | 0, _ => []
  | fuel + 1, s =>
    match strtok s with
    | none => []
    | some (token, rest) => token.dropWhile (fun c => c == ' ') :: split_names_loop fuel rest

/-- `split_names`: the trimmed tokens of a comma-separated alias string. -/
def split_names (names : CString) : List CString :=
  split_names_loop (names.length + 1) names

/-- `option_matches_name`. -/
def option_matches_name (opt : cli_option) (name : CString) : Bool :=
  (split_names opt.names).any (fun n => n == name)

/-- The index of the first entry satisfying `p`, counting from `i`. -/
def find_index_from {α : Type} (p : α → Bool) : Nat → List α → Option Nat
  | _, [] => none
  | i, x :: xs => if p x then some i else find_index_from p (i + 1) xs

/-- The body of the loop of `find_command`: split the command's alias string and compare each
token with `name`. -/
def command_matches_name (cmd : cli_command) (name : CString) : Bool :=
  (split_names cmd.names).any (fun n => n == name)

/-- `find_command`: the first command whose split alias string contains `name`. -/
def find_command (app : cli_app) (name : CString) : Option Nat :=
  find_index_from (fun cmd => command_matches_name cmd name) 0 app.commands

/-- Does the option behind pointer `i` match `arg`? -/
def matches_at (app : cli_app) (arg : CString) (i : Nat) : Bool :=
  match nth app.options i with
  | some o => option_matches_name o arg
  | none => false

/-- `find_option_from_list`: `none` when one of its two assertions (`opts`, `opt_count > 0`)
fails, otherwise the first pointer of the list whose option matches `arg`, if any. -/
def find_option_from_list (app : cli_app) (opts : List Nat) (arg : CString) :
    Option (Option Nat) :=
  if opts = [] then none else some (opts.find? (matches_at app arg))

/-- `is_option_arg`. -/
def is_option_arg (arg : CString) : Bool := arg.head? == some '-'

/-- The scan of `get_command_options` from option index `i` on. -/
def get_command_options_from (cmd : Option Nat) : Nat → List cli_option → List Nat
  | _, [] => []
  | i, o :: os =>
    if o.command = cmd then i :: get_command_options_from cmd (i + 1) os
    else get_command_options_from cmd (i + 1) os

/-- `get_command_options`: pointers to the options owned by `cmd`, in index order. An empty
result is the `NULL` list with count 0. -/
def get_command_options (app : cli_app) (cmd : Option Nat) : List Nat :=
  get_command_options_from cmd 0 app.options

/-! ## Help -/

/-- `"--help"`. -/
def HELP_LONG : CString := ['-', '-', 'h', 'e', 'l', 'p']

/-- `"-h"`. -/
def HELP_SHORT : CString := ['-', 'h']

/-- `STREQ(arg, "--help") || STREQ(arg, "-h")`. -/
def is_help (arg : CString) : Bool := arg == HELP_LONG || arg == HELP_SHORT

/-- `print_command_help` as called by the parser, `true` when it returns. With `opts == NULL`
it gathers the options itself. Otherwise it first runs `assert(opt_count_)` on its local
`opt_count_`, which has not been assigned yet: `uninit` is the indeterminate value read. -/
def print_command_help (uninit : Nat) (opts : List Nat) : Bool :=
  if opts = [] then true else uninit != 0

/-! ## Parser and dispatcher -/

/-- Apply `f` to the option behind pointer `k`. -/
def update_option (app : cli_app) (k : Nat) (f : cli_option → cli_option) : cli_app :=
  { app with options := modify_at f k app.options }

/-- `opt->is_present = false; memset(opt->value, 0, sizeof(opt->value))`. -/
def clear_option (o : cli_option) : cli_option :=
  { o with is_present := false, value := memset_value }

/-- The reset loop of `parse_command_args`. -/
def reset_options (app : cli_app) : List Nat → cli_app
  | [] => app
  | k :: ks => reset_options (update_option app k clear_option) ks

/-- `opt->is_present = true`. -/
def mark_present (o : cli_option) : cli_option := { o with is_present := true }

/-- `strcpy(opt->value, "true")`. -/
def store_true (o : cli_option) : cli_option :=
  { o with value := write_bytes ['t', 'r', 'u', 'e', NUL] o.value }

/-- `memcpy(opt->value, value, len + 1)`. -/
def store_value (v : CString) (o : cli_option) : cli_option :=
  { o with value := write_bytes (v ++ [NUL]) o.value }

/-- Is the option behind pointer `k` a flag? -/
def is_flag_at (app : cli_app) (k : Nat) : Bool :=
  match nth app.options k with
  | some o => o.is_flag
  | none => false

/-- The `while (idx < argc)` loop of `parse_command_args`, on the tokens from `idx` on. -/
def parse_loop (uninit : Nat) (opts : List Nat) : cli_app → List CString → cli_app × Flow
  | app, [] => (app, Flow.next)
  | app, arg :: rest =>
    if is_help arg then
      (app, if print_command_help uninit opts then Flow.ret 0 else Flow.abort)
    else if !is_option_arg arg then (app, Flow.ret 1)
    else
      match find_option_from_list app opts arg with
      | none => (app, Flow.abort)
      | some none => (app, Flow.ret 1)
      | some (some k) =>
        let app1 := update_option app k mark_present
        if is_flag_at app1 k then
          parse_loop uninit opts (update_option app1 k store_true) rest
        else
          match rest with
          | [] => (app1, Flow.ret 1)
          | value :: rest2 =>
            if is_option_arg value then (app1, Flow.ret 1)
            else if value.length ≥ VALUE_SIZE then (app1, Flow.ret 1)
            else parse_loop uninit opts (update_option app1 k (store_value value)) rest2

/-- Does the option behind pointer `k` fail the required-option check? -/
def missing_required (app : cli_app) (k : Nat) : Bool :=
  match nth app.options k with
  | some o => o.required && !o.is_present
  | none => false

/-- The options behind a pointer list. -/
def deref (app : cli_app) (opts : List Nat) : List cli_option :=
  opts.filterMap (fun k => nth app.options k)

/-- Calling handler `f` with the pointer list `opts`. -/
def invoke (app : cli_app) (who : Callee) (f : cli_action) (opts : List Nat) : Run :=
  { app := app, calls := [{ callee := who, opts := deref app opts }], ret := some (f (deref app opts)) }

/-- `parse_command_args(app, cmd, argc, argv, start_index)` with `argc = argv.length`. -/
def parse_command_args (uninit : Nat) (app : cli_app) (cmd : Nat) (argv : List CString)
    (start_index : Nat) : Run :=
  let opts := get_command_options app (some cmd)
  match parse_loop uninit opts (reset_options app opts) (argv.drop start_index) with
  | (app1, Flow.abort) => { app := app1, calls := [], ret := none }
  | (app1, Flow.ret code) => { app := app1, calls := [], ret := some code }
  | (app1, Flow.next) =>
    if opts.any (missing_required app1) then { app := app1, calls := [], ret := some 1 }
    else
      match nth app1.commands cmd with
      | some c => invoke app1 (Callee.command cmd) c.action opts
      | none => { app := app1, calls := [], ret := none }

/-- `cli_app_run(app, argc, argv)` with `argc = argv.length`. A first word `--version`/`-v`
only prints and falls through to the command lookup. -/
def cli_app_run (uninit : Nat) (app : cli_app) (argv : List CString) : Run :=
  match argv with
  | [] | [_] =>
    match app.commands, app.default_action with
    | [], some f => invoke app Callee.default f []
    | _, _ => { app := app, calls := [], ret := some 1 }
  | _ :: first_arg :: _ =>
    if is_help first_arg then { app := app, calls := [], ret := some 0 }
    else
      match find_command app first_arg with
      | none =>
        match app.default_action with
        | some f => invoke app Callee.default f (get_command_options app none)
        | none => { app := app, calls := [], ret := some 1 }
      | some cmd => parse_command_args uninit app cmd argv 2

/-! ## Declarations -/

/-- `MAX_COMMAND_COUNT`. -/
def MAX_COMMAND_COUNT : Nat := 64

/-- `MAX_OPTION_COUNT`. -/
def MAX_OPTION_COUNT : Nat := 64

/-- `cli_app_create`: the application record it returns, both registries empty. -/
def cli_app_create (name version description : CString) (default_action : Option cli_action) :
    cli_app :=
  { name := name, version := version, description := description,
    commands := [], options := [], default_action := default_action }

/-- `cli_app_add_command`: `none` when it panics at capacity, otherwise the new state and the
pointer to the new command. -/
def cli_app_add_command (app : cli_app) (names : CString) (action : cli_action)
    (help_text : CString) : Option (cli_app × Nat) :=
  if app.commands.length + 1 > MAX_COMMAND_COUNT then none
  else
    some ({ app with commands :=
              app.commands ++ [{ names := names, action := action, help_text := help_text }] },
          app.commands.length)

/-- `cli_cmd_add_option`: `none` when it panics at capacity, otherwise the new state; the new
entry is zeroed before its declaration fields are set. -/
def cli_cmd_add_option (app : cli_app) (cmd : Option Nat) (names : CString)
    (required is_flag : Bool) (help_text : CString) : Option cli_app :=
  if app.options.length + 1 > MAX_OPTION_COUNT then none
  else
    some { app with options :=
             app.options ++ [{ names := names, help_text := help_text, command := cmd,
                               required := required, is_flag := is_flag,
                               is_present := false, value := memset_value }] }

/-- `cli_app_add_option`. -/
def cli_app_add_option (app : cli_app) (names : CString) (required is_flag : Bool)
    (help_text : CString) : Option cli_app :=
  cli_cmd_add_option app none names required is_flag help_text

/-- The states an application can be in: created, then changed by declarations that do not
panic and by calls of `cli_app_run`. -/
inductive Reachable : cli_app → Prop where
  | create (name version description : CString) (default_action : Option cli_action) :
      Reachable (cli_app_create name version description default_action)
  | add_command {app app2 : cli_app} {cmd : Nat} (names : CString) (action : cli_action)
      (help_text : CString) :
      Reachable app → cli_app_add_command app names action help_text = some (app2, cmd) →
      Reachable app2
  | add_option {app app2 : cli_app} (cmd : Option Nat) (names : CString)
      (required is_flag : Bool) (help_text : CString) :
      Reachable app → cli_cmd_add_option app cmd names required is_flag help_text = some app2 →
      Reachable app2
  | run {app : cli_app} (uninit : Nat) (argv : List CString) :
      Reachable app → Reachable (cli_app_run uninit app argv).app

/-! ## The demo application (`demo/main.c`) -/

/-- The registry `main` declares, for given `cmd_info` and `cmd_count` handlers:
commands `info, i` and `count, c` with their options. -/
def demo_app (cmd_info cmd_count : cli_action) : cli_app :=
  { name := "filetool".toList, version := "1.0.0".toList,
    description := "A file utility showcasing the clic library".toList,
    commands :=
      [ { names := "info, i".toList, action := cmd_info,
          help_text := "Display information about a file or directory".toList },
        { names := "count, c".toList, action := cmd_count,
          help_text := "Count lines, words, and characters".toList } ],
    options :=
      [ { names := "-p, --path".toList, help_text := "Path to inspect".toList,
          command := some 0, required := true, is_flag := false,
          is_present := false, value := memset_value },
        { names := "-v, --verbose".toList, help_text := "Show extended information".toList,
          command := some 0, required := false, is_flag := true,
          is_present := false, value := memset_value },
        { names := "-p, --path".toList, help_text := "File to analyze".toList,
          command := some 1, required := true, is_flag := false,
          is_present := false, value := memset_value },
        { names := "-l, --lines".toList, help_text := "Count lines only".toList,
          command := some 1, required := false, is_flag := true,
          is_present := false, value := memset_value },
        { names := "-w, --words".toList, help_text := "Count words only".toList,
          command := some 1, required := false, is_flag := true,
          is_present := false, value := memset_value },
        { names := "-c, --chars".toList, help_text := "Count characters only".toList,
          command := some 1, required := false, is_flag := true,
          is_present := false, value := memset_value } ],
    default_action := none }

/-- A handler that ignores its options and returns `code`. -/
def const_action (code : Int) : cli_action := fun _ => code

/-! ## Alias declarations, as the specification describes them -/

/-- A token of an alias declaration: non-empty, without a comma, not starting with a space. -/
def valid_token (t : CString) : Bool := t != [] && !t.contains ',' && t.head? != some ' '

/-- What follows the first token of an alias string: for each further token a comma, some
spaces (their number is the first component) and the token. -/
def alias_tail : List (Nat × CString) → CString
  | [] => []
  | p :: ps => ',' :: (List.replicate p.1 ' ' ++ p.2) ++ alias_tail ps

/-- The alias string built from the tokens `t0 :: rest.map Prod.snd`, joined by a comma
followed by zero or more spaces. -/
def alias_string (t0 : CString) (rest : List (Nat × CString)) : CString :=
  t0 ++ alias_tail rest

/-! ## Argument lists, as the specification describes them -/

/-- One item of a command's argument list: a flag token, or the token of a value-bearing option
followed by its value token. -/
inductive Item where
  | flag (tok : CString)
  | valued (tok val : CString)
  deriving DecidableEq

/-- The option token of an item. -/
def Item.tok : Item → CString
  | Item.flag t => t
  | Item.valued t _ => t

/-- The tokens of an item, in command-line order. -/
def Item.tokens : Item → List CString
  | Item.flag t => [t]
  | Item.valued t v => [t, v]

/-- The command line made of a list of items. -/
def item_tokens : List Item → List CString
  | [] => []
  | it :: its => it.tokens ++ item_tokens its

/-- The first word selects command `c`: it is not a help token and the command lookup of
`cli_app_run` on it yields `c`. -/
def selects (app : cli_app) (first_arg : CString) (c : Nat) : Bool :=
  !is_help first_arg && find_command app first_arg == some c

/-- The token resolves to option `k`: `k` is the first option of the list whose alias set
contains it. -/
def resolves (app : cli_app) (opts : List Nat) (tok : CString) (k : Nat) : Bool :=
  find_option_from_list app opts tok == some (some k)

/-- The token is taken by the parser as an occurrence of a flag (`flag = true`) or of a
value-bearing option (`flag = false`): it is not a help token, it starts with `-`, and it
resolves to an option of that kind. -/
def option_token (app : cli_app) (opts : List Nat) (flag : Bool) (tok : CString) : Bool :=
  !is_help tok && is_option_arg tok &&
    match find_option_from_list app opts tok with
    | some (some k) => is_flag_at app k == flag
    | _ => false

/-- A value token the parser accepts: it does not start with `-` and fits the buffer with its
terminator. -/
def value_token (v : CString) : Bool := !is_option_arg v && decide (v.length < VALUE_SIZE)

/-- An item the parser consumes without error. -/
def wf_item (app : cli_app) (opts : List Nat) : Item → Bool
  | Item.flag t => option_token app opts true t
  | Item.valued t v => option_token app opts false t && value_token v

/-- The declaration of an option: everything but its parse-time state. -/
def decl (o : cli_option) : cli_option := { o with is_present := false, value := [] }

/-- Is the option behind pointer `k` required? -/
def required_at (app : cli_app) (k : Nat) : Bool :=
  match nth app.options k with
  | some o => o.required
  | none => false

/-- The state after the parser has consumed one well-formed item. -/
def run_item (app : cli_app) (opts : List Nat) : Item → cli_app
  | Item.flag t =>
    match find_option_from_list app opts t with
    | some (some k) => update_option (update_option app k mark_present) k store_true
    | _ => app
  | Item.valued t v =>
    match find_option_from_list app opts t with
    | some (some k) => update_option (update_option app k mark_present) k (store_value v)
    | _ => app

/-- The state after the parser has consumed a list of well-formed items. -/
def run_items (app : cli_app) (opts : List Nat) : List Item → cli_app
  | [] => app
  | it :: its => run_items (run_item app opts it) opts its

/-! ## Argument lists, as the claims word them -/

/-- An item that is well-formed by alias membership alone: its token is an alias of some flag
of the list, or an alias of some value-bearing option of the list followed by a value token. -/
def alias_item (app : cli_app) (opts : List Nat) : Item → Bool
  | Item.flag t => opts.any (fun k => is_flag_at app k && matches_at app t k)
  | Item.valued t v => opts.any (fun k => !is_flag_at app k && matches_at app t k) && value_token v

/-- Every required option of the list has one of its aliases among the option tokens. -/
def required_occur (app : cli_app) (opts : List Nat) (items : List Item) : Bool :=
  opts.all (fun k => !required_at app k || items.any (fun it => matches_at app it.tok k))

/-- No token is `--help` or `-h`. -/
def no_help (toks : List CString) : Bool := toks.all (fun t => !is_help t)

/-- An application with one command `run` whose only option is a flag declared as `verbose`. -/
def dashless_app : cli_app :=
  { name := "tool".toList, version := "1".toList, description := [],
    commands := [{ names := "run".toList, action := const_action 0, help_text := [] }],
    options := [{ names := "verbose".toList, help_text := [], command := some 0,
                  required := false, is_flag := true, is_present := false,
                  value := memset_value }],
    default_action := none }

/-- An application with one command `run` that declares `-x` twice: first as a value-bearing
option, then as a flag. -/
def shadow_app : cli_app :=
  { name := "tool".toList, version := "1".toList, description := [],
    commands := [{ names := "run".toList, action := const_action 0, help_text := [] }],
    options := [{ names := "-x".toList, help_text := [], command := some 0,
                  required := false, is_flag := false, is_present := false,
                  value := memset_value },
                { names := "-x, --extra".toList, help_text := [], command := some 0,
                  required := false, is_flag := true, is_present := false,
                  value := memset_value }],
    default_action := none }

/-- An application with one command `run` that has no options. -/
def bare_app : cli_app :=
  { name := "tool".toList, version := "1".toList, description := [],
    commands := [{ names := "run".toList, action := const_action 0, help_text := [] }],
    options := [],
    default_action := none }

/-- An application with one command `connect` whose value-bearing option is declared as
`-h, --host`. -/
def host_app : cli_app :=
  { name := "tool".toList, version := "1".toList, description := [],
    commands := [{ names := "connect".toList, action := const_action 0, help_text := [] }],
    options := [{ names := "-h, --host".toList, help_text := [], command := some 0,
                  required := false, is_flag := false, is_present := false,
                  value := memset_value }],
    default_action := none }

/-- The handler behind a callee. -/
def handler_of (app : cli_app) : Callee → Option cli_action
  | Callee.command i => (nth app.commands i).map (fun cmd => cmd.action)
  | Callee.default => app.default_action

/-- `tool count -p file.txt -l`. -/
def demo_count_argv : List CString :=
  ["filetool".toList, "count".toList, "-p".toList, "file.txt".toList, "-l".toList]

/-- The items of `demo_count_argv`. -/
def demo_count_items : List Item :=
  [Item.valued "-p".toList "file.txt".toList, Item.flag "-l".toList]

/-- Two application states with the same declarations: they differ at most in the parse-time
state (`is_present`, `value`) of their options. -/
def DeclEq (a b : cli_app) : Prop :=
  a.commands = b.commands ∧ a.default_action = b.default_action ∧
    a.options.map decl = b.options.map decl

/-- What consuming an item does to the option its token resolves to. -/
def item_write : Item → cli_option → cli_option
  | Item.flag _, o => store_true (mark_present o)
  | Item.valued _ v, o => store_value v (mark_present o)

/-- The state of one option after a list of items, `hit` telling which items resolve to it. -/
def option_after (hit : Item → Bool) : cli_option → List Item → cli_option
  | o, [] => o
  | o, it :: its => option_after hit (if hit it then item_write it o else o) its

/-- Two states that have the same declarations and agree on the options behind `opts`. -/
def AgreeOn (opts : List Nat) (a b : cli_app) : Prop :=
  DeclEq a b ∧ ∀ k ∈ opts, nth a.options k = nth b.options k

/-! ## Top-level words and the option lookup helper -/

/-- `STREQ(first_arg, "--version") || STREQ(first_arg, "-v")`. -/
def is_version (arg : CString) : Bool :=
  arg == ['-', '-', 'v', 'e', 'r', 's', 'i', 'o', 'n'] || arg == ['-', 'v']

/-- Does `cli_app_run` reach the `printf` of `name version`? It is in the `else if` after the
help test on the first word, and only runs with at least two tokens. -/
def prints_version (argv : List CString) : Bool :=
  match argv with
  | _ :: first_arg :: _ => !is_help first_arg && is_version first_arg
  | _ => false

/-- `strstr(haystack, needle) != NULL`. -/
def strstr : List Char → List Char → Bool
  | [], needle => needle.isEmpty
  | c :: cs, needle => needle.isPrefixOf (c :: cs) || strstr cs needle

/-- `cli_get_option(opts, count, name)` on the option array `opts`: the index of the option it
returns a pointer to, `none` for `NULL`. -/
def cli_get_option (opts : List cli_option) (count : Nat) (name : CString) : Option Nat :=
  find_index_from (fun o => strstr o.names name && o.is_present) 0 (opts.take count)

/-- An application with a default handler returning 5, one command `run` with a flag `-q`, and
one global option `-g`. -/
def default_app : cli_app :=
  { name := "tool".toList, version := "1".toList, description := [],
    commands := [{ names := "run".toList, action := const_action 0, help_text := [] }],
    options := [{ names := "-q".toList, help_text := [], command := some 0,
                  required := false, is_flag := true, is_present := false,
                  value := memset_value },
                { names := "-g".toList, help_text := [], command := none,
                  required := false, is_flag := true, is_present := false,
                  value := memset_value }],
    default_action := some (const_action 5) }

/-- An application with a default handler returning 5 and no commands. -/
def plain_app : cli_app :=
  { name := "tool".toList, version := "1".toList, description := [],
    commands := [],
    options := [{ names := "-g".toList, help_text := [], command := none,
                  required := false, is_flag := true, is_present := false,
                  value := memset_value }],
    default_action := some (const_action 5) }

/-- An application whose only command is declared as `-h, help`, with a default handler. -/
def help_alias_app : cli_app :=
  { name := "tool".toList, version := "1".toList, description := [],
    commands := [{ names := "-h, help".toList, action := const_action 3, help_text := [] }],
    options := [],
    default_action := some (const_action 5) }

/-- An application whose two commands `count, c` and `copy, c` share the alias `c`. -/
def twin_app : cli_app :=
  { name := "tool".toList, version := "1".toList, description := [],
    commands := [{ names := "count, c".toList, action := const_action 1, help_text := [] },
                 { names := "copy, c".toList, action := const_action 2, help_text := [] }],
    options := [],
    default_action := none }

/-! ## Arena allocator

The target is a 64-bit one: `size_t` arithmetic is modulo `2 ^ 64`, a pointer is 8 bytes wide
and the arena header, two `size_t` fields, is 16 bytes. The memory of an arena is a map from
the offset of a byte, counted from the address of the arena, to the byte; what `malloc` left
in it is arbitrary. -/

/-- The modulus of `size_t` arithmetic. -/
def SIZE_MOD : Nat := 2 ^ 64

/-- `PAGESIZE`, that is `sizeof(void*)`. -/
def PAGESIZE : Nat := 8

/-- `ARENA_BASE`, that is `sizeof(cli_arena)`. -/
def ARENA_BASE : Nat := 16

/-- `cli_arena` with the memory that follows it. -/
structure cli_arena where
  capacity : Nat
  position : Nat
  bytes : Nat → Nat

/-- `a - b` on `size_t`. -/
def size_sub (a b : Nat) : Nat := (a % SIZE_MOD + SIZE_MOD - b % SIZE_MOD) % SIZE_MOD

/-- `~x` on `size_t`. -/
def size_not (x : Nat) : Nat := SIZE_MOD - 1 - x % SIZE_MOD

/-- `ALIGN_UP(x, align)`, that is `((x) + (align) - 1) & ~((align) - 1)` on `size_t`. -/
def ALIGN_UP (x align : Nat) : Nat :=
  size_sub ((x + align) % SIZE_MOD) 1 &&& size_not (size_sub align 1)

/-- `arena_create(capacity)` on the memory `malloc` returned. -/
def arena_create (capacity : Nat) (bytes : Nat → Nat) : cli_arena :=
  { capacity := capacity, position := ARENA_BASE, bytes := bytes }

/-- `memset(arena + off, 0, size)`. -/
def memset_zero (bytes : Nat → Nat) (off size : Nat) : Nat → Nat :=
  fun i => if off ≤ i ∧ i < off + size then 0 else bytes i

/-- `arena_push(arena, size, non_zero)`: `none` when it panics, otherwise the new arena and the
offset of the block it returns. The code never reads `non_zero`. -/
def arena_push (arena : cli_arena) (size : Nat) : Option (cli_arena × Nat) :=
  let position_aligned := ALIGN_UP arena.position PAGESIZE
  let new_position := (position_aligned + size) % SIZE_MOD
  if new_position > arena.capacity then none
  else
    some ({ arena with position := new_position,
                       bytes := memset_zero arena.bytes position_aligned size },
          position_aligned)

/-- `MINIMUM_CAPACITY`, that is `COMMANDS_SIZE + OPTIONS_SIZE + ARENA_BASE + sizeof(cli_app)`,
for given sizes of the three records. -/
def MINIMUM_CAPACITY (size_app size_command size_option : Nat) : Nat :=
  (((size_command * MAX_COMMAND_COUNT) % SIZE_MOD + (size_option * MAX_OPTION_COUNT) % SIZE_MOD
    + ARENA_BASE) % SIZE_MOD + size_app) % SIZE_MOD

/-- The allocations of `cli_app_create` for given sizes of the three records: `none` when one
of them panics, otherwise the arena they leave and the offsets of the application record, of
the command array and of the option array. -/
def cli_app_create_arena (size_app size_command size_option : Nat) (bytes : Nat → Nat) :
    Option (cli_arena × Nat × Nat × Nat) :=
  match arena_push
      (arena_create (MINIMUM_CAPACITY size_app size_command size_option) bytes) size_app with
  | none => none
  | some (a1, app) =>
    match arena_push a1 ((size_command * MAX_COMMAND_COUNT) % SIZE_MOD) with
    | none => none
    | some (a2, commands) =>
      match arena_push a2 ((size_option * MAX_OPTION_COUNT) % SIZE_MOD) with
      | none => none
      | some (a3, options) => some (a3, app, commands, options)

/-- A position rounded up to a multiple of `align`, in exact integers. -/
def round_up (x align : Nat) : Nat := (x + align - 1) / align * align

/-! ## Theorems -/

/-! ### The matcher -/

theorem dropWhile_comma_of_valid (u r : List Char) (hne : u ≠ []) (hc : ',' ∉ u) :
    (u ++ r).dropWhile (fun c => c == ',') = u ++ r := by
  cases u with
  | nil => exact absurd rfl hne
  | cons c cs =>
    have : c ≠ ',' := fun h => hc (by simp [h])
    simp [List.dropWhile_cons, this]

theorem takeWhile_ne_comma (u r : List Char) (hc : ',' ∉ u) :
    (u ++ ',' :: r).takeWhile (fun d => d != ',') = u := by
  induction u with
  | nil => simp [List.takeWhile]
  | cons c cs ih =>
    have h1 : c ≠ ',' := fun h => hc (by simp [h])
    have h2 : ',' ∉ cs := fun h => hc (by simp [h])
    simp [List.takeWhile_cons, h1, ih h2]

theorem dropWhile_ne_comma (u r : List Char) (hc : ',' ∉ u) :
    (u ++ ',' :: r).dropWhile (fun d => d != ',') = ',' :: r := by
  induction u with
  | nil => simp [List.dropWhile]
  | cons c cs ih =>
    have h1 : c ≠ ',' := fun h => hc (by simp [h])
    have h2 : ',' ∉ cs := fun h => hc (by simp [h])
    simp [List.dropWhile_cons, h1, ih h2]

theorem takeWhile_ne_comma_all (u : List Char) (hc : ',' ∉ u) :
    u.takeWhile (fun d => d != ',') = u := by
  induction u with
  | nil => rfl
  | cons c cs ih =>
    have h1 : c ≠ ',' := fun h => hc (by simp [h])
    have h2 : ',' ∉ cs := fun h => hc (by simp [h])
    simp [List.takeWhile_cons, h1, ih h2]

theorem dropWhile_ne_comma_all (u : List Char) (hc : ',' ∉ u) :
    u.dropWhile (fun d => d != ',') = [] := by
  induction u with
  | nil => rfl
  | cons c cs ih =>
    have h1 : c ≠ ',' := fun h => hc (by simp [h])
    have h2 : ',' ∉ cs := fun h => hc (by simp [h])
    simp [List.dropWhile_cons, h1, ih h2]

theorem strtok_last (u : List Char) (hne : u ≠ []) (hc : ',' ∉ u) :
    strtok u = some (u, []) := by
  have h := dropWhile_comma_of_valid u [] hne hc
  simp only [List.append_nil] at h
  unfold strtok
  rw [h]
  cases u with
  | nil => exact absurd rfl hne
  | cons c cs =>
    simp only []
    rw [takeWhile_ne_comma_all _ hc, dropWhile_ne_comma_all _ hc]
    rfl

theorem strtok_more (u r : List Char) (hne : u ≠ []) (hc : ',' ∉ u) :
    strtok (u ++ ',' :: r) = some (u, r) := by
  have h := dropWhile_comma_of_valid u (',' :: r) hne hc
  unfold strtok
  rw [h]
  cases u with
  | nil => exact absurd rfl hne
  | cons c cs =>
    simp only [List.cons_append]
    rw [← List.cons_append, takeWhile_ne_comma _ _ hc, dropWhile_ne_comma _ _ hc]
    rfl


/-! ### The fuel of `split_names` is enough -/

theorem length_dropWhile_le_self (p : Char → Bool) (l : List Char) :
    (l.dropWhile p).length ≤ l.length := by
  induction l with
  | nil => simp
  | cons c cs ih =>
    rw [List.dropWhile_cons]
    split
    · exact Nat.le_succ_of_le ih
    · exact Nat.le_refl _

theorem strtok_length (s : List Char) (tok : CString) (rest : List Char)
    (h : strtok s = some (tok, rest)) : rest.length < s.length := by
  unfold strtok at h
  have h1 := length_dropWhile_le_self (fun c => c == ',') s
  cases hs : s.dropWhile (fun c => c == ',') with
  | nil => rw [hs] at h; simp at h
  | cons c cs =>
    rw [hs] at h h1
    simp only [Option.some.injEq, Prod.mk.injEq] at h
    have h2 := length_dropWhile_le_self (fun d => d != ',') (c :: cs)
    have h3 : rest.length ≤ (List.dropWhile (fun d => d != ',') (c :: cs)).length := by
      rw [← h.2]; simp
    have hc : (c == ',') = false := by
      have := List.head_dropWhile_not (fun c => c == ',') s (by rw [hs]; simp)
      simpa [hs] using this
    have h4 : (List.dropWhile (fun d => d != ',') (c :: cs)).length ≤ cs.length := by
      rw [List.dropWhile_cons]
      have : (c != ',') = true := by simp [bne, hc]
      simp only [this, if_true]
      exact length_dropWhile_le_self _ cs
    simp only [List.length_cons] at h1
    omega

/-- Any fuel above the length of the text gives the same tokens: the loop of `split_names`
stops by itself, at the end of the text. -/
theorem split_names_loop_fuel (n : Nat) :
    ∀ (m : Nat) (s : List Char), s.length < n → s.length < m →
      split_names_loop n s = split_names_loop m s := by
  induction n with
  | zero => intro m s h; omega
  | succ n ih =>
    intro m s hn hm
    cases m with
    | zero => omega
    | succ m =>
      simp only [split_names_loop]
      cases hs : strtok s with
      | none => rfl
      | some p =>
        obtain ⟨tok, rest⟩ := p
        have := strtok_length s tok rest hs
        simp only
        rw [ih m rest (by omega) (by omega)]

/-! ### Alias strings -/

theorem valid_token_iff (t : CString) :
    valid_token t = true ↔ t ≠ [] ∧ ',' ∉ t ∧ t.head? ≠ some ' ' := by
  simp [valid_token, and_assoc]

theorem dropWhile_spaces (k : Nat) (t : CString) (h : t.head? ≠ some ' ') :
    (List.replicate k ' ' ++ t).dropWhile (fun c => c == ' ') = t := by
  induction k with
  | zero =>
    cases t with
    | nil => rfl
    | cons c cs =>
      have : c ≠ ' ' := fun hc => h (by simp [hc])
      simp [List.dropWhile_cons, this]
  | succ n ih => simpa [List.replicate_succ, List.dropWhile_cons] using ih

theorem split_names_loop_alias (rest : List (Nat × CString)) :
    ∀ (k : Nat) (t : CString) (fuel : Nat), valid_token t = true →
      (∀ p ∈ rest, valid_token p.2 = true) → rest.length + 1 ≤ fuel →
      split_names_loop fuel (List.replicate k ' ' ++ t ++ alias_tail rest)
        = t :: rest.map Prod.snd := by
  induction rest with
  | nil =>
    intro k t fuel ht _ hf
    obtain ⟨hne, hc, hs⟩ := (valid_token_iff t).1 ht
    have hu : List.replicate k ' ' ++ t ≠ [] := by simp [hne]
    have huc : ',' ∉ List.replicate k ' ' ++ t := by
      simp only [List.mem_append, not_or]
      exact ⟨fun hm => by simpa using List.eq_of_mem_replicate hm, hc⟩
    obtain ⟨f, rfl⟩ : ∃ f, fuel = f + 1 := ⟨fuel - 1, by omega⟩
    simp only [alias_tail, List.append_nil, split_names_loop, strtok_last _ hu huc,
      dropWhile_spaces k t hs]
    cases f <;> simp [split_names_loop, strtok]
  | cons p ps ih =>
    intro k t fuel ht hps hf
    obtain ⟨hne, hc, hs⟩ := (valid_token_iff t).1 ht
    have hu : List.replicate k ' ' ++ t ≠ [] := by simp [hne]
    have huc : ',' ∉ List.replicate k ' ' ++ t := by
      simp only [List.mem_append, not_or]
      exact ⟨fun hm => by simpa using List.eq_of_mem_replicate hm, hc⟩
    obtain ⟨f, rfl⟩ : ∃ f, fuel = f + 1 := ⟨fuel - 1, by omega⟩
    have e : List.replicate k ' ' ++ t ++ alias_tail (p :: ps)
        = (List.replicate k ' ' ++ t) ++ ',' :: (List.replicate p.1 ' ' ++ p.2 ++ alias_tail ps) := by
      simp [alias_tail]
    rw [e]
    simp only [split_names_loop, strtok_more _ _ hu huc, dropWhile_spaces k t hs]
    rw [ih p.1 p.2 f (hps p (by simp)) (fun q hq => hps q (by simp [hq]))
      (by simp only [List.length_cons] at hf; omega)]
    simp

theorem length_alias_tail (rest : List (Nat × CString)) : rest.length ≤ (alias_tail rest).length := by
  induction rest with
  | nil => simp
  | cons p ps ih => simp only [alias_tail, List.length_cons, List.length_append, List.cons_append]; omega

theorem split_names_alias (t0 : CString) (rest : List (Nat × CString))
    (h0 : valid_token t0 = true) (hr : ∀ p ∈ rest, valid_token p.2 = true) :
    split_names (alias_string t0 rest) = t0 :: rest.map Prod.snd := by
  have h := split_names_loop_alias rest 0 t0 ((alias_string t0 rest).length + 1) h0 hr
    (by have := length_alias_tail rest
        simp only [alias_string, List.length_append]; omega)
  simpa [split_names, alias_string] using h

/-- C2: for an alias string built from non-empty tokens, each without a comma and not
starting with a space, joined by a comma followed by zero or more spaces, `option_matches_name`
and the per-command test of `find_command` accept a string exactly when it equals one of the
tokens. -/
theorem C2_alias_matching (t0 : CString) (rest : List (Nat × CString)) (t : CString)
    (opt : cli_option) (cmd : cli_command)
    (h0 : valid_token t0 = true) (hr : ∀ p ∈ rest, valid_token p.2 = true)
    (hopt : opt.names = alias_string t0 rest) (hcmd : cmd.names = alias_string t0 rest) :
    (option_matches_name opt t = true ↔ t ∈ t0 :: rest.map Prod.snd) ∧
    (command_matches_name cmd t = true ↔ t ∈ t0 :: rest.map Prod.snd) := by
  have hs := split_names_alias t0 rest h0 hr
  constructor
  · simp only [option_matches_name, hopt, hs, List.any_eq_true, beq_iff_eq]
    constructor
    · rintro ⟨x, hx, rfl⟩; exact hx
    · intro h; exact ⟨t, h, rfl⟩
  · simp only [command_matches_name, hcmd, hs, List.any_eq_true, beq_iff_eq]
    constructor
    · rintro ⟨x, hx, rfl⟩; exact hx
    · intro h; exact ⟨t, h, rfl⟩

/-- C2, witness: the alias string `-p, --path` matches `--path`, and neither the prefix `--pa`
nor `-P`. -/
theorem C2_alias_matching_witness :
    valid_token "-p".toList = true ∧
    alias_string "-p".toList [(1, "--path".toList)] = "-p, --path".toList ∧
    option_matches_name
      { names := "-p, --path".toList, help_text := [], command := none, required := false,
        is_flag := false, is_present := false, value := memset_value } "--path".toList = true ∧
    command_matches_name
      { names := "-p, --path".toList, action := const_action 0, help_text := [] }
      "--path".toList = true ∧
    option_matches_name
      { names := "-p, --path".toList, help_text := [], command := none, required := false,
        is_flag := false, is_present := false, value := memset_value } "--pa".toList = false ∧
    option_matches_name
      { names := "-p, --path".toList, help_text := [], command := none, required := false,
        is_flag := false, is_present := false, value := memset_value } "-P".toList = false := by
  have h := C2_alias_matching "-p".toList [(1, "--path".toList)] "--path".toList
    { names := "-p, --path".toList, help_text := [], command := none, required := false,
      is_flag := false, is_present := false, value := memset_value }
    { names := "-p, --path".toList, action := const_action 0, help_text := [] }
    (by decide) (by decide) (by decide) (by decide)
  exact ⟨by decide, by decide, h.1.2 (by decide), h.2.2 (by decide), by decide, by decide⟩

/-! ### Arrays -/

theorem nth_modify_at_eq {α : Type} (f : α → α) (k : Nat) (l : List α) :
    nth (modify_at f k l) k = (nth l k).map f := by
  induction l generalizing k with
  | nil => cases k <;> rfl
  | cons x xs ih =>
    cases k with
    | zero => rfl
    | succ n => simpa [modify_at, nth] using ih n

theorem nth_modify_at_ne {α : Type} (f : α → α) (k j : Nat) (l : List α) (h : j ≠ k) :
    nth (modify_at f k l) j = nth l j := by
  induction l generalizing k j with
  | nil => cases k <;> rfl
  | cons x xs ih =>
    cases k with
    | zero =>
      cases j with
      | zero => exact absurd rfl h
      | succ m => rfl
    | succ n =>
      cases j with
      | zero => rfl
      | succ m => simpa [modify_at, nth] using ih n m (fun e => h (by rw [e]))

theorem map_modify_at {α β : Type} (g : α → β) (f : α → α) (hf : ∀ x, g (f x) = g x)
    (k : Nat) (l : List α) : (modify_at f k l).map g = l.map g := by
  induction l generalizing k with
  | nil => cases k <;> rfl
  | cons x xs ih =>
    cases k with
    | zero => simp [modify_at, hf]
    | succ n => simp [modify_at, ih n]

theorem nth_map {α β : Type} (g : α → β) (l : List α) (k : Nat) :
    nth (l.map g) k = (nth l k).map g := by
  induction l generalizing k with
  | nil => rfl
  | cons x xs ih =>
    cases k with
    | zero => rfl
    | succ n => simpa [nth] using ih n

theorem nth_mem {α : Type} (l : List α) (k : Nat) (x : α) (h : nth l k = some x) : x ∈ l := by
  induction l generalizing k with
  | nil => simp [nth] at h
  | cons y ys ih =>
    cases k with
    | zero => simp only [nth, Option.some.injEq] at h; simp [h]
    | succ n => exact List.mem_cons_of_mem _ (ih n h)

/-! ### Declarations are not touched by the parser -/

theorem DeclEq.refl (a : cli_app) : DeclEq a a := ⟨rfl, rfl, rfl⟩

theorem DeclEq.symm {a b : cli_app} (h : DeclEq a b) : DeclEq b a :=
  ⟨h.1.symm, h.2.1.symm, h.2.2.symm⟩

theorem DeclEq.trans {a b c : cli_app} (h1 : DeclEq a b) (h2 : DeclEq b c) : DeclEq a c :=
  ⟨h1.1.trans h2.1, h1.2.1.trans h2.2.1, h1.2.2.trans h2.2.2⟩

theorem decl_eq_update (app : cli_app) (k : Nat) (f : cli_option → cli_option)
    (hf : ∀ o, decl (f o) = decl o) : DeclEq app (update_option app k f) :=
  ⟨rfl, rfl, (map_modify_at decl f hf k app.options).symm⟩

theorem decl_nth {a b : cli_app} (h : DeclEq a b) (k : Nat) :
    (nth a.options k).map decl = (nth b.options k).map decl := by
  rw [← nth_map, ← nth_map, h.2.2]

theorem decl_field {a b : cli_app} (h : DeclEq a b) (k : Nat) {β : Type} (g : cli_option → β)
    (hg : ∀ o, g (decl o) = g o) (d : β) :
    ((nth a.options k).map g).getD d = ((nth b.options k).map g).getD d := by
  have e := decl_nth h k
  cases ha : nth a.options k with
  | none =>
    cases hb : nth b.options k with
    | none => rfl
    | some y => rw [ha, hb] at e; simp at e
  | some x =>
    cases hb : nth b.options k with
    | none => rw [ha, hb] at e; simp at e
    | some y =>
      rw [ha, hb] at e
      simp only [Option.map_some', Option.some.injEq] at e
      simp only [Option.map_some', Option.getD_some]
      rw [← hg x, ← hg y, e]

theorem matches_at_eq (app : cli_app) (arg : CString) (k : Nat) :
    matches_at app arg k = ((nth app.options k).map (fun o => option_matches_name o arg)).getD false := by
  unfold matches_at; cases nth app.options k <;> rfl

theorem is_flag_at_eq (app : cli_app) (k : Nat) :
    is_flag_at app k = ((nth app.options k).map (fun o => o.is_flag)).getD false := by
  unfold is_flag_at; cases nth app.options k <;> rfl

theorem required_at_eq (app : cli_app) (k : Nat) :
    required_at app k = ((nth app.options k).map (fun o => o.required)).getD false := by
  unfold required_at; cases nth app.options k <;> rfl

theorem matches_at_decl {a b : cli_app} (h : DeclEq a b) (arg : CString) :
    matches_at a arg = matches_at b arg := by
  funext k
  rw [matches_at_eq, matches_at_eq]
  exact decl_field h k (fun o => option_matches_name o arg) (fun _ => rfl) false

theorem is_flag_at_decl {a b : cli_app} (h : DeclEq a b) (k : Nat) :
    is_flag_at a k = is_flag_at b k := by
  rw [is_flag_at_eq, is_flag_at_eq]
  exact decl_field h k (fun o => o.is_flag) (fun _ => rfl) false

theorem required_at_decl {a b : cli_app} (h : DeclEq a b) (k : Nat) :
    required_at a k = required_at b k := by
  rw [required_at_eq, required_at_eq]
  exact decl_field h k (fun o => o.required) (fun _ => rfl) false

theorem find_option_decl {a b : cli_app} (h : DeclEq a b) (opts : List Nat) (arg : CString) :
    find_option_from_list a opts arg = find_option_from_list b opts arg := by
  unfold find_option_from_list
  rw [matches_at_decl h]

theorem get_command_options_from_map (cmd : Option Nat) (l1 l2 : List cli_option)
    (h : l1.map decl = l2.map decl) (i : Nat) :
    get_command_options_from cmd i l1 = get_command_options_from cmd i l2 := by
  induction l1 generalizing l2 i with
  | nil =>
    cases l2 with
    | nil => rfl
    | cons y ys => simp at h
  | cons x xs ih =>
    cases l2 with
    | nil => simp at h
    | cons y ys =>
      simp only [List.map_cons, List.cons.injEq] at h
      have hc : x.command = y.command :=
        show (decl x).command = (decl y).command from congrArg cli_option.command h.1
      simp only [get_command_options_from, hc, ih ys h.2]

theorem get_command_options_decl {a b : cli_app} (h : DeclEq a b) (cmd : Option Nat) :
    get_command_options a cmd = get_command_options b cmd :=
  get_command_options_from_map cmd _ _ h.2.2 0

theorem option_token_decl {a b : cli_app} (h : DeclEq a b) (opts : List Nat) (flag : Bool)
    (tok : CString) : option_token a opts flag tok = option_token b opts flag tok := by
  unfold option_token
  rw [find_option_decl h]
  cases find_option_from_list b opts tok with
  | none => rfl
  | some r =>
    cases r with
    | none => rfl
    | some k => simp only [is_flag_at_decl h]

theorem wf_item_decl {a b : cli_app} (h : DeclEq a b) (opts : List Nat) (it : Item) :
    wf_item a opts it = wf_item b opts it := by
  cases it <;> simp only [wf_item, option_token_decl h]

theorem decl_mark_present (o : cli_option) : decl (mark_present o) = decl o := rfl

theorem decl_store_true (o : cli_option) : decl (store_true o) = decl o := rfl

theorem decl_store_value (v : CString) (o : cli_option) : decl (store_value v o) = decl o := rfl

theorem decl_eq_reset (app : cli_app) (opts : List Nat) : DeclEq app (reset_options app opts) := by
  induction opts generalizing app with
  | nil => exact DeclEq.refl app
  | cons k ks ih =>
    simp only [reset_options]
    exact (decl_eq_update app k clear_option (fun _ => rfl)).trans (ih _)

theorem decl_eq_run_item (app : cli_app) (opts : List Nat) (it : Item) :
    DeclEq app (run_item app opts it) := by
  cases it with
  | flag t =>
    simp only [run_item]
    split
    · exact (decl_eq_update app _ _ decl_mark_present).trans (decl_eq_update _ _ _ decl_store_true)
    · exact DeclEq.refl app
  | valued t v =>
    simp only [run_item]
    split
    · exact (decl_eq_update app _ _ decl_mark_present).trans
        (decl_eq_update _ _ _ (decl_store_value v))
    · exact DeclEq.refl app

theorem decl_eq_run_items (app : cli_app) (opts : List Nat) (items : List Item) :
    DeclEq app (run_items app opts items) := by
  induction items generalizing app with
  | nil => exact DeclEq.refl app
  | cons it its ih => exact (decl_eq_run_item app opts it).trans (ih _)

/-! ### Steps of the parse loop -/

theorem option_token_iff (app : cli_app) (opts : List Nat) (flag : Bool) (tok : CString) :
    option_token app opts flag tok = true ↔
      is_help tok = false ∧ is_option_arg tok = true ∧
        ∃ k, find_option_from_list app opts tok = some (some k) ∧ is_flag_at app k = flag := by
  unfold option_token
  cases hf : find_option_from_list app opts tok with
  | none => simp
  | some r =>
    cases r with
    | none => simp
    | some k => simp [and_assoc]

theorem is_flag_at_mark (app : cli_app) (k j : Nat) :
    is_flag_at (update_option app k mark_present) j = is_flag_at app j :=
  (is_flag_at_decl (decl_eq_update app k mark_present decl_mark_present) j).symm

theorem parse_loop_flag (uninit : Nat) (app : cli_app) (opts : List Nat) (tok : CString)
    (rest : List CString) (h : option_token app opts true tok = true) :
    parse_loop uninit opts app (tok :: rest)
      = parse_loop uninit opts (run_item app opts (Item.flag tok)) rest := by
  obtain ⟨h1, h2, k, h3, h4⟩ := (option_token_iff app opts true tok).1 h
  simp [parse_loop, run_item, h1, h2, h3, h4, is_flag_at_mark]

theorem parse_loop_valued (uninit : Nat) (app : cli_app) (opts : List Nat) (tok v : CString)
    (rest : List CString) (h : option_token app opts false tok = true)
    (hv : value_token v = true) :
    parse_loop uninit opts app (tok :: v :: rest)
      = parse_loop uninit opts (run_item app opts (Item.valued tok v)) rest := by
  obtain ⟨h1, h2, k, h3, h4⟩ := (option_token_iff app opts false tok).1 h
  simp only [value_token, Bool.and_eq_true, Bool.not_eq_true', decide_eq_true_eq] at hv
  have hlen : ¬ v.length ≥ VALUE_SIZE := by omega
  simp [parse_loop, run_item, h1, h2, h3, h4, is_flag_at_mark, hv.1, hlen]

theorem parse_loop_item (uninit : Nat) (app : cli_app) (opts : List Nat) (it : Item)
    (rest : List CString) (h : wf_item app opts it = true) :
    parse_loop uninit opts app (it.tokens ++ rest)
      = parse_loop uninit opts (run_item app opts it) rest := by
  cases it with
  | flag t => exact parse_loop_flag uninit app opts t rest h
  | valued t v =>
    simp only [wf_item, Bool.and_eq_true] at h
    exact parse_loop_valued uninit app opts t v rest h.1 h.2

theorem parse_loop_items (uninit : Nat) (opts : List Nat) (items : List Item)
    (rest : List CString) :
    ∀ app : cli_app, (∀ it ∈ items, wf_item app opts it = true) →
      parse_loop uninit opts app (item_tokens items ++ rest)
        = parse_loop uninit opts (run_items app opts items) rest := by
  induction items with
  | nil => intro app _; rfl
  | cons it its ih =>
    intro app h
    have h1 : wf_item app opts it = true := h it (by simp)
    simp only [item_tokens, List.append_assoc, run_items]
    rw [parse_loop_item uninit app opts it _ h1]
    apply ih
    intro x hx
    rw [← wf_item_decl (decl_eq_run_item app opts it)]
    exact h x (by simp [hx])

/-! ### The state of one option along a parse -/

theorem nth_update_eq (app : cli_app) (k : Nat) (f : cli_option → cli_option) :
    nth (update_option app k f).options k = (nth app.options k).map f :=
  nth_modify_at_eq f k app.options

theorem nth_update_ne (app : cli_app) (k j : Nat) (f : cli_option → cli_option) (h : j ≠ k) :
    nth (update_option app k f).options j = nth app.options j :=
  nth_modify_at_ne f k j app.options h

theorem nth_update (app : cli_app) (k j : Nat) (f : cli_option → cli_option) :
    nth (update_option app k f).options j
      = (nth app.options j).map (fun o => if j = k then f o else o) := by
  by_cases h : j = k
  · subst h; simp [nth_update_eq]
  · simp [nth_update_ne app k j f h, h]

theorem nth_reset (opts : List Nat) :
    ∀ (app : cli_app) (k : Nat), nth (reset_options app opts).options k
      = (nth app.options k).map (fun o => if k ∈ opts then clear_option o else o) := by
  induction opts with
  | nil => intro app k; simp [reset_options]
  | cons k0 ks ih =>
    intro app k
    simp only [reset_options, ih, nth_update, Option.map_map]
    congr 1
    funext o
    by_cases h1 : k = k0 <;> by_cases h2 : k ∈ ks <;> simp [h1, h2, clear_option]

theorem resolves_iff (app : cli_app) (opts : List Nat) (tok : CString) (k : Nat) :
    resolves app opts tok k = true ↔ find_option_from_list app opts tok = some (some k) := by
  simp [resolves]

theorem resolves_decl {a b : cli_app} (h : DeclEq a b) (opts : List Nat) (tok : CString)
    (k : Nat) : resolves a opts tok k = resolves b opts tok k := by
  simp only [resolves, find_option_decl h]

theorem wf_item_resolves (app : cli_app) (opts : List Nat) (it : Item)
    (h : wf_item app opts it = true) :
    ∃ k, find_option_from_list app opts it.tok = some (some k) ∧
      (is_flag_at app k = true ↔ ∃ t, it = Item.flag t) := by
  cases it with
  | flag t =>
    obtain ⟨_, _, k, h3, h4⟩ := (option_token_iff app opts true t).1 h
    exact ⟨k, h3, by simp [h4]⟩
  | valued t v =>
    simp only [wf_item, Bool.and_eq_true] at h
    obtain ⟨_, _, k, h3, h4⟩ := (option_token_iff app opts false t).1 h.1
    exact ⟨k, h3, by simp [h4]⟩

theorem run_item_nth (app : cli_app) (opts : List Nat) (it : Item) (k : Nat)
    (h : wf_item app opts it = true) :
    nth (run_item app opts it).options k
      = (nth app.options k).map
          (fun o => if resolves app opts it.tok k then item_write it o else o) := by
  obtain ⟨k0, h0, _⟩ := wf_item_resolves app opts it h
  have hres : ∀ j, resolves app opts it.tok j = decide (k0 = j) := by
    intro j; simp [resolves, h0, beq_eq_decide]
  cases it with
  | flag t =>
    simp only [Item.tok] at h0 hres
    simp only [run_item, h0, nth_update, Option.map_map, Item.tok, hres]
    congr 1; funext o
    by_cases e : k = k0 <;> simp [e, item_write, eq_comm]
  | valued t v =>
    simp only [Item.tok] at h0 hres
    simp only [run_item, h0, nth_update, Option.map_map, Item.tok, hres]
    congr 1; funext o
    by_cases e : k = k0 <;> simp [e, item_write, eq_comm]

theorem run_items_nth (opts : List Nat) (k : Nat) (items : List Item) :
    ∀ app : cli_app, (∀ it ∈ items, wf_item app opts it = true) →
      nth (run_items app opts items).options k
        = (nth app.options k).map
            (fun o => option_after (fun it => resolves app opts it.tok k) o items) := by
  induction items with
  | nil => intro app _; simp [run_items, option_after]
  | cons it its ih =>
    intro app h
    have hd := decl_eq_run_item app opts it
    have h1 : wf_item app opts it = true := h it (by simp)
    have h2 : ∀ x ∈ its, wf_item (run_item app opts it) opts x = true := by
      intro x hx
      rw [← wf_item_decl hd]
      exact h x (by simp [hx])
    simp only [run_items, ih _ h2, run_item_nth app opts it k h1, Option.map_map, option_after]
    congr 1; funext o
    simp only [Function.comp, resolves_decl hd]

/-! ### The value buffer -/

theorem takeWhile_until (a : Char) (u r : List Char) (h : a ∉ u) :
    (u ++ a :: r).takeWhile (fun c => c != a) = u := by
  induction u with
  | nil => simp [List.takeWhile_cons]
  | cons c cs ih =>
    have h1 : c ≠ a := fun e => h (by simp [e])
    have h2 : a ∉ cs := fun e => h (by simp [e])
    simp [List.takeWhile_cons, h1, ih h2]

theorem cstr_memset : cstr memset_value = [] := by
  rfl

theorem cstr_write (v : CString) (buf : List Char) (h : NUL ∉ v) :
    cstr (write_bytes (v ++ [NUL]) buf) = v := by
  unfold cstr write_bytes
  rw [List.append_assoc]
  exact takeWhile_until NUL v _ h

theorem cstr_true (buf : List Char) :
    cstr (write_bytes ['t', 'r', 'u', 'e', NUL] buf) = ['t', 'r', 'u', 'e'] :=
  cstr_write ['t', 'r', 'u', 'e'] buf (by decide)

/-! ### One option under a list of items -/

theorem option_after_miss (hit : Item → Bool) (items : List Item) :
    ∀ o : cli_option, items.any hit = false → option_after hit o items = o := by
  induction items with
  | nil => intro o _; rfl
  | cons it its ih =>
    intro o h
    simp only [List.any_cons, Bool.or_eq_false_iff] at h
    simp only [option_after, h.1, Bool.false_eq_true, if_false]
    exact ih o h.2

theorem decl_item_write (it : Item) (o : cli_option) : decl (item_write it o) = decl o := by
  cases it <;> rfl

theorem item_write_present (it : Item) (o : cli_option) : (item_write it o).is_present = true := by
  cases it <;> rfl

theorem decl_option_after (hit : Item → Bool) (items : List Item) :
    ∀ o : cli_option, decl (option_after hit o items) = decl o := by
  induction items with
  | nil => intro o; rfl
  | cons it its ih =>
    intro o
    simp only [option_after, ih]
    split
    · exact decl_item_write it o
    · rfl

theorem option_after_present (hit : Item → Bool) (items : List Item) :
    ∀ o : cli_option,
      (option_after hit o items).is_present = (o.is_present || items.any hit) := by
  induction items with
  | nil => intro o; simp [option_after]
  | cons it its ih =>
    intro o
    simp only [option_after, ih, List.any_cons]
    by_cases h : hit it = true
    · simp [h, item_write_present]
    · simp [h]

theorem option_after_flag (hit : Item → Bool) (items : List Item)
    (hk : ∀ it ∈ items, hit it = true → ∃ t, it = Item.flag t) :
    ∀ o : cli_option, items.any hit = true →
      cstr (option_after hit o items).value = ['t', 'r', 'u', 'e'] := by
  induction items with
  | nil => intro o h; simp at h
  | cons it its ih =>
    intro o h
    simp only [option_after]
    by_cases h2 : its.any hit = true
    · exact ih (fun x hx => hk x (by simp [hx])) _ h2
    · have h2f : its.any hit = false := by simpa using h2
      rw [option_after_miss hit its _ h2f]
      have h1 : hit it = true := by
        simp only [List.any_cons, Bool.or_eq_true] at h
        rcases h with h | h
        · exact h
        · exact absurd h h2
      obtain ⟨t, rfl⟩ := hk it (by simp) h1
      simp only [h1, if_true, item_write, store_true]
      exact cstr_true _

theorem option_after_value (hit : Item → Bool) (items : List Item)
    (hk : ∀ it ∈ items, hit it = true → ∃ t v, it = Item.valued t v ∧ NUL ∉ v) :
    ∀ o : cli_option, items.any hit = true →
      ∃ pre t v post, items = pre ++ Item.valued t v :: post ∧ hit (Item.valued t v) = true ∧
        (∀ it ∈ post, hit it = false) ∧ cstr (option_after hit o items).value = v := by
  induction items with
  | nil => intro o h; simp at h
  | cons it its ih =>
    intro o h
    simp only [option_after]
    by_cases h2 : its.any hit = true
    · obtain ⟨pre, t, v, post, e, h3, h4, h5⟩ := ih (fun x hx => hk x (by simp [hx]))
        (if hit it then item_write it o else o) h2
      exact ⟨it :: pre, t, v, post, by simp [e], h3, h4, h5⟩
    · have h2f : its.any hit = false := by simpa using h2
      rw [option_after_miss hit its _ h2f]
      have h1 : hit it = true := by
        simp only [List.any_cons, Bool.or_eq_true] at h
        rcases h with h | h
        · exact h
        · exact absurd h h2
      obtain ⟨t, v, rfl, hv⟩ := hk it (by simp) h1
      refine ⟨[], t, v, its, rfl, h1, ?_, ?_⟩
      · intro x hx
        have := List.any_eq_false.1 h2f x hx
        simpa using this
      · simp only [h1, if_true, item_write, store_value]
        exact cstr_write v _ hv

/-! ### Command lookup and option lists -/

theorem nth_append_length {α : Type} (pre : List α) (x : α) (xs : List α) :
    nth (pre ++ x :: xs) pre.length = some x := by
  induction pre with
  | nil => rfl
  | cons p ps ih => simpa [nth] using ih

theorem find_index_from_some {α : Type} (p : α → Bool) (l : List α) :
    ∀ (i j : Nat), find_index_from p i l = some j →
      i ≤ j ∧ ∃ x, nth l (j - i) = some x ∧ p x = true := by
  induction l with
  | nil => intro i j h; simp [find_index_from] at h
  | cons x xs ih =>
    intro i j h
    simp only [find_index_from] at h
    by_cases hp : p x = true
    · simp only [hp, if_true, Option.some.injEq] at h
      subst h
      exact ⟨Nat.le_refl _, x, by simp [nth], hp⟩
    · simp only [hp, Bool.false_eq_true, if_false] at h
      obtain ⟨h1, y, h2, h3⟩ := ih (i + 1) j h
      refine ⟨by omega, y, ?_, h3⟩
      have e : j - i = (j - (i + 1)) + 1 := by omega
      rw [e]
      exact h2

theorem find_command_some (app : cli_app) (name : CString) (c : Nat)
    (h : find_command app name = some c) :
    ∃ cmd, nth app.commands c = some cmd ∧ command_matches_name cmd name = true := by
  obtain ⟨_, x, h1, h2⟩ := find_index_from_some _ _ 0 c h
  exact ⟨x, by simpa using h1, h2⟩

theorem mem_get_command_options_from (cmd : Option Nat) (os : List cli_option) :
    ∀ (i k : Nat), k ∈ get_command_options_from cmd i os ↔
      i ≤ k ∧ ∃ o, nth os (k - i) = some o ∧ o.command = cmd := by
  induction os with
  | nil => intro i k; simp [get_command_options_from, nth]
  | cons o os ih =>
    intro i k
    have step : (i + 1 ≤ k ∧ ∃ o2, nth os (k - (i + 1)) = some o2 ∧ o2.command = cmd) ↔
        (i < k ∧ ∃ o2, nth (o :: os) (k - i) = some o2 ∧ o2.command = cmd) := by
      constructor
      · rintro ⟨h1, o2, h2, h3⟩
        refine ⟨h1, o2, ?_, h3⟩
        have e : k - i = (k - (i + 1)) + 1 := by omega
        rw [e]; exact h2
      · rintro ⟨h1, o2, h2, h3⟩
        refine ⟨h1, o2, ?_, h3⟩
        have e : k - i = (k - (i + 1)) + 1 := by omega
        rw [e] at h2; exact h2
    simp only [get_command_options_from]
    by_cases hc : o.command = cmd
    · simp only [hc, if_true, List.mem_cons, ih, step]
      constructor
      · rintro (h | h)
        · subst h; exact ⟨Nat.le_refl _, o, by simp [nth], hc⟩
        · exact ⟨Nat.le_of_lt h.1, h.2⟩
      · rintro ⟨h1, h2⟩
        by_cases e : k = i
        · exact Or.inl e
        · exact Or.inr ⟨by omega, h2⟩
    · simp only [hc, if_false, ih, step]
      constructor
      · rintro h; exact ⟨Nat.le_of_lt h.1, h.2⟩
      · rintro ⟨h1, o2, h2, h3⟩
        by_cases e : k = i
        · subst e
          simp only [Nat.sub_self, nth, Option.some.injEq] at h2
          subst h2
          exact absurd h3 hc
        · exact ⟨by omega, o2, h2, h3⟩

theorem mem_get_command_options (app : cli_app) (cmd : Option Nat) (k : Nat) :
    k ∈ get_command_options app cmd ↔ ∃ o, nth app.options k = some o ∧ o.command = cmd := by
  simp [get_command_options, mem_get_command_options_from]

theorem deref_from (cmd : Option Nat) (os : List cli_option) :
    ∀ pre : List cli_option,
      (get_command_options_from cmd pre.length os).filterMap (fun k => nth (pre ++ os) k)
        = os.filter (fun o => o.command == cmd) := by
  induction os with
  | nil => intro pre; rfl
  | cons o os ih =>
    intro pre
    have e : pre ++ o :: os = (pre ++ [o]) ++ os := by simp
    have ih2 := ih (pre ++ [o])
    rw [← e] at ih2
    simp only [List.length_append, List.length_singleton] at ih2
    simp only [get_command_options_from]
    by_cases hc : o.command = cmd
    · subst hc
      simp only [if_true, List.filterMap_cons, nth_append_length, List.filter_cons,
        beq_self_eq_true]
      rw [ih2]
    · have hb : (o.command == cmd) = false := by simpa using hc
      simp only [hc, if_false, List.filter_cons, hb, Bool.false_eq_true]
      exact ih2

theorem deref_get_command_options (app : cli_app) (cmd : Option Nat) :
    deref app (get_command_options app cmd) = app.options.filter (fun o => o.command == cmd) := by
  have := deref_from cmd app.options []
  simpa [deref, get_command_options] using this

/-! ### The parse loop, case by case -/

theorem parse_loop_help (uninit : Nat) (app : cli_app) (opts : List Nat) (arg : CString)
    (rest : List CString) (h : is_help arg = true) :
    parse_loop uninit opts app (arg :: rest)
      = (app, if print_command_help uninit opts then Flow.ret 0 else Flow.abort) := by
  simp [parse_loop, h]

theorem parse_loop_unexpected (uninit : Nat) (app : cli_app) (opts : List Nat) (arg : CString)
    (rest : List CString) (h : is_help arg = false) (hd : is_option_arg arg = false) :
    parse_loop uninit opts app (arg :: rest) = (app, Flow.ret 1) := by
  simp [parse_loop, h, hd]

theorem parse_loop_assert (uninit : Nat) (app : cli_app) (opts : List Nat) (arg : CString)
    (rest : List CString) (h : is_help arg = false) (hd : is_option_arg arg = true)
    (hf : find_option_from_list app opts arg = none) :
    parse_loop uninit opts app (arg :: rest) = (app, Flow.abort) := by
  simp [parse_loop, h, hd, hf]

theorem parse_loop_unknown (uninit : Nat) (app : cli_app) (opts : List Nat) (arg : CString)
    (rest : List CString) (h : is_help arg = false) (hd : is_option_arg arg = true)
    (hf : find_option_from_list app opts arg = some none) :
    parse_loop uninit opts app (arg :: rest) = (app, Flow.ret 1) := by
  simp [parse_loop, h, hd, hf]

theorem parse_loop_flag_at (uninit : Nat) (app : cli_app) (opts : List Nat) (arg : CString)
    (rest : List CString) (k : Nat) (h : is_help arg = false) (hd : is_option_arg arg = true)
    (hf : find_option_from_list app opts arg = some (some k)) (hk : is_flag_at app k = true) :
    parse_loop uninit opts app (arg :: rest)
      = parse_loop uninit opts
          (update_option (update_option app k mark_present) k store_true) rest := by
  simp [parse_loop, h, hd, hf, hk, is_flag_at_mark]

theorem parse_loop_no_value (uninit : Nat) (app : cli_app) (opts : List Nat) (arg : CString)
    (rest : List CString) (k : Nat) (h : is_help arg = false) (hd : is_option_arg arg = true)
    (hf : find_option_from_list app opts arg = some (some k)) (hk : is_flag_at app k = false)
    (hr : rest = [] ∨ ∃ v rest2, rest = v :: rest2 ∧
      (is_option_arg v = true ∨ VALUE_SIZE ≤ v.length)) :
    parse_loop uninit opts app (arg :: rest) = (update_option app k mark_present, Flow.ret 1) := by
  rcases hr with rfl | ⟨v, rest2, rfl, hv | hv⟩
  · simp [parse_loop, h, hd, hf, hk, is_flag_at_mark]
  · simp [parse_loop, h, hd, hf, hk, is_flag_at_mark, hv]
  · simp [parse_loop, h, hd, hf, hk, is_flag_at_mark, hv]

theorem parse_loop_value_at (uninit : Nat) (app : cli_app) (opts : List Nat) (arg v : CString)
    (rest : List CString) (k : Nat) (h : is_help arg = false) (hd : is_option_arg arg = true)
    (hf : find_option_from_list app opts arg = some (some k)) (hk : is_flag_at app k = false)
    (hv : is_option_arg v = false) (hl : v.length < VALUE_SIZE) :
    parse_loop uninit opts app (arg :: v :: rest)
      = parse_loop uninit opts
          (update_option (update_option app k mark_present) k (store_value v)) rest := by
  have hlen : ¬ v.length ≥ VALUE_SIZE := by omega
  simp [parse_loop, h, hd, hf, hk, is_flag_at_mark, hv, hlen]

/-- Induction along the parse loop: one case per way an iteration can end. -/
theorem parse_loop_induction (uninit : Nat) (opts : List Nat)
    (motive : cli_app → List CString → cli_app × Flow → Prop)
    (h_end : ∀ app, motive app [] (app, Flow.next))
    (h_help : ∀ app arg rest, is_help arg = true →
      motive app (arg :: rest)
        (app, if print_command_help uninit opts then Flow.ret 0 else Flow.abort))
    (h_unexpected : ∀ app arg rest, is_help arg = false → is_option_arg arg = false →
      motive app (arg :: rest) (app, Flow.ret 1))
    (h_assert : ∀ app arg rest, is_help arg = false → is_option_arg arg = true →
      find_option_from_list app opts arg = none → motive app (arg :: rest) (app, Flow.abort))
    (h_unknown : ∀ app arg rest, is_help arg = false → is_option_arg arg = true →
      find_option_from_list app opts arg = some none → motive app (arg :: rest) (app, Flow.ret 1))
    (h_flag : ∀ app arg rest k, is_help arg = false → is_option_arg arg = true →
      find_option_from_list app opts arg = some (some k) → is_flag_at app k = true →
      motive (update_option (update_option app k mark_present) k store_true) rest
        (parse_loop uninit opts (update_option (update_option app k mark_present) k store_true)
          rest) →
      motive app (arg :: rest)
        (parse_loop uninit opts (update_option (update_option app k mark_present) k store_true)
          rest))
    (h_no_value : ∀ app arg rest k, is_help arg = false → is_option_arg arg = true →
      find_option_from_list app opts arg = some (some k) → is_flag_at app k = false →
      (rest = [] ∨ ∃ v rest2, rest = v :: rest2 ∧
        (is_option_arg v = true ∨ VALUE_SIZE ≤ v.length)) →
      motive app (arg :: rest) (update_option app k mark_present, Flow.ret 1))
    (h_value : ∀ app arg v rest k, is_help arg = false → is_option_arg arg = true →
      find_option_from_list app opts arg = some (some k) → is_flag_at app k = false →
      is_option_arg v = false → v.length < VALUE_SIZE →
      motive (update_option (update_option app k mark_present) k (store_value v)) rest
        (parse_loop uninit opts
          (update_option (update_option app k mark_present) k (store_value v)) rest) →
      motive app (arg :: v :: rest)
        (parse_loop uninit opts
          (update_option (update_option app k mark_present) k (store_value v)) rest)) :
    ∀ (toks : List CString) (app : cli_app), motive app toks (parse_loop uninit opts app toks) := by
  have main : ∀ (n : Nat) (toks : List CString), toks.length ≤ n →
      ∀ app : cli_app, motive app toks (parse_loop uninit opts app toks) := by
    intro n
    induction n with
    | zero =>
      intro toks hl app
      have : toks = [] := List.length_eq_zero.1 (by omega)
      subst this
      exact h_end app
    | succ n ih =>
      intro toks hl app
      cases toks with
      | nil => exact h_end app
      | cons arg rest =>
        simp only [List.length_cons] at hl
        by_cases hh : is_help arg = true
        · rw [parse_loop_help uninit app opts arg rest hh]
          exact h_help app arg rest hh
        have hh : is_help arg = false := by simpa using hh
        by_cases hd : is_option_arg arg = true
        swap
        · have hd : is_option_arg arg = false := by simpa using hd
          rw [parse_loop_unexpected uninit app opts arg rest hh hd]
          exact h_unexpected app arg rest hh hd
        cases hf : find_option_from_list app opts arg with
        | none =>
          rw [parse_loop_assert uninit app opts arg rest hh hd hf]
          exact h_assert app arg rest hh hd hf
        | some r =>
          cases r with
          | none =>
            rw [parse_loop_unknown uninit app opts arg rest hh hd hf]
            exact h_unknown app arg rest hh hd hf
          | some k =>
            by_cases hk : is_flag_at app k = true
            · rw [parse_loop_flag_at uninit app opts arg rest k hh hd hf hk]
              exact h_flag app arg rest k hh hd hf hk (ih rest (by omega) _)
            have hk : is_flag_at app k = false := by simpa using hk
            cases rest with
            | nil =>
              rw [parse_loop_no_value uninit app opts arg [] k hh hd hf hk (Or.inl rfl)]
              exact h_no_value app arg [] k hh hd hf hk (Or.inl rfl)
            | cons v rest2 =>
              simp only [List.length_cons] at hl
              by_cases hv : is_option_arg v = true
              · have hr : (v :: rest2 = [] ∨ ∃ v2 r2, v :: rest2 = v2 :: r2 ∧
                    (is_option_arg v2 = true ∨ VALUE_SIZE ≤ v2.length)) :=
                  Or.inr ⟨v, rest2, rfl, Or.inl hv⟩
                rw [parse_loop_no_value uninit app opts arg _ k hh hd hf hk hr]
                exact h_no_value app arg _ k hh hd hf hk hr
              have hv : is_option_arg v = false := by simpa using hv
              by_cases hl2 : VALUE_SIZE ≤ v.length
              · have hr : (v :: rest2 = [] ∨ ∃ v2 r2, v :: rest2 = v2 :: r2 ∧
                    (is_option_arg v2 = true ∨ VALUE_SIZE ≤ v2.length)) :=
                  Or.inr ⟨v, rest2, rfl, Or.inr hl2⟩
                rw [parse_loop_no_value uninit app opts arg _ k hh hd hf hk hr]
                exact h_no_value app arg _ k hh hd hf hk hr
              have hl3 : v.length < VALUE_SIZE := by omega
              rw [parse_loop_value_at uninit app opts arg v rest2 k hh hd hf hk hv hl3]
              exact h_value app arg v rest2 k hh hd hf hk hv hl3 (ih rest2 (by omega) _)
  intro toks app
  exact main toks.length toks (Nat.le_refl _) app

/-! ### Dispatch -/

theorem selects_iff (app : cli_app) (w : CString) (c : Nat) :
    selects app w c = true ↔ is_help w = false ∧ find_command app w = some c := by
  simp [selects]

theorem cli_app_run_selected (uninit : Nat) (app : cli_app) (a0 w : CString)
    (toks : List CString) (c : Nat) (h : selects app w c = true) :
    cli_app_run uninit app (a0 :: w :: toks)
      = parse_command_args uninit app c (a0 :: w :: toks) 2 := by
  obtain ⟨h1, h2⟩ := (selects_iff app w c).1 h
  simp [cli_app_run, h1, h2]

theorem parse_command_args_next (uninit : Nat) (app : cli_app) (c : Nat) (a0 w : CString)
    (toks : List CString) (appF : cli_app) (cmd : cli_command)
    (hloop : parse_loop uninit (get_command_options app (some c))
      (reset_options app (get_command_options app (some c))) toks = (appF, Flow.next))
    (hreq : (get_command_options app (some c)).any (missing_required appF) = false)
    (hcmd : nth appF.commands c = some cmd) :
    parse_command_args uninit app c (a0 :: w :: toks) 2
      = invoke appF (Callee.command c) cmd.action (get_command_options app (some c)) := by
  simp [parse_command_args, hloop, hreq, hcmd]

theorem missing_required_eq (app : cli_app) (k : Nat) :
    missing_required app k
      = ((nth app.options k).map (fun o => o.required && !o.is_present)).getD false := by
  unfold missing_required; cases nth app.options k <;> rfl

theorem well_formed_loop (uninit : Nat) (app : cli_app) (opts : List Nat) (items : List Item)
    (hwf : ∀ it ∈ items, wf_item app opts it = true) :
    parse_loop uninit opts (reset_options app opts) (item_tokens items)
      = (run_items (reset_options app opts) opts items, Flow.next) := by
  have hwf0 : ∀ it ∈ items, wf_item (reset_options app opts) opts it = true := by
    intro it hit; rw [← wf_item_decl (decl_eq_reset app opts)]; exact hwf it hit
  have := parse_loop_items uninit opts items [] (reset_options app opts) hwf0
  simpa [parse_loop] using this

theorem decl_eq_final (app : cli_app) (opts : List Nat) (items : List Item) :
    DeclEq app (run_items (reset_options app opts) opts items) :=
  (decl_eq_reset app opts).trans (decl_eq_run_items _ opts items)

/-- After a well-formed parse, every option of the command is its cleared state followed by
the writes of the items that resolved to it. -/
theorem well_formed_state (app : cli_app) (c : Nat) (opts : List Nat) (items : List Item)
    (hopts : get_command_options app (some c) = opts)
    (hwf : ∀ it ∈ items, wf_item app opts it = true) (k : Nat) (o : cli_option)
    (hk : nth (run_items (reset_options app opts) opts items).options k = some o)
    (hc : o.command = some c) :
    ∃ o0, nth app.options k = some o0 ∧ k ∈ opts ∧
      o = option_after (fun it => resolves app opts it.tok k) (clear_option o0) items := by
  have hd0 : DeclEq app (reset_options app opts) := decl_eq_reset app opts
  have hwf0 : ∀ it ∈ items, wf_item (reset_options app opts) opts it = true := by
    intro it hit; rw [← wf_item_decl hd0]; exact hwf it hit
  rw [run_items_nth opts k items _ hwf0, nth_reset] at hk
  cases h0 : nth app.options k with
  | none => rw [h0] at hk; simp at hk
  | some o0 =>
    rw [h0] at hk
    simp only [Option.map_some', Option.some.injEq] at hk
    have hres : (fun it : Item => resolves (reset_options app opts) opts it.tok k)
        = (fun it : Item => resolves app opts it.tok k) := by
      funext it; exact (resolves_decl hd0 opts it.tok k).symm
    rw [hres] at hk
    have hc0 : o0.command = some c := by
      have h1 := congrArg cli_option.command (decl_option_after
        (fun it => resolves app opts it.tok k) items (if k ∈ opts then clear_option o0 else o0))
      rw [hk] at h1
      have h2 : (decl o).command = o.command := rfl
      rw [h2, hc] at h1
      split at h1
      · exact h1.symm
      · exact h1.symm
    have hmem : k ∈ opts := by
      rw [← hopts]; exact (mem_get_command_options app (some c) k).2 ⟨o0, h0, hc0⟩
    simp only [hmem, if_true] at hk
    exact ⟨o0, rfl, hmem, hk.symm⟩

theorem well_formed_required (app : cli_app) (c : Nat) (opts : List Nat) (items : List Item)
    (hopts : get_command_options app (some c) = opts)
    (hwf : ∀ it ∈ items, wf_item app opts it = true)
    (hreq : ∀ k ∈ opts, required_at app k = true →
      ∃ it ∈ items, resolves app opts it.tok k = true) :
    opts.any (missing_required (run_items (reset_options app opts) opts items)) = false := by
  have hdF := decl_eq_final app opts items
  rw [List.any_eq_false]
  intro k hk
  rw [missing_required_eq]
  cases hF : nth (run_items (reset_options app opts) opts items).options k with
  | none => simp
  | some o =>
    have hmem := hk
    rw [← hopts] at hmem
    obtain ⟨o1, h1, hc1⟩ := (mem_get_command_options app (some c) k).1 hmem
    have hco : o.command = some c := by
      have := decl_nth hdF k
      rw [h1, hF] at this
      simp only [Option.map_some', Option.some.injEq] at this
      have e := congrArg cli_option.command this
      exact (show (decl o1).command = (decl o).command from e) ▸ hc1
    obtain ⟨o0, h0, _, ho⟩ := well_formed_state app c opts items hopts hwf k o hF hco
    simp only [Option.map_some', Option.getD_some, Bool.and_eq_true, Bool.not_eq_true',
      not_and, Bool.not_eq_false]
    intro hr
    have hreq0 : required_at app k = true := by
      have e := congrArg cli_option.required (decl_option_after
        (fun it => resolves app opts it.tok k) items (clear_option o0))
      rw [← ho] at e
      have : o.required = o0.required := e
      simp [required_at, h0, ← this, hr]
    obtain ⟨it, hit, hres⟩ := hreq k hk hreq0
    rw [ho, option_after_present]
    simp only [Bool.or_eq_true, List.any_eq_true]
    exact Or.inr ⟨it, hit, hres⟩

/-- A well-formed argument list with every required option supplied reaches the handler. -/
theorem well_formed_run (uninit : Nat) (app : cli_app) (a0 w : CString) (c : Nat)
    (opts : List Nat) (items : List Item) (cmd : cli_command)
    (hsel : selects app w c = true) (hcmd : nth app.commands c = some cmd)
    (hopts : get_command_options app (some c) = opts)
    (hwf : ∀ it ∈ items, wf_item app opts it = true)
    (hreq : ∀ k ∈ opts, required_at app k = true →
      ∃ it ∈ items, resolves app opts it.tok k = true) :
    cli_app_run uninit app (a0 :: w :: item_tokens items)
      = { app := run_items (reset_options app opts) opts items,
          calls := [{ callee := Callee.command c,
                      opts := (run_items (reset_options app opts) opts items).options.filter
                        (fun o => o.command == some c) }],
          ret := some (cmd.action
            ((run_items (reset_options app opts) opts items).options.filter
              (fun o => o.command == some c))) } := by
  have hdF := decl_eq_final app opts items
  have hcmdF : nth (run_items (reset_options app opts) opts items).commands c = some cmd := by
    rw [← hdF.1]; exact hcmd
  rw [cli_app_run_selected uninit app a0 w _ c hsel,
    parse_command_args_next uninit app c a0 w _ _ cmd
      (by rw [hopts]; exact well_formed_loop uninit app opts items hwf)
      (by rw [hopts]; exact well_formed_required app c opts items hopts hwf hreq) hcmdF]
  have hderef : deref (run_items (reset_options app opts) opts items) opts
      = (run_items (reset_options app opts) opts items).options.filter
          (fun o => o.command == some c) := by
    rw [← deref_get_command_options, ← get_command_options_decl hdF, hopts]
  simp only [invoke, hopts, hderef]

/-- C1 (amended): when the first word selects command `c` and the remaining tokens are a
concatenation of items the parser accepts (a token other than `--help`/`-h` that starts with
`-` and resolves to a flag of `c`; or such a token resolving to a value-bearing option of `c`,
followed by a token that does not start with `-` and is at most 255 bytes long), with every
required option of `c` resolved to by some item, `cli_app_run` invokes the handler of `c`
exactly once, with the options of `c` in declaration order, and returns its result; at that
moment an option of `c` is present iff the token of some item resolved to it, a present flag
holds "true", a present value-bearing option holds the value of the last item that resolved to
it, and an absent option holds the empty string. -/
theorem C1_dispatch_well_formed (uninit : Nat) (app : cli_app) (a0 w : CString) (c : Nat)
    (items : List Item)
    (hsel : selects app w c = true)
    (hwf : ∀ it ∈ items, wf_item app (get_command_options app (some c)) it = true)
    (hstr : ∀ it ∈ items, ∀ tok ∈ it.tokens, NUL ∉ tok)
    (hreq : ∀ k ∈ get_command_options app (some c), required_at app k = true →
      ∃ it ∈ items, resolves app (get_command_options app (some c)) it.tok k = true) :
    ∃ (cmd : cli_command) (final : cli_app) (args : List cli_option),
      nth app.commands c = some cmd ∧
      cli_app_run uninit app (a0 :: w :: item_tokens items)
        = { app := final, calls := [{ callee := Callee.command c, opts := args }],
            ret := some (cmd.action args) } ∧
      args = final.options.filter (fun o => o.command == some c) ∧
      final.options.map decl = app.options.map decl ∧
      ∀ k o, nth final.options k = some o → o.command = some c →
        (o.is_present = true ↔
          ∃ it ∈ items, resolves app (get_command_options app (some c)) it.tok k = true) ∧
        (o.is_flag = true → o.is_present = true → cstr o.value = ['t', 'r', 'u', 'e']) ∧
        (o.is_flag = false → o.is_present = true →
          ∃ pre t v post, items = pre ++ Item.valued t v :: post ∧
            resolves app (get_command_options app (some c)) t k = true ∧
            (∀ it ∈ post, resolves app (get_command_options app (some c)) it.tok k = false) ∧
            cstr o.value = v) ∧
        (o.is_present = false → cstr o.value = []) := by
  obtain ⟨_, hfind⟩ := (selects_iff app w c).1 hsel
  obtain ⟨cmd, hcmd, _⟩ := find_command_some app w c hfind
  generalize hopts : get_command_options app (some c) = opts at hwf hreq ⊢
  have hkind : ∀ k, ∀ it ∈ items, resolves app opts it.tok k = true →
      (is_flag_at app k = true ↔ ∃ t, it = Item.flag t) := by
    intro k it hit hr
    obtain ⟨k2, h2, h3⟩ := wf_item_resolves app opts it (hwf it hit)
    have : k2 = k := by
      have := (resolves_iff app opts it.tok k).1 hr
      rw [h2] at this; simpa using this
    subst this; exact h3
  refine ⟨cmd, run_items (reset_options app opts) opts items,
    (run_items (reset_options app opts) opts items).options.filter (fun o => o.command == some c),
    hcmd, well_formed_run uninit app a0 w c opts items cmd hsel hcmd hopts hwf hreq, rfl,
    (decl_eq_final app opts items).2.2.symm, ?_⟩
  intro k o hk hc
  obtain ⟨o0, h0, hmem, ho⟩ := well_formed_state app c opts items hopts hwf k o hk hc
  have hflag : o.is_flag = is_flag_at app k := by
    have e := congrArg cli_option.is_flag (decl_option_after
      (fun it => resolves app opts it.tok k) items (clear_option o0))
    rw [← ho] at e
    have : o.is_flag = o0.is_flag := e
    simp [is_flag_at, h0, this]
  have hpres : o.is_present = items.any (fun it => resolves app opts it.tok k) := by
    rw [ho, option_after_present]; simp [clear_option]
  refine ⟨?_, ?_, ?_, ?_⟩
  · rw [hpres]; simp [List.any_eq_true]
  · intro hf hp
    rw [hpres] at hp
    rw [ho]
    refine option_after_flag _ items ?_ _ hp
    intro it hit hr
    exact (hkind k it hit hr).1 (by rw [← hflag]; exact hf)
  · intro hf hp
    rw [hpres] at hp
    rw [ho]
    refine option_after_value _ items ?_ _ hp
    intro it hit hr
    cases it with
    | flag t =>
      have := (hkind k _ hit hr).2 ⟨t, rfl⟩
      rw [← hflag, hf] at this
      exact absurd this (by simp)
    | valued t v => exact ⟨t, v, rfl, hstr _ hit v (by simp [Item.tokens])⟩
  · intro hp
    rw [hpres] at hp
    rw [ho, option_after_miss _ items _ hp]
    exact cstr_memset

/-- C1, witness: `filetool count -p file.txt -l` on the demo application. -/
theorem C1_dispatch_well_formed_witness :
    selects (demo_app (const_action 0) (const_action 7)) "count".toList 1 = true ∧
    (cli_app_run 1 (demo_app (const_action 0) (const_action 7)) demo_count_argv).calls.length = 1 ∧
    (cli_app_run 1 (demo_app (const_action 0) (const_action 7)) demo_count_argv).ret = some 7 ∧
    (cli_app_run 1 (demo_app (const_action 0) (const_action 7)) demo_count_argv).calls.map
        (fun call => (call.callee, call.opts.map (fun o => (o.names, o.is_present, cstr o.value))))
      = [(Callee.command 1,
          [("-p, --path".toList, true, "file.txt".toList),
           ("-l, --lines".toList, true, "true".toList),
           ("-w, --words".toList, false, []),
           ("-c, --chars".toList, false, [])])] := by
  have hsel : selects (demo_app (const_action 0) (const_action 7)) "count".toList 1 = true := by
    decide
  obtain ⟨cmd, final, args, _, hrun, _⟩ :=
    C1_dispatch_well_formed 1 (demo_app (const_action 0) (const_action 7)) "filetool".toList
      "count".toList 1 demo_count_items hsel (by decide) (by decide) (by decide)
  refine ⟨hsel, ?_, by decide, by decide⟩
  exact congrArg (fun r => r.calls.length) hrun

/-- C1, as stated, fails: each of these two applications has a command `run` and a token
sequence that is well-formed by alias membership (no help token, every item an alias of an
option of the right kind, no required option), yet the run returns 1 without invoking the
handler. In the first the flag is declared as `verbose`, without a dash, and the parser
rejects every token not starting with `-`. In the second `-x` is an alias of a flag but
resolves to the value-bearing option declared before it, whose value is then missing. -/
theorem C1_counterexample :
    (selects dashless_app "run".toList 0 = true ∧
      no_help (item_tokens [Item.flag "verbose".toList]) = true ∧
      alias_item dashless_app (get_command_options dashless_app (some 0))
        (Item.flag "verbose".toList) = true ∧
      required_occur dashless_app (get_command_options dashless_app (some 0))
        [Item.flag "verbose".toList] = true ∧
      (cli_app_run 1 dashless_app ["tool".toList, "run".toList, "verbose".toList]).calls = [] ∧
      (cli_app_run 1 dashless_app ["tool".toList, "run".toList, "verbose".toList]).ret = some 1) ∧
    (selects shadow_app "run".toList 0 = true ∧
      no_help (item_tokens [Item.flag "-x".toList]) = true ∧
      alias_item shadow_app (get_command_options shadow_app (some 0))
        (Item.flag "-x".toList) = true ∧
      required_occur shadow_app (get_command_options shadow_app (some 0))
        [Item.flag "-x".toList] = true ∧
      (cli_app_run 1 shadow_app ["tool".toList, "run".toList, "-x".toList]).calls = [] ∧
      (cli_app_run 1 shadow_app ["tool".toList, "run".toList, "-x".toList]).ret = some 1) := by
  decide

/-! ### What every parse preserves -/

theorem decl_eq_parse_loop (uninit : Nat) (opts : List Nat) :
    ∀ (toks : List CString) (app : cli_app), DeclEq app (parse_loop uninit opts app toks).1 := by
  refine parse_loop_induction uninit opts (fun app _ res => DeclEq app res.1)
    ?_ ?_ ?_ ?_ ?_ ?_ ?_ ?_
  · intro app; exact DeclEq.refl app
  · intro app _ _ _; exact DeclEq.refl app
  · intro app _ _ _ _; exact DeclEq.refl app
  · intro app _ _ _ _ _; exact DeclEq.refl app
  · intro app _ _ _ _ _; exact DeclEq.refl app
  · intro app _ _ k _ _ _ _ ih
    exact ((decl_eq_update app k _ decl_mark_present).trans
      (decl_eq_update _ k _ decl_store_true)).trans ih
  · intro app _ _ k _ _ _ _ _
    exact decl_eq_update app k _ decl_mark_present
  · intro app _ v _ k _ _ _ _ _ _ ih
    exact ((decl_eq_update app k _ decl_mark_present).trans
      (decl_eq_update _ k _ (decl_store_value v))).trans ih

theorem find_option_none_iff (app : cli_app) (opts : List Nat) (arg : CString) :
    find_option_from_list app opts arg = none ↔ opts = [] := by
  unfold find_option_from_list
  by_cases h : opts = [] <;> simp [h]

theorem no_help_cons (arg : CString) (rest : List CString) :
    no_help (arg :: rest) = true ↔ is_help arg = false ∧ no_help rest = true := by
  simp [no_help]

/-- While no token resolves to option `r`, the loop leaves it absent, and without a help token
it can only fall through or return 1. -/
theorem parse_loop_absent (uninit : Nat) (opts : List Nat) (r : Nat) (hne : opts ≠ []) :
    ∀ (toks : List CString) (app : cli_app),
      (∀ t ∈ toks, resolves app opts t r = false) →
      (∀ o, nth app.options r = some o → o.is_present = false) →
      ((parse_loop uninit opts app toks).2 = Flow.next →
        ∀ o, nth (parse_loop uninit opts app toks).1.options r = some o → o.is_present = false) ∧
      (no_help toks = true →
        (parse_loop uninit opts app toks).2 = Flow.next ∨
        (parse_loop uninit opts app toks).2 = Flow.ret 1) := by
  refine parse_loop_induction uninit opts
    (fun app toks res =>
      (∀ t ∈ toks, resolves app opts t r = false) →
      (∀ o, nth app.options r = some o → o.is_present = false) →
      (res.2 = Flow.next → ∀ o, nth res.1.options r = some o → o.is_present = false) ∧
      (no_help toks = true → res.2 = Flow.next ∨ res.2 = Flow.ret 1))
    ?_ ?_ ?_ ?_ ?_ ?_ ?_ ?_
  · intro app _ h0
    exact ⟨fun _ => h0, fun _ => Or.inl rfl⟩
  · intro app arg rest hh _ _
    refine ⟨?_, ?_⟩
    · intro h; split at h <;> cases h
    · intro h; rw [no_help_cons] at h; rw [hh] at h; exact absurd h.1 (by simp)
  · intro app arg rest _ _ _ _
    exact ⟨fun h => Flow.noConfusion h, fun _ => Or.inr rfl⟩
  · intro app arg rest _ _ hf _ _
    exact absurd ((find_option_none_iff app opts arg).1 hf) hne
  · intro app arg rest _ _ _ _ _
    exact ⟨fun h => Flow.noConfusion h, fun _ => Or.inr rfl⟩
  · intro app arg rest k hh _ hf _ ih hres h0
    have hkr : r ≠ k := by
      intro e
      have := hres arg (by simp)
      rw [e] at this
      simp [resolves, hf] at this
    have hd : DeclEq app (update_option (update_option app k mark_present) k store_true) :=
      (decl_eq_update app k _ decl_mark_present).trans (decl_eq_update _ k _ decl_store_true)
    have := ih (fun t ht => by rw [← resolves_decl hd]; exact hres t (by simp [ht]))
      (fun o ho => by
        rw [nth_update_ne _ k r _ hkr, nth_update_ne _ k r _ hkr] at ho
        exact h0 o ho)
    refine ⟨this.1, fun h => this.2 ?_⟩
    rw [no_help_cons] at h; exact h.2
  · intro app arg rest k _ _ _ _ _ _ _
    exact ⟨fun h => Flow.noConfusion h, fun _ => Or.inr rfl⟩
  · intro app arg v rest k hh _ hf _ _ _ ih hres h0
    have hkr : r ≠ k := by
      intro e
      have := hres arg (by simp)
      rw [e] at this
      simp [resolves, hf] at this
    have hd : DeclEq app (update_option (update_option app k mark_present) k (store_value v)) :=
      (decl_eq_update app k _ decl_mark_present).trans
        (decl_eq_update _ k _ (decl_store_value v))
    have := ih (fun t ht => by rw [← resolves_decl hd]; exact hres t (by simp [ht]))
      (fun o ho => by
        rw [nth_update_ne _ k r _ hkr, nth_update_ne _ k r _ hkr] at ho
        exact h0 o ho)
    refine ⟨this.1, fun h => this.2 ?_⟩
    rw [no_help_cons, no_help_cons] at h; exact h.2.2

/-- The run of a selected command, by the way its parse loop ends. -/
theorem parse_command_args_eq (uninit : Nat) (app : cli_app) (c : Nat) (a0 w : CString)
    (toks : List CString) :
    parse_command_args uninit app c (a0 :: w :: toks) 2
      = match parse_loop uninit (get_command_options app (some c))
            (reset_options app (get_command_options app (some c))) toks with
        | (app1, Flow.abort) => { app := app1, calls := [], ret := none }
        | (app1, Flow.ret code) => { app := app1, calls := [], ret := some code }
        | (app1, Flow.next) =>
          if (get_command_options app (some c)).any (missing_required app1) then
            { app := app1, calls := [], ret := some 1 }
          else
            match nth app1.commands c with
            | some cmd => invoke app1 (Callee.command c) cmd.action
                (get_command_options app (some c))
            | none => { app := app1, calls := [], ret := none } := rfl

theorem missing_required_of_absent (app app1 : cli_app) (opts : List Nat) (r : Nat)
    (hd : DeclEq app app1) (hr : r ∈ opts) (hreq : required_at app r = true)
    (habs : ∀ o, nth app1.options r = some o → o.is_present = false) :
    opts.any (missing_required app1) = true := by
  rw [List.any_eq_true]
  refine ⟨r, hr, ?_⟩
  rw [required_at_decl hd] at hreq
  unfold required_at at hreq
  unfold missing_required
  cases h : nth app1.options r with
  | none => rw [h] at hreq; simp at hreq
  | some o =>
    rw [h] at hreq
    simp only at hreq
    simp [hreq, habs o h]

theorem reset_absent (app : cli_app) (opts : List Nat) (r : Nat) (hr : r ∈ opts) :
    ∀ o, nth (reset_options app opts).options r = some o → o.is_present = false := by
  intro o ho
  rw [nth_reset] at ho
  cases h : nth app.options r with
  | none => rw [h] at ho; simp at ho
  | some o0 =>
    rw [h] at ho
    simp only [hr, if_true, Option.map_some', Option.some.injEq] at ho
    rw [← ho]; rfl

/-- C3 (amended): for a command `c` with a required option `r`, selected by the first word: if
no token of the invocation resolves to `r`, the handler of `c` is not invoked, and
`cli_app_run` returns 1 unless a `--help`/`-h` token is among the arguments; and if the
arguments are well-formed items in which every required option of `c` is resolved to, the
handler of `c` is invoked. -/
theorem C3_required_option (uninit : Nat) (app : cli_app) (a0 w : CString) (c r : Nat)
    (hsel : selects app w c = true)
    (hr : r ∈ get_command_options app (some c))
    (hreq : required_at app r = true) :
    (∀ toks : List CString,
      (∀ t ∈ toks, resolves app (get_command_options app (some c)) t r = false) →
      (cli_app_run uninit app (a0 :: w :: toks)).calls = [] ∧
      (no_help toks = true → (cli_app_run uninit app (a0 :: w :: toks)).ret = some 1)) ∧
    (∀ items : List Item,
      (∀ it ∈ items, wf_item app (get_command_options app (some c)) it = true) →
      (∀ k ∈ get_command_options app (some c), required_at app k = true →
        ∃ it ∈ items, resolves app (get_command_options app (some c)) it.tok k = true) →
      ∃ args, (cli_app_run uninit app (a0 :: w :: item_tokens items)).calls
        = [{ callee := Callee.command c, opts := args }]) := by
  constructor
  · intro toks hres
    rw [cli_app_run_selected uninit app a0 w toks c hsel, parse_command_args_eq]
    generalize hopts : get_command_options app (some c) = opts at hr hres ⊢
    have hne : opts ≠ [] := by intro e; rw [e] at hr; simp at hr
    have hd0 := decl_eq_reset app opts
    have habs := parse_loop_absent uninit opts r hne toks (reset_options app opts)
      (fun t ht => by rw [← resolves_decl hd0]; exact hres t ht)
      (reset_absent app opts r hr)
    have hdl := decl_eq_parse_loop uninit opts toks (reset_options app opts)
    rcases hloop : parse_loop uninit opts (reset_options app opts) toks with ⟨app1, fl⟩
    rw [hloop] at habs hdl
    cases fl with
    | abort =>
      refine ⟨rfl, fun hn => ?_⟩
      rcases habs.2 hn with h | h <;> cases h
    | ret code =>
      refine ⟨rfl, fun hn => ?_⟩
      rcases habs.2 hn with h | h
      · cases h
      · simp only [Flow.ret.injEq] at h
        simp [h]
    | next =>
      have hm := missing_required_of_absent app app1 opts r (hd0.trans hdl) hr hreq
        (habs.1 rfl)
      simp [hm]
  · intro items hwf hreq2
    obtain ⟨_, hfind⟩ := (selects_iff app w c).1 hsel
    obtain ⟨cmd, hcmd, _⟩ := find_command_some app w c hfind
    exact ⟨_, congrArg Run.calls
      (well_formed_run uninit app a0 w c _ items cmd hsel hcmd rfl hwf hreq2)⟩

/-- C3, witness: the demo `count` command requires `-p` (option 2): `filetool count -l` returns
1 without a call, `filetool count -p file.txt -l` reaches the handler. -/
theorem C3_required_option_witness :
    selects (demo_app (const_action 0) (const_action 7)) "count".toList 1 = true ∧
    required_at (demo_app (const_action 0) (const_action 7)) 2 = true ∧
    (cli_app_run 1 (demo_app (const_action 0) (const_action 7))
      ["filetool".toList, "count".toList, "-l".toList]).calls = [] ∧
    (cli_app_run 1 (demo_app (const_action 0) (const_action 7))
      ["filetool".toList, "count".toList, "-l".toList]).ret = some 1 ∧
    (cli_app_run 1 (demo_app (const_action 0) (const_action 7)) demo_count_argv).calls.length
      = 1 := by
  have hsel : selects (demo_app (const_action 0) (const_action 7)) "count".toList 1 = true := by
    decide
  have hreq : required_at (demo_app (const_action 0) (const_action 7)) 2 = true := by decide
  have h := C3_required_option 1 (demo_app (const_action 0) (const_action 7))
    "filetool".toList "count".toList 1 2 hsel (by decide) hreq
  have h1 := h.1 ["-l".toList] (by decide)
  obtain ⟨args, h2⟩ := h.2 demo_count_items (by decide) (by decide)
  refine ⟨hsel, hreq, h1.1, h1.2 (by decide), ?_⟩
  exact (congrArg List.length h2)

/-- C3, as stated, fails: `filetool count --help` omits the required `-p` of `count`, and no
token resolves to it, yet the run does not return 1: it returns 0 after printing the command
help (or aborts in the help printer when its uninitialised local reads as 0). -/
theorem C3_counterexample :
    selects (demo_app (const_action 0) (const_action 7)) "count".toList 1 = true ∧
    2 ∈ get_command_options (demo_app (const_action 0) (const_action 7)) (some 1) ∧
    required_at (demo_app (const_action 0) (const_action 7)) 2 = true ∧
    resolves (demo_app (const_action 0) (const_action 7))
      (get_command_options (demo_app (const_action 0) (const_action 7)) (some 1))
      "--help".toList 2 = false ∧
    (cli_app_run 1 (demo_app (const_action 0) (const_action 7))
      ["filetool".toList, "count".toList, "--help".toList]).ret = some 0 ∧
    (cli_app_run 0 (demo_app (const_action 0) (const_action 7))
      ["filetool".toList, "count".toList, "--help".toList]).ret = none := by
  decide

/-! ### Two parses from states with the same declarations -/

theorem agree_update {opts : List Nat} {a b : cli_app} (h : AgreeOn opts a b) (k : Nat)
    (f : cli_option → cli_option) (hf : ∀ o, decl (f o) = decl o) :
    AgreeOn opts (update_option a k f) (update_option b k f) := by
  refine ⟨((decl_eq_update a k f hf).symm.trans h.1).trans (decl_eq_update b k f hf), ?_⟩
  intro j hj
  rw [nth_update, nth_update, h.2 j hj]

theorem clear_option_decl (o : cli_option) : clear_option (decl o) = clear_option o := rfl

theorem agree_reset (opts : List Nat) (a b : cli_app) (h : DeclEq a b) :
    AgreeOn opts (reset_options a opts) (reset_options b opts) := by
  refine ⟨((decl_eq_reset a opts).symm.trans h).trans (decl_eq_reset b opts), ?_⟩
  intro k hk
  rw [nth_reset, nth_reset]
  simp only [hk, if_true]
  have e := congrArg (Option.map clear_option) (decl_nth h k)
  simp only [Option.map_map] at e
  have hc : clear_option ∘ decl = clear_option := by funext o; rfl
  rw [hc] at e
  exact e

theorem parse_loop_agree (uninit : Nat) (opts : List Nat) :
    ∀ (toks : List CString) (a : cli_app), ∀ b : cli_app, AgreeOn opts a b →
      (parse_loop uninit opts a toks).2 = (parse_loop uninit opts b toks).2 ∧
      AgreeOn opts (parse_loop uninit opts a toks).1 (parse_loop uninit opts b toks).1 := by
  refine parse_loop_induction uninit opts
    (fun a toks res => ∀ b : cli_app, AgreeOn opts a b →
      res.2 = (parse_loop uninit opts b toks).2 ∧
      AgreeOn opts res.1 (parse_loop uninit opts b toks).1)
    ?_ ?_ ?_ ?_ ?_ ?_ ?_ ?_
  · intro a b h; exact ⟨rfl, h⟩
  · intro a arg rest hh b h
    rw [parse_loop_help uninit b opts arg rest hh]; exact ⟨rfl, h⟩
  · intro a arg rest hh hd b h
    rw [parse_loop_unexpected uninit b opts arg rest hh hd]; exact ⟨rfl, h⟩
  · intro a arg rest hh hd hf b h
    rw [find_option_decl h.1] at hf
    rw [parse_loop_assert uninit b opts arg rest hh hd hf]; exact ⟨rfl, h⟩
  · intro a arg rest hh hd hf b h
    rw [find_option_decl h.1] at hf
    rw [parse_loop_unknown uninit b opts arg rest hh hd hf]; exact ⟨rfl, h⟩
  · intro a arg rest k hh hd hf hk ih b h
    rw [find_option_decl h.1] at hf
    rw [is_flag_at_decl h.1] at hk
    rw [parse_loop_flag_at uninit b opts arg rest k hh hd hf hk]
    exact ih _ (agree_update (agree_update h k _ decl_mark_present) k _ decl_store_true)
  · intro a arg rest k hh hd hf hk hr b h
    rw [find_option_decl h.1] at hf
    rw [is_flag_at_decl h.1] at hk
    rw [parse_loop_no_value uninit b opts arg rest k hh hd hf hk hr]
    exact ⟨rfl, agree_update h k _ decl_mark_present⟩
  · intro a arg v rest k hh hd hf hk hv hl ih b h
    rw [find_option_decl h.1] at hf
    rw [is_flag_at_decl h.1] at hk
    rw [parse_loop_value_at uninit b opts arg v rest k hh hd hf hk hv hl]
    exact ih _ (agree_update (agree_update h k _ decl_mark_present) k _ (decl_store_value v))

theorem agree_missing {opts : List Nat} {a b : cli_app} (h : AgreeOn opts a b) :
    opts.any (missing_required a) = opts.any (missing_required b) := by
  have : ∀ k ∈ opts, missing_required a k = missing_required b k := by
    intro k hk; unfold missing_required; rw [h.2 k hk]
  clear h
  induction opts with
  | nil => rfl
  | cons k ks ih =>
    simp only [List.any_cons]
    rw [this k (by simp), ih (fun j hj => this j (by simp [hj]))]

theorem agree_deref {opts : List Nat} {a b : cli_app} (h : AgreeOn opts a b) :
    deref a opts = deref b opts := by
  have : ∀ k ∈ opts, nth a.options k = nth b.options k := h.2
  clear h
  unfold deref
  induction opts with
  | nil => rfl
  | cons k ks ih =>
    simp only [List.filterMap_cons]
    rw [this k (by simp), ih (fun j hj => this j (by simp [hj]))]

theorem selects_decl {a b : cli_app} (h : DeclEq a b) (w : CString) (c : Nat) :
    selects a w c = selects b w c := by
  simp only [selects, find_command, h.1]

theorem owned_eq_deref (app app1 : cli_app) (cmd : Option Nat) (hd : DeclEq app app1) :
    app1.options.filter (fun o => o.command == cmd) = deref app1 (get_command_options app cmd) := by
  rw [← deref_get_command_options, ← get_command_options_decl hd]

/-- An option to which no token resolves is not written by the loop. -/
theorem parse_loop_untouched (uninit : Nat) (opts : List Nat) (r : Nat) :
    ∀ (toks : List CString) (app : cli_app),
      (∀ t ∈ toks, resolves app opts t r = false) →
      nth (parse_loop uninit opts app toks).1.options r = nth app.options r := by
  refine parse_loop_induction uninit opts
    (fun app toks res => (∀ t ∈ toks, resolves app opts t r = false) →
      nth res.1.options r = nth app.options r)
    ?_ ?_ ?_ ?_ ?_ ?_ ?_ ?_
  · intro app _; rfl
  · intro app _ _ _ _; rfl
  · intro app _ _ _ _ _; rfl
  · intro app _ _ _ _ _ _; rfl
  · intro app _ _ _ _ _ _; rfl
  · intro app arg rest k _ _ hf _ ih hres
    have hkr : r ≠ k := by
      intro e
      have := hres arg (by simp)
      rw [e] at this
      simp [resolves, hf] at this
    have hd : DeclEq app (update_option (update_option app k mark_present) k store_true) :=
      (decl_eq_update app k _ decl_mark_present).trans (decl_eq_update _ k _ decl_store_true)
    rw [ih (fun t ht => by rw [← resolves_decl hd]; exact hres t (by simp [ht])),
      nth_update_ne _ k r _ hkr, nth_update_ne _ k r _ hkr]
  · intro app arg rest k _ _ hf _ _ hres
    have hkr : r ≠ k := by
      intro e
      have := hres arg (by simp)
      rw [e] at this
      simp [resolves, hf] at this
    exact nth_update_ne _ k r _ hkr
  · intro app arg v rest k _ _ hf _ _ _ ih hres
    have hkr : r ≠ k := by
      intro e
      have := hres arg (by simp)
      rw [e] at this
      simp [resolves, hf] at this
    have hd : DeclEq app (update_option (update_option app k mark_present) k (store_value v)) :=
      (decl_eq_update app k _ decl_mark_present).trans
        (decl_eq_update _ k _ (decl_store_value v))
    rw [ih (fun t ht => by rw [← resolves_decl hd]; exact hres t (by simp [ht])),
      nth_update_ne _ k r _ hkr, nth_update_ne _ k r _ hkr]

/-- The state a run leaves behind when its first word selects a command. -/
theorem run_app_selected (uninit : Nat) (app : cli_app) (a0 w : CString) (toks : List CString)
    (c : Nat) (hsel : selects app w c = true) :
    (cli_app_run uninit app (a0 :: w :: toks)).app
      = (parse_loop uninit (get_command_options app (some c))
          (reset_options app (get_command_options app (some c))) toks).1 := by
  rw [cli_app_run_selected uninit app a0 w toks c hsel, parse_command_args_eq]
  rcases parse_loop uninit (get_command_options app (some c))
    (reset_options app (get_command_options app (some c))) toks with ⟨x, fl⟩
  cases fl with
  | abort => rfl
  | ret code => rfl
  | next =>
    simp only
    split
    · rfl
    · split <;> rfl

/-- C4: a run that selects command `c` gives the same result, hands the same options to the
handler and leaves the options of `c` in the same state, whatever the `is_present`/`value`
state of the options was before the call; in particular an option of `c` to which no token of
the run resolves is left absent with an empty value, whatever it held before. -/
theorem C4_reparse_idempotent (uninit : Nat) (app1 app2 : cli_app) (a0 w : CString)
    (toks : List CString) (c : Nat)
    (hd : DeclEq app1 app2) (hsel : selects app1 w c = true) :
    (cli_app_run uninit app1 (a0 :: w :: toks)).ret
      = (cli_app_run uninit app2 (a0 :: w :: toks)).ret ∧
    (cli_app_run uninit app1 (a0 :: w :: toks)).calls
      = (cli_app_run uninit app2 (a0 :: w :: toks)).calls ∧
    (cli_app_run uninit app1 (a0 :: w :: toks)).app.options.filter (fun o => o.command == some c)
      = (cli_app_run uninit app2 (a0 :: w :: toks)).app.options.filter
          (fun o => o.command == some c) ∧
    (∀ k ∈ get_command_options app1 (some c),
      (∀ t ∈ toks, resolves app1 (get_command_options app1 (some c)) t k = false) →
      ∀ o, nth (cli_app_run uninit app1 (a0 :: w :: toks)).app.options k = some o →
        o.is_present = false ∧ cstr o.value = []) := by
  have hsel2 : selects app2 w c = true := by rw [← selects_decl hd]; exact hsel
  have untouched : ∀ k ∈ get_command_options app1 (some c),
      (∀ t ∈ toks, resolves app1 (get_command_options app1 (some c)) t k = false) →
      ∀ o, nth (cli_app_run uninit app1 (a0 :: w :: toks)).app.options k = some o →
        o.is_present = false ∧ cstr o.value = [] := by
    intro k hk hres o ho
    rw [run_app_selected uninit app1 a0 w toks c hsel,
      parse_loop_untouched uninit _ k toks _
        (fun t ht => by rw [← resolves_decl (decl_eq_reset app1 _)]; exact hres t ht),
      nth_reset] at ho
    cases h0 : nth app1.options k with
    | none => rw [h0] at ho; simp at ho
    | some o0 =>
      rw [h0] at ho
      simp only [hk, if_true, Option.map_some', Option.some.injEq] at ho
      rw [← ho]
      exact ⟨rfl, cstr_memset⟩
  refine ⟨?_, ?_, ?_, untouched⟩ <;> clear untouched
  all_goals
    rw [cli_app_run_selected uninit app1 a0 w toks c hsel,
      cli_app_run_selected uninit app2 a0 w toks c hsel2,
      parse_command_args_eq, parse_command_args_eq, ← get_command_options_decl hd]
    generalize hopts : get_command_options app1 (some c) = opts
    have hsim := parse_loop_agree uninit opts toks _ _ (agree_reset opts app1 app2 hd)
    have hd1 := (decl_eq_reset app1 opts).trans
      (decl_eq_parse_loop uninit opts toks (reset_options app1 opts))
    have hd2 := (hd.trans (decl_eq_reset app2 opts)).trans
      (decl_eq_parse_loop uninit opts toks (reset_options app2 opts))
    rcases h1 : parse_loop uninit opts (reset_options app1 opts) toks with ⟨x1, f1⟩
    rcases h2 : parse_loop uninit opts (reset_options app2 opts) toks with ⟨x2, f2⟩
    rw [h1, h2] at hsim
    rw [h1] at hd1
    rw [h2] at hd2
    obtain ⟨hf, hag⟩ := hsim
    simp only at hf hag hd1 hd2
    subst hf
    have hfil : x1.options.filter (fun o => o.command == some c)
        = x2.options.filter (fun o => o.command == some c) := by
      rw [owned_eq_deref app1 x1 (some c) hd1, owned_eq_deref app1 x2 (some c) hd2, hopts]
      exact agree_deref hag
    cases f1 with
    | abort => first | rfl | exact hfil
    | ret code => first | rfl | exact hfil
    | next =>
      simp only [agree_missing hag, ← hag.1.1]
      by_cases hm : opts.any (missing_required x2) = true
      · rw [if_pos hm, if_pos hm]
        all_goals exact hfil
      · rw [if_neg hm, if_neg hm]
        cases nth x1.commands c with
        | none => first | rfl | exact hfil
        | some cmd =>
          simp only [invoke, agree_deref hag]
          all_goals exact hfil

/-- C4, witness: after `filetool info -p x -v` on the demo application `-v` is present with
"true"; a second run `filetool info -p y` from that state leaves `-v` absent with an empty
value and hands the handler the same options as a run from the fresh state. -/
theorem C4_reparse_idempotent_witness :
    DeclEq
      (cli_app_run 1 (demo_app (const_action 0) (const_action 7))
        ["filetool".toList, "info".toList, "-p".toList, "x".toList, "-v".toList]).app
      (demo_app (const_action 0) (const_action 7)) ∧
    (nth (cli_app_run 1 (demo_app (const_action 0) (const_action 7))
        ["filetool".toList, "info".toList, "-p".toList, "x".toList, "-v".toList]).app.options
      1).map (fun o => (o.is_present, cstr o.value)) = some (true, "true".toList) ∧
    (nth (cli_app_run 1
        (cli_app_run 1 (demo_app (const_action 0) (const_action 7))
          ["filetool".toList, "info".toList, "-p".toList, "x".toList, "-v".toList]).app
        ["filetool".toList, "info".toList, "-p".toList, "y".toList]).app.options
      1).map (fun o => (o.is_present, cstr o.value)) = some (false, []) ∧
    (cli_app_run 1
        (cli_app_run 1 (demo_app (const_action 0) (const_action 7))
          ["filetool".toList, "info".toList, "-p".toList, "x".toList, "-v".toList]).app
        ["filetool".toList, "info".toList, "-p".toList, "y".toList]).calls
      = (cli_app_run 1 (demo_app (const_action 0) (const_action 7))
          ["filetool".toList, "info".toList, "-p".toList, "y".toList]).calls := by
  have hd : DeclEq
      (cli_app_run 1 (demo_app (const_action 0) (const_action 7))
        ["filetool".toList, "info".toList, "-p".toList, "x".toList, "-v".toList]).app
      (demo_app (const_action 0) (const_action 7)) := ⟨rfl, rfl, by decide⟩
  have h := C4_reparse_idempotent 1 _ _ "filetool".toList "info".toList
    ["-p".toList, "y".toList] 0 hd (by decide)
  exact ⟨hd, by decide, by decide, h.2.1⟩

/-! ### A well-formed prefix followed by anything -/

theorem item_tokens_append (xs ys : List Item) :
    item_tokens (xs ++ ys) = item_tokens xs ++ item_tokens ys := by
  induction xs with
  | nil => rfl
  | cons x xs ih => simp [item_tokens, ih]

theorem prefix_loop (uninit : Nat) (app : cli_app) (opts : List Nat) (items : List Item)
    (rest : List CString) (hwf : ∀ it ∈ items, wf_item app opts it = true) :
    parse_loop uninit opts (reset_options app opts) (item_tokens items ++ rest)
      = parse_loop uninit opts (run_items (reset_options app opts) opts items) rest := by
  have hwf0 : ∀ it ∈ items, wf_item (reset_options app opts) opts it = true := by
    intro it hit; rw [← wf_item_decl (decl_eq_reset app opts)]; exact hwf it hit
  exact parse_loop_items uninit opts items rest (reset_options app opts) hwf0

theorem find_option_unknown_iff (app : cli_app) (opts : List Nat) (arg : CString) :
    find_option_from_list app opts arg = some none ↔
      opts ≠ [] ∧ ∀ k ∈ opts, matches_at app arg k = false := by
  unfold find_option_from_list
  by_cases h : opts = []
  · simp [h]
  · simp [h, List.find?_eq_none]

/-- C5: a token that starts with `-`, is not a help token and is an alias of no option of the
selected command, after a well-formed prefix. When the command has at least one option the
run returns 1 without invoking the handler. When the command has no option at all the
assertions of `find_option_from_list` fail and the process is aborted; `tool run -x` on an
application whose command `run` has no options is such a run. -/
theorem C5_unknown_option :
    (∀ (uninit : Nat) (app : cli_app) (a0 w : CString) (c : Nat) (items : List Item)
        (arg : CString) (rest : List CString),
      selects app w c = true →
      (∀ it ∈ items, wf_item app (get_command_options app (some c)) it = true) →
      is_option_arg arg = true → is_help arg = false →
      (∀ k ∈ get_command_options app (some c), matches_at app arg k = false) →
      (get_command_options app (some c) ≠ [] →
        (cli_app_run uninit app (a0 :: w :: (item_tokens items ++ arg :: rest))).ret = some 1 ∧
        (cli_app_run uninit app (a0 :: w :: (item_tokens items ++ arg :: rest))).calls = []) ∧
      (get_command_options app (some c) = [] →
        (cli_app_run uninit app (a0 :: w :: (item_tokens items ++ arg :: rest))).ret = none ∧
        (cli_app_run uninit app (a0 :: w :: (item_tokens items ++ arg :: rest))).calls = [])) ∧
    (∀ uninit : Nat,
      selects bare_app "run".toList 0 = true ∧
      get_command_options bare_app (some 0) = [] ∧
      is_option_arg "-x".toList = true ∧ is_help "-x".toList = false ∧
      (cli_app_run uninit bare_app ["tool".toList, "run".toList, "-x".toList]).ret = none ∧
      (cli_app_run uninit bare_app ["tool".toList, "run".toList, "-x".toList]).calls = []) := by
  constructor
  · intro uninit app a0 w c items arg rest hsel hwf hd hh hno
    rw [cli_app_run_selected uninit app a0 w _ c hsel, parse_command_args_eq,
      prefix_loop uninit app _ items _ hwf]
    have hdF := decl_eq_final app (get_command_options app (some c)) items
    constructor
    · intro hne
      have hf : find_option_from_list
          (run_items (reset_options app (get_command_options app (some c)))
            (get_command_options app (some c)) items)
          (get_command_options app (some c)) arg = some none := by
        rw [← find_option_decl hdF]
        exact (find_option_unknown_iff app _ arg).2 ⟨hne, hno⟩
      rw [parse_loop_unknown uninit _ _ arg rest hh hd hf]
      exact ⟨rfl, rfl⟩
    · intro he
      have hf : find_option_from_list
          (run_items (reset_options app (get_command_options app (some c)))
            (get_command_options app (some c)) items)
          (get_command_options app (some c)) arg = none :=
        (find_option_none_iff _ _ arg).2 he
      rw [parse_loop_assert uninit _ _ arg rest hh hd hf]
      exact ⟨rfl, rfl⟩
  · intro uninit
    exact ⟨by decide, by decide, by decide, by decide, rfl, rfl⟩

/-! ### Value tokens -/

theorem find_option_some (app : cli_app) (opts : List Nat) (arg : CString) (k : Nat)
    (h : find_option_from_list app opts arg = some (some k)) :
    k ∈ opts ∧ matches_at app arg k = true := by
  unfold find_option_from_list at h
  by_cases he : opts = []
  · simp [he] at h
  · simp only [he, if_false, Option.some.injEq] at h
    exact ⟨List.mem_of_find?_eq_some h, List.find?_some h⟩

theorem matches_at_nth (app : cli_app) (arg : CString) (k : Nat)
    (h : matches_at app arg k = true) : ∃ o, nth app.options k = some o := by
  unfold matches_at at h
  cases hn : nth app.options k with
  | none => rw [hn] at h; simp at h
  | some o => exact ⟨o, rfl⟩

theorem option_after_snoc (hit : Item → Bool) (items : List Item) (it : Item) :
    ∀ o : cli_option, option_after hit o (items ++ [it])
      = if hit it then item_write it (option_after hit o items) else option_after hit o items := by
  induction items with
  | nil => intro o; simp [option_after]
  | cons x xs ih =>
    intro o
    simp only [List.cons_append, option_after]
    exact ih _

/-- The state a run leaves behind when all its arguments are well-formed items. -/
theorem run_app_well_formed (uninit : Nat) (app : cli_app) (a0 w : CString) (c : Nat)
    (items : List Item) (hsel : selects app w c = true)
    (hwf : ∀ it ∈ items, wf_item app (get_command_options app (some c)) it = true) :
    (cli_app_run uninit app (a0 :: w :: item_tokens items)).app
      = run_items (reset_options app (get_command_options app (some c)))
          (get_command_options app (some c)) items := by
  rw [cli_app_run_selected uninit app a0 w _ c hsel, parse_command_args_eq,
    well_formed_loop uninit app _ items hwf]
  simp only
  split
  · rfl
  · split <;> rfl

/-- C6: a value token `v` (not starting with `-`) that follows, after a well-formed prefix, a
token resolving to the value-bearing option `k` of the selected command. If `v` is at most 255
bytes long the parser stores it and goes on with the next token, and when the pair ends a
command line that supplies every required option the handler is invoked and sees option `k`
present with exactly `v` as its value. If `v` is 256 bytes or longer the run returns 1, the
handler is not invoked, and every value buffer is as the well-formed prefix left it. -/
theorem C6_value_length (uninit : Nat) (app : cli_app) (a0 w : CString) (c : Nat)
    (items : List Item) (arg v : CString) (k : Nat)
    (hsel : selects app w c = true)
    (hwf : ∀ it ∈ items, wf_item app (get_command_options app (some c)) it = true)
    (harg : option_token app (get_command_options app (some c)) false arg = true)
    (hk : resolves app (get_command_options app (some c)) arg k = true)
    (hv : is_option_arg v = false) (hnul : NUL ∉ v) :
    (v.length ≤ 255 →
      (∀ (rest : List CString) (st : cli_app), DeclEq app st →
        parse_loop uninit (get_command_options app (some c)) st (arg :: v :: rest)
          = parse_loop uninit (get_command_options app (some c))
              (update_option (update_option st k mark_present) k (store_value v)) rest) ∧
      ((∀ j ∈ get_command_options app (some c), required_at app j = true →
          ∃ it ∈ items ++ [Item.valued arg v],
            resolves app (get_command_options app (some c)) it.tok j = true) →
        ∃ (cmd : cli_command) (final : cli_app) (o : cli_option),
          nth app.commands c = some cmd ∧
          cli_app_run uninit app (a0 :: w :: item_tokens (items ++ [Item.valued arg v]))
            = { app := final,
                calls := [{ callee := Callee.command c,
                            opts := final.options.filter (fun o => o.command == some c) }],
                ret := some (cmd.action
                  (final.options.filter (fun o => o.command == some c))) } ∧
          nth final.options k = some o ∧
          o ∈ final.options.filter (fun o => o.command == some c) ∧
          o.is_present = true ∧ cstr o.value = v)) ∧
    (256 ≤ v.length → ∀ rest : List CString,
      (cli_app_run uninit app (a0 :: w :: (item_tokens items ++ arg :: v :: rest))).ret = some 1 ∧
      (cli_app_run uninit app (a0 :: w :: (item_tokens items ++ arg :: v :: rest))).calls = [] ∧
      ∀ j, (nth (cli_app_run uninit app
              (a0 :: w :: (item_tokens items ++ arg :: v :: rest))).app.options j).map
            (fun o => o.value)
          = (nth (cli_app_run uninit app (a0 :: w :: item_tokens items)).app.options j).map
            (fun o => o.value)) := by
  obtain ⟨hh, hd, k2, hf2, hflag2⟩ := (option_token_iff app _ false arg).1 harg
  have hf : find_option_from_list app (get_command_options app (some c)) arg = some (some k) :=
    (resolves_iff app _ arg k).1 hk
  have hkk : k2 = k := by rw [hf] at hf2; simpa using hf2.symm
  subst hkk
  have hflag := hflag2
  obtain ⟨hmem, hmatch⟩ := find_option_some app _ arg k2 hf
  obtain ⟨o0, ho0⟩ := matches_at_nth app arg k2 hmatch
  constructor
  · intro hlen
    constructor
    · intro rest st hst
      exact parse_loop_value_at uninit st _ arg v rest k2 hh hd
        (by rw [← find_option_decl hst]; exact hf)
        (by rw [← is_flag_at_decl hst]; exact hflag) hv
        (by unfold VALUE_SIZE; omega)
    · intro hreq
      obtain ⟨_, hfind⟩ := (selects_iff app w c).1 hsel
      obtain ⟨cmd, hcmd, _⟩ := find_command_some app w c hfind
      have hwf2 : ∀ it ∈ items ++ [Item.valued arg v],
          wf_item app (get_command_options app (some c)) it = true := by
        intro it hit
        rcases List.mem_append.1 hit with h | h
        · exact hwf it h
        · have : it = Item.valued arg v := by simpa using h
          subst this
          have hvt : value_token v = true := by
            simp only [value_token, hv, Bool.not_false, Bool.true_and, decide_eq_true_eq]
            unfold VALUE_SIZE; omega
          simp [wf_item, harg, hvt]
      have hwf0 : ∀ it ∈ items ++ [Item.valued arg v],
          wf_item (reset_options app (get_command_options app (some c)))
            (get_command_options app (some c)) it = true := by
        intro it hit
        rw [← wf_item_decl (decl_eq_reset app _)]; exact hwf2 it hit
      have hn := run_items_nth (get_command_options app (some c)) k2
        (items ++ [Item.valued arg v]) _ hwf0
      rw [nth_reset, ho0] at hn
      simp only [hmem, if_true, Option.map_some'] at hn
      rw [option_after_snoc] at hn
      have hres : resolves (reset_options app (get_command_options app (some c)))
          (get_command_options app (some c)) (Item.valued arg v).tok k2 = true := by
        rw [← resolves_decl (decl_eq_reset app _)]; exact hk
      rw [if_pos hres] at hn
      have hown : o0.command = some c := by
        obtain ⟨o1, h1, h2⟩ := (mem_get_command_options app (some c) k2).1 hmem
        rw [ho0] at h1
        simp only [Option.some.injEq] at h1
        rw [h1]; exact h2
      refine ⟨cmd, _, _, hcmd,
        well_formed_run uninit app a0 w c _ (items ++ [Item.valued arg v]) cmd hsel hcmd rfl
          hwf2 hreq, hn, ?_, rfl, ?_⟩
      · rw [List.mem_filter]
        refine ⟨nth_mem _ k2 _ hn, ?_⟩
        have e := congrArg cli_option.command (decl_option_after
          (fun it => resolves (reset_options app (get_command_options app (some c)))
            (get_command_options app (some c)) it.tok k2) items (clear_option o0))
        have e2 : (item_write (Item.valued arg v) (option_after
            (fun it => resolves (reset_options app (get_command_options app (some c)))
              (get_command_options app (some c)) it.tok k2) (clear_option o0) items)).command
            = o0.command := e
        simp [e2, hown]
      · exact cstr_write v _ hnul
  · intro hlen rest
    have hdF := decl_eq_final app (get_command_options app (some c)) items
    have hloop : parse_loop uninit (get_command_options app (some c))
        (run_items (reset_options app (get_command_options app (some c)))
          (get_command_options app (some c)) items) (arg :: v :: rest)
        = (update_option (run_items (reset_options app (get_command_options app (some c)))
            (get_command_options app (some c)) items) k2 mark_present, Flow.ret 1) :=
      parse_loop_no_value uninit _ _ arg (v :: rest) k2 hh hd
        (by rw [← find_option_decl hdF]; exact hf)
        (by rw [← is_flag_at_decl hdF]; exact hflag)
        (Or.inr ⟨v, rest, rfl, Or.inr (by unfold VALUE_SIZE; omega)⟩)
    rw [run_app_well_formed uninit app a0 w c items hsel hwf,
      cli_app_run_selected uninit app a0 w _ c hsel, parse_command_args_eq,
      prefix_loop uninit app _ items _ hwf, hloop]
    refine ⟨rfl, rfl, ?_⟩
    intro j
    simp only [nth_update, Option.map_map]
    congr 1
    funext o
    simp only [Function.comp]
    split <;> rfl

set_option maxRecDepth 8192 in
/-- C6, witness: on the demo `count` command a 255-byte value for `-p` reaches the handler in
full, and a 256-byte value makes the run return 1 without a call. -/
theorem C6_value_length_witness :
    selects (demo_app (const_action 0) (const_action 7)) "count".toList 1 = true ∧
    (List.replicate 255 'a').length ≤ 255 ∧
    (cli_app_run 1 (demo_app (const_action 0) (const_action 7))
      ["filetool".toList, "count".toList, "-p".toList, List.replicate 255 'a']).calls.map
        (fun call => call.opts.map (fun o => (o.is_present, cstr o.value)))
      = [[(true, List.replicate 255 'a'), (false, []), (false, []), (false, [])]] ∧
    (cli_app_run 1 (demo_app (const_action 0) (const_action 7))
      ["filetool".toList, "count".toList, "-p".toList, List.replicate 256 'a']).ret = some 1 ∧
    (cli_app_run 1 (demo_app (const_action 0) (const_action 7))
      ["filetool".toList, "count".toList, "-p".toList, List.replicate 256 'a']).calls = [] := by
  have hsel : selects (demo_app (const_action 0) (const_action 7)) "count".toList 1 = true := by
    decide
  have h := C6_value_length 1 (demo_app (const_action 0) (const_action 7)) "filetool".toList
    "count".toList 1 [] "-p".toList (List.replicate 256 'a') 2 hsel (by decide) (by decide)
    (by decide) (by decide) (by decide)
  have h2 := h.2 (by decide) []
  exact ⟨hsel, by decide, by decide, h2.1, h2.2.1⟩

/-! ### Flags -/

theorem mem_nth {α : Type} (l : List α) (x : α) (h : x ∈ l) : ∃ k, nth l k = some x := by
  induction l with
  | nil => simp at h
  | cons y ys ih =>
    rcases List.mem_cons.1 h with e | e
    · exact ⟨0, by rw [e]; rfl⟩
    · obtain ⟨k, hk⟩ := ih e
      exact ⟨k + 1, hk⟩

theorem is_flag_at_of_nth (app : cli_app) (k : Nat) (o : cli_option)
    (h : nth app.options k = some o) : is_flag_at app k = o.is_flag := by
  simp [is_flag_at, h]

/-- The loop keeps every present flag at "true". -/
theorem parse_loop_flag_inv (uninit : Nat) (opts : List Nat) :
    ∀ (toks : List CString) (app : cli_app),
      (∀ k o, nth app.options k = some o → o.is_flag = true → o.is_present = true →
        cstr o.value = ['t', 'r', 'u', 'e']) →
      ∀ k o, nth (parse_loop uninit opts app toks).1.options k = some o → o.is_flag = true →
        o.is_present = true → cstr o.value = ['t', 'r', 'u', 'e'] := by
  refine parse_loop_induction uninit opts
    (fun app _ res =>
      (∀ k o, nth app.options k = some o → o.is_flag = true → o.is_present = true →
        cstr o.value = ['t', 'r', 'u', 'e']) →
      ∀ k o, nth res.1.options k = some o → o.is_flag = true → o.is_present = true →
        cstr o.value = ['t', 'r', 'u', 'e'])
    ?_ ?_ ?_ ?_ ?_ ?_ ?_ ?_
  · intro app h; exact h
  · intro app _ _ _ h; exact h
  · intro app _ _ _ _ h; exact h
  · intro app _ _ _ _ _ h; exact h
  · intro app _ _ _ _ _ h; exact h
  · intro app arg rest k _ _ _ _ ih h
    apply ih
    intro j o hj hfl hp
    rw [nth_update, nth_update] at hj
    cases h0 : nth app.options j with
    | none => rw [h0] at hj; simp at hj
    | some o0 =>
      rw [h0] at hj
      simp only [Option.map_some', Option.some.injEq] at hj
      by_cases e : j = k
      · simp only [e, if_true] at hj
        rw [← hj]; exact cstr_true _
      · simp only [e, if_false] at hj
        rw [← hj] at hfl hp ⊢
        exact h j o0 h0 hfl hp
  · intro app arg rest k _ _ _ hk _ h j o hj hfl hp
    rw [nth_update] at hj
    cases h0 : nth app.options j with
    | none => rw [h0] at hj; simp at hj
    | some o0 =>
      rw [h0] at hj
      simp only [Option.map_some', Option.some.injEq] at hj
      by_cases e : j = k
      · subst e
        rw [is_flag_at_of_nth app j o0 h0] at hk
        simp only [if_true] at hj
        rw [← hj] at hfl
        have : o0.is_flag = true := hfl
        rw [hk] at this; exact absurd this (by simp)
      · simp only [e, if_false] at hj
        rw [← hj] at hfl hp ⊢
        exact h j o0 h0 hfl hp
  · intro app arg v rest k _ _ _ hk _ _ ih h
    apply ih
    intro j o hj hfl hp
    rw [nth_update, nth_update] at hj
    cases h0 : nth app.options j with
    | none => rw [h0] at hj; simp at hj
    | some o0 =>
      rw [h0] at hj
      simp only [Option.map_some', Option.some.injEq] at hj
      by_cases e : j = k
      · subst e
        rw [is_flag_at_of_nth app j o0 h0] at hk
        simp only [if_true] at hj
        rw [← hj] at hfl
        have : o0.is_flag = true := hfl
        rw [hk] at this; exact absurd this (by simp)
      · simp only [e, if_false] at hj
        rw [← hj] at hfl hp ⊢
        exact h j o0 h0 hfl hp

/-- The state after a run: untouched, or what the parse loop of a command left. -/
theorem cli_app_run_app (uninit : Nat) (app : cli_app) (argv : List CString) :
    (cli_app_run uninit app argv).app = app ∨
    ∃ (c : Nat) (toks : List CString),
      (cli_app_run uninit app argv).app
        = (parse_loop uninit (get_command_options app (some c))
            (reset_options app (get_command_options app (some c))) toks).1 := by
  cases argv with
  | nil =>
    left
    simp only [cli_app_run]
    split <;> rfl
  | cons a0 rest =>
    cases rest with
    | nil =>
      left
      simp only [cli_app_run]
      split <;> rfl
    | cons w toks =>
      simp only [cli_app_run]
      by_cases hh : is_help w = true
      · left; simp [hh]
      · simp only [hh, Bool.false_eq_true, if_false]
        cases hf : find_command app w with
        | none =>
          left
          simp only
          split <;> rfl
        | some c =>
          right
          refine ⟨c, toks, ?_⟩
          simp only
          rw [parse_command_args_eq]
          rcases parse_loop uninit (get_command_options app (some c))
            (reset_options app (get_command_options app (some c))) toks with ⟨x, fl⟩
          cases fl with
          | abort => rfl
          | ret code => rfl
          | next =>
            simp only
            split
            · rfl
            · split <;> rfl

theorem reset_flag_inv (app : cli_app) (opts : List Nat)
    (h : ∀ k o, nth app.options k = some o → o.is_flag = true → o.is_present = true →
      cstr o.value = ['t', 'r', 'u', 'e']) :
    ∀ k o, nth (reset_options app opts).options k = some o → o.is_flag = true →
      o.is_present = true → cstr o.value = ['t', 'r', 'u', 'e'] := by
  intro k o hk hfl hp
  rw [nth_reset] at hk
  cases h0 : nth app.options k with
  | none => rw [h0] at hk; simp at hk
  | some o0 =>
    rw [h0] at hk
    simp only [Option.map_some', Option.some.injEq] at hk
    by_cases e : k ∈ opts
    · simp only [e, if_true] at hk
      rw [← hk] at hp
      exact absurd hp (by simp [clear_option])
    · simp only [e, if_false] at hk
      rw [← hk] at hfl hp ⊢
      exact h k o0 h0 hfl hp

theorem reachable_flag_inv (app : cli_app) (h : Reachable app) :
    ∀ k o, nth app.options k = some o → o.is_flag = true → o.is_present = true →
      cstr o.value = ['t', 'r', 'u', 'e'] := by
  induction h with
  | create name version description default_action =>
    intro k o hk
    simp [cli_app_create, nth] at hk
  | add_command names action help_text _ hadd ih =>
    intro k o hk
    unfold cli_app_add_command at hadd
    split at hadd
    · cases hadd
    · simp only [Option.some.injEq, Prod.mk.injEq] at hadd
      rw [← hadd.1] at hk
      exact ih k o hk
  | add_option cmd names required is_flag help_text _ hadd ih =>
    intro k o hk hfl hp
    unfold cli_cmd_add_option at hadd
    split at hadd
    · cases hadd
    · simp only [Option.some.injEq] at hadd
      rw [← hadd] at hk
      have hm := nth_mem _ k o hk
      simp only [List.mem_append, List.mem_singleton] at hm
      rcases hm with hm | hm
      · obtain ⟨j, hj⟩ := mem_nth _ o hm
        exact ih j o hj hfl hp
      · rw [hm] at hp; simp at hp
  | run uninit argv _ ih =>
    rcases cli_app_run_app uninit _ argv with e | ⟨c, toks, e⟩
    · rw [e]; exact ih
    · rw [e]
      exact parse_loop_flag_inv uninit _ toks _ (reset_flag_inv _ _ ih)

/-- C7: in every reachable state a flag that is marked present holds exactly "true"; and the
parser, in any state and on a token that resolves to a flag, marks it, writes "true" and continues with the very
next token, which is therefore never taken as the value of the flag. -/
theorem C7_flag_value (app : cli_app) (h : Reachable app) :
    (∀ o ∈ app.options, o.is_flag = true → o.is_present = true →
      cstr o.value = ['t', 'r', 'u', 'e']) ∧
    (∀ (uninit : Nat) (st : cli_app) (opts : List Nat) (arg : CString) (rest : List CString)
        (k : Nat),
      is_help arg = false → is_option_arg arg = true →
      find_option_from_list st opts arg = some (some k) → is_flag_at st k = true →
      parse_loop uninit opts st (arg :: rest)
        = parse_loop uninit opts
            (update_option (update_option st k mark_present) k store_true) rest) := by
  constructor
  · intro o ho hfl hp
    obtain ⟨k, hk⟩ := mem_nth _ o ho
    exact reachable_flag_inv app h k o hk hfl hp
  · intro uninit st opts arg rest k hh hd hf hk
    exact parse_loop_flag_at uninit st opts arg rest k hh hd hf hk

theorem demo_app_reachable (cmd_info cmd_count : cli_action) :
    Reachable (demo_app cmd_info cmd_count) := by
  have h0 := Reachable.create "filetool".toList "1.0.0".toList
    "A file utility showcasing the clic library".toList none
  have h1 := Reachable.add_command "info, i".toList cmd_info
    "Display information about a file or directory".toList h0 rfl
  have h2 := Reachable.add_option (some 0) "-p, --path".toList true false
    "Path to inspect".toList h1 rfl
  have h3 := Reachable.add_option (some 0) "-v, --verbose".toList false true
    "Show extended information".toList h2 rfl
  have h4 := Reachable.add_command "count, c".toList cmd_count
    "Count lines, words, and characters".toList h3 rfl
  have h5 := Reachable.add_option (some 1) "-p, --path".toList true false
    "File to analyze".toList h4 rfl
  have h6 := Reachable.add_option (some 1) "-l, --lines".toList false true
    "Count lines only".toList h5 rfl
  have h7 := Reachable.add_option (some 1) "-w, --words".toList false true
    "Count words only".toList h6 rfl
  have h8 := Reachable.add_option (some 1) "-c, --chars".toList false true
    "Count characters only".toList h7 rfl
  exact h8

/-- C7, witness: `filetool count -l 5` on the demo application fails with 1 (the `5` after the
flag `-l` is not taken as its value), and in the state it leaves `-l` is present with "true". -/
theorem C7_flag_value_witness :
    Reachable (cli_app_run 1 (demo_app (const_action 0) (const_action 7))
      ["filetool".toList, "count".toList, "-l".toList, "5".toList]).app ∧
    (cli_app_run 1 (demo_app (const_action 0) (const_action 7))
      ["filetool".toList, "count".toList, "-l".toList, "5".toList]).ret = some 1 ∧
    (cli_app_run 1 (demo_app (const_action 0) (const_action 7))
      ["filetool".toList, "count".toList, "-l".toList, "5".toList]).app.options.map
        (fun o => (o.is_flag, o.is_present, cstr o.value))
      = [(false, false, []), (true, false, []), (false, false, []),
         (true, true, "true".toList), (true, false, []), (true, false, [])] ∧
    (∀ o ∈ (cli_app_run 1 (demo_app (const_action 0) (const_action 7))
        ["filetool".toList, "count".toList, "-l".toList, "5".toList]).app.options,
      o.is_flag = true → o.is_present = true → cstr o.value = ['t', 'r', 'u', 'e']) := by
  have hr := Reachable.run 1 ["filetool".toList, "count".toList, "-l".toList, "5".toList]
    (demo_app_reachable (const_action 0) (const_action 7))
  exact ⟨hr, by decide, by decide, (C7_flag_value _ hr).1⟩

/-! ### Missing values and help -/

/-- C8 (amended): after a well-formed prefix, a token other than `--help`/`-h` that starts with
`-` and resolves to a value-bearing option of the selected command, when it is the last token
or the token after it starts with `-`: `cli_app_run` returns 1 and the handler is not
invoked. -/
theorem C8_missing_value (uninit : Nat) (app : cli_app) (a0 w : CString) (c : Nat)
    (items : List Item) (arg : CString) (rest : List CString)
    (hsel : selects app w c = true)
    (hwf : ∀ it ∈ items, wf_item app (get_command_options app (some c)) it = true)
    (harg : option_token app (get_command_options app (some c)) false arg = true)
    (hrest : rest = [] ∨ ∃ v rest2, rest = v :: rest2 ∧ is_option_arg v = true) :
    (cli_app_run uninit app (a0 :: w :: (item_tokens items ++ arg :: rest))).ret = some 1 ∧
    (cli_app_run uninit app (a0 :: w :: (item_tokens items ++ arg :: rest))).calls = [] := by
  obtain ⟨hh, hd, k, hf, hflag⟩ := (option_token_iff app _ false arg).1 harg
  have hdF := decl_eq_final app (get_command_options app (some c)) items
  have hr : rest = [] ∨ ∃ v rest2, rest = v :: rest2 ∧
      (is_option_arg v = true ∨ VALUE_SIZE ≤ v.length) := by
    rcases hrest with h | ⟨v, rest2, h1, h2⟩
    · exact Or.inl h
    · exact Or.inr ⟨v, rest2, h1, Or.inl h2⟩
  rw [cli_app_run_selected uninit app a0 w _ c hsel, parse_command_args_eq,
    prefix_loop uninit app _ items _ hwf,
    parse_loop_no_value uninit _ _ arg rest k hh hd
      (by rw [← find_option_decl hdF]; exact hf)
      (by rw [← is_flag_at_decl hdF]; exact hflag) hr]
  exact ⟨rfl, rfl⟩

/-- C8, witness: on the demo application `filetool count -l -p` (value missing at the end) and
`filetool count -p -5` (next token starts with `-`) return 1 without a call. -/
theorem C8_missing_value_witness :
    selects (demo_app (const_action 0) (const_action 7)) "count".toList 1 = true ∧
    (cli_app_run 1 (demo_app (const_action 0) (const_action 7))
      ["filetool".toList, "count".toList, "-l".toList, "-p".toList]).ret = some 1 ∧
    (cli_app_run 1 (demo_app (const_action 0) (const_action 7))
      ["filetool".toList, "count".toList, "-l".toList, "-p".toList]).calls = [] ∧
    (cli_app_run 1 (demo_app (const_action 0) (const_action 7))
      ["filetool".toList, "count".toList, "-p".toList, "-5".toList]).ret = some 1 ∧
    (cli_app_run 1 (demo_app (const_action 0) (const_action 7))
      ["filetool".toList, "count".toList, "-p".toList, "--help".toList]).ret = some 1 := by
  have hsel : selects (demo_app (const_action 0) (const_action 7)) "count".toList 1 = true := by
    decide
  have h := C8_missing_value 1 (demo_app (const_action 0) (const_action 7)) "filetool".toList
    "count".toList 1 [Item.flag "-l".toList] "-p".toList [] hsel (by decide) (by decide)
    (Or.inl rfl)
  exact ⟨hsel, h.1, h.2, by decide, by decide⟩

/-- C8, as stated, fails: in `tool connect -h` the last token `-h` matches the value-bearing
option declared as `-h, --host`, yet the run does not return 1: the token is taken as a request
for help before any option lookup, and the run returns 0 (or aborts in the help printer when
its uninitialised local reads as 0). -/
theorem C8_counterexample :
    selects host_app "connect".toList 0 = true ∧
    get_command_options host_app (some 0) = [0] ∧
    matches_at host_app "-h".toList 0 = true ∧
    is_flag_at host_app 0 = false ∧
    (cli_app_run 1 host_app ["tool".toList, "connect".toList, "-h".toList]).ret = some 0 ∧
    (cli_app_run 0 host_app ["tool".toList, "connect".toList, "-h".toList]).ret = none := by
  decide

/-- C9 (amended): when the first word selects command `c` and a `--help`/`-h` token follows a
(possibly empty) well-formed prefix of the arguments, the handler of `c` is not invoked,
whatever comes after the help token and whether or not required options are missing, and the
run returns 0 whenever `print_command_help` returns (the command has no options, or the
uninitialised local of the help printer is non-zero). -/
theorem C9_command_help (uninit : Nat) (app : cli_app) (a0 w : CString) (c : Nat)
    (items : List Item) (arg : CString) (rest : List CString)
    (hsel : selects app w c = true)
    (hwf : ∀ it ∈ items, wf_item app (get_command_options app (some c)) it = true)
    (hhelp : is_help arg = true) :
    (cli_app_run uninit app (a0 :: w :: (item_tokens items ++ arg :: rest))).calls = [] ∧
    ((get_command_options app (some c) = [] ∨ uninit ≠ 0) →
      (cli_app_run uninit app (a0 :: w :: (item_tokens items ++ arg :: rest))).ret = some 0) := by
  rw [cli_app_run_selected uninit app a0 w _ c hsel, parse_command_args_eq,
    prefix_loop uninit app _ items _ hwf, parse_loop_help uninit _ _ arg rest hhelp]
  by_cases hp : print_command_help uninit (get_command_options app (some c)) = true
  · rw [if_pos hp]
    exact ⟨rfl, fun _ => rfl⟩
  · rw [if_neg hp]
    refine ⟨rfl, fun h => ?_⟩
    exfalso
    apply hp
    unfold print_command_help
    rcases h with h | h
    · simp [h]
    · simp [h]

/-- C9, witness: `filetool count -l --help -p` on the demo application returns 0 without a
call although the required `-p` has no value. -/
theorem C9_command_help_witness :
    selects (demo_app (const_action 0) (const_action 7)) "count".toList 1 = true ∧
    is_help "--help".toList = true ∧
    (cli_app_run 1 (demo_app (const_action 0) (const_action 7))
      ["filetool".toList, "count".toList, "-l".toList, "--help".toList, "-p".toList]).calls
      = [] ∧
    (cli_app_run 1 (demo_app (const_action 0) (const_action 7))
      ["filetool".toList, "count".toList, "-l".toList, "--help".toList, "-p".toList]).ret
      = some 0 := by
  have hsel : selects (demo_app (const_action 0) (const_action 7)) "count".toList 1 = true := by
    decide
  have h := C9_command_help 1 (demo_app (const_action 0) (const_action 7)) "filetool".toList
    "count".toList 1 [Item.flag "-l".toList] "--help".toList ["-p".toList] hsel (by decide)
    (by decide)
  exact ⟨hsel, by decide, h.1, h.2 (Or.inr (by decide))⟩

/-- C9, as stated, fails: in `filetool count foo --help` and in `filetool count -p --help` a
help token occurs after index 2, yet the run returns 1: the parser stops at `foo` (unexpected
argument), respectively takes `--help` as the missing value of `-p`. -/
theorem C9_counterexample :
    selects (demo_app (const_action 0) (const_action 7)) "count".toList 1 = true ∧
    (cli_app_run 1 (demo_app (const_action 0) (const_action 7))
      ["filetool".toList, "count".toList, "foo".toList, "--help".toList]).ret = some 1 ∧
    (cli_app_run 1 (demo_app (const_action 0) (const_action 7))
      ["filetool".toList, "count".toList, "-p".toList, "--help".toList]).ret = some 1 := by
  decide

/-! ### Return values -/

/-- The loop returns only 1, or 0 at a help token. -/
theorem parse_loop_ret (uninit : Nat) (opts : List Nat) :
    ∀ (toks : List CString) (app : cli_app) (code : Int),
      (parse_loop uninit opts app toks).2 = Flow.ret code →
      code = 1 ∨ (code = 0 ∧ ∃ t ∈ toks, is_help t = true) := by
  refine parse_loop_induction uninit opts
    (fun _ toks res => ∀ code : Int, res.2 = Flow.ret code →
      code = 1 ∨ (code = 0 ∧ ∃ t ∈ toks, is_help t = true))
    ?_ ?_ ?_ ?_ ?_ ?_ ?_ ?_
  · intro app code h; cases h
  · intro app arg rest hh code h
    right
    simp only at h
    split at h
    · simp only [Flow.ret.injEq] at h
      exact ⟨h.symm, arg, by simp, hh⟩
    · cases h
  · intro app arg rest _ _ code h
    simp only [Flow.ret.injEq] at h
    exact Or.inl h.symm
  · intro app arg rest _ _ _ code h; cases h
  · intro app arg rest _ _ _ code h
    simp only [Flow.ret.injEq] at h
    exact Or.inl h.symm
  · intro app arg rest k _ _ _ _ ih code h
    rcases ih code h with h1 | ⟨h1, t, ht, h2⟩
    · exact Or.inl h1
    · exact Or.inr ⟨h1, t, by simp [ht], h2⟩
  · intro app arg rest k _ _ _ _ _ code h
    simp only [Flow.ret.injEq] at h
    exact Or.inl h.symm
  · intro app arg v rest k _ _ _ _ _ _ ih code h
    rcases ih code h with h1 | ⟨h1, t, ht, h2⟩
    · exact Or.inl h1
    · exact Or.inr ⟨h1, t, by simp [ht], h2⟩

theorem deref_mem (app : cli_app) (opts : List Nat) (o : cli_option) (h : o ∈ deref app opts) :
    o ∈ app.options := by
  unfold deref at h
  rw [List.mem_filterMap] at h
  obtain ⟨k, _, hk⟩ := h
  exact nth_mem _ k o hk

/-- C10: a call of `cli_app_run` that returns either invoked exactly one handler (the default
handler, or that of the command the first word selects), did so with options of the state it
leaves behind, and returns that handler's result unchanged; or it invoked no handler and
returns 0 or 1, with 0 only when the first word is `--help`/`-h`, or the first word selects a
command and one of the following tokens is `--help`/`-h`. -/
theorem C10_return_value (uninit : Nat) (app : cli_app) (argv : List CString) (code : Int)
    (hret : (cli_app_run uninit app argv).ret = some code) :
    (∃ (call : Call) (f : cli_action),
      (cli_app_run uninit app argv).calls = [call] ∧
      handler_of app call.callee = some f ∧ code = f call.opts ∧
      (∀ o ∈ call.opts, o ∈ (cli_app_run uninit app argv).app.options) ∧
      (call.callee = Callee.default ∨
        ∃ a0 w toks c, argv = a0 :: w :: toks ∧ selects app w c = true ∧
          call.callee = Callee.command c)) ∨
    ((cli_app_run uninit app argv).calls = [] ∧ (code = 0 ∨ code = 1) ∧
      (code = 0 → ∃ a0 w toks, argv = a0 :: w :: toks ∧
        (is_help w = true ∨
          ((∃ c, selects app w c = true) ∧ ∃ t ∈ toks, is_help t = true)))) := by
  have short : ∀ l : List CString, (l = [] ∨ ∃ a, l = [a]) →
      (cli_app_run uninit app l).ret = some code →
      (∃ (call : Call) (f : cli_action),
        (cli_app_run uninit app l).calls = [call] ∧
        handler_of app call.callee = some f ∧ code = f call.opts ∧
        (∀ o ∈ call.opts, o ∈ (cli_app_run uninit app l).app.options) ∧
        (call.callee = Callee.default ∨
          ∃ a0 w toks c, l = a0 :: w :: toks ∧ selects app w c = true ∧
            call.callee = Callee.command c)) ∨
      ((cli_app_run uninit app l).calls = [] ∧ (code = 0 ∨ code = 1) ∧
        (code = 0 → ∃ a0 w toks, l = a0 :: w :: toks ∧
          (is_help w = true ∨
            ((∃ c, selects app w c = true) ∧ ∃ t ∈ toks, is_help t = true)))) := by
    intro l hl h
    have hrun : cli_app_run uninit app l
        = match app.commands, app.default_action with
          | [], some f => invoke app Callee.default f []
          | _, _ => { app := app, calls := [], ret := some 1 } := by
      rcases hl with rfl | ⟨a, rfl⟩ <;> rfl
    rw [hrun] at h ⊢
    cases hc : app.commands with
    | nil =>
      cases hdft : app.default_action with
      | none =>
        rw [hc, hdft] at h
        simp only [Option.some.injEq] at h
        right
        exact ⟨rfl, Or.inr h.symm, fun h0 => by omega⟩
      | some f =>
        rw [hc, hdft] at h
        simp only [invoke, Option.some.injEq] at h
        left
        exact ⟨_, f, rfl, hdft, h.symm, fun o ho => deref_mem app [] o ho, Or.inl rfl⟩
    | cons x xs =>
      rw [hc] at h
      simp only [Option.some.injEq] at h
      right
      exact ⟨rfl, Or.inr h.symm, fun h0 => by omega⟩
  cases argv with
  | nil => exact short [] (Or.inl rfl) hret
  | cons a0 rest =>
    cases rest with
    | nil => exact short [a0] (Or.inr ⟨a0, rfl⟩) hret
    | cons w toks =>
      by_cases hh : is_help w = true
      · have hrun : cli_app_run uninit app (a0 :: w :: toks)
            = { app := app, calls := [], ret := some 0 } := by
          simp [cli_app_run, hh]
        rw [hrun] at hret ⊢
        simp only [Option.some.injEq] at hret
        right
        exact ⟨rfl, Or.inl hret.symm, fun _ => ⟨a0, w, toks, rfl, Or.inl hh⟩⟩
      · have hh : is_help w = false := by simpa using hh
        cases hf : find_command app w with
        | none =>
          have hrun : cli_app_run uninit app (a0 :: w :: toks)
              = match app.default_action with
                | some f => invoke app Callee.default f (get_command_options app none)
                | none => { app := app, calls := [], ret := some 1 } := by
            simp [cli_app_run, hh, hf]
          rw [hrun] at hret ⊢
          cases hdft : app.default_action with
          | none =>
            rw [hdft] at hret
            simp only [Option.some.injEq] at hret
            right
            exact ⟨rfl, Or.inr hret.symm, fun h0 => by omega⟩
          | some f =>
            rw [hdft] at hret
            simp only [invoke, Option.some.injEq] at hret
            left
            exact ⟨_, f, rfl, hdft, hret.symm, fun o ho => deref_mem app _ o ho, Or.inl rfl⟩
        | some c =>
          have hsel : selects app w c = true := (selects_iff app w c).2 ⟨hh, hf⟩
          rw [cli_app_run_selected uninit app a0 w toks c hsel, parse_command_args_eq] at hret ⊢
          have hd := (decl_eq_reset app (get_command_options app (some c))).trans
            (decl_eq_parse_loop uninit (get_command_options app (some c)) toks
              (reset_options app (get_command_options app (some c))))
          have hr := parse_loop_ret uninit (get_command_options app (some c)) toks
            (reset_options app (get_command_options app (some c)))
          rcases hloop : parse_loop uninit (get_command_options app (some c))
            (reset_options app (get_command_options app (some c))) toks with ⟨x, fl⟩
          rw [hloop] at hret hd hr
          cases fl with
          | abort => simp at hret
          | ret code2 =>
            simp only [Option.some.injEq] at hret
            subst hret
            right
            refine ⟨rfl, ?_, ?_⟩
            · rcases hr code2 rfl with h1 | ⟨h1, _⟩
              · exact Or.inr h1
              · exact Or.inl h1
            · intro h0
              rcases hr code2 rfl with h1 | ⟨_, t, ht, h2⟩
              · omega
              · exact ⟨a0, w, toks, rfl, Or.inr ⟨⟨c, hsel⟩, t, ht, h2⟩⟩
          | next =>
            simp only at hret ⊢
            by_cases hm : (get_command_options app (some c)).any (missing_required x) = true
            · rw [if_pos hm] at hret ⊢
              simp only [Option.some.injEq] at hret
              right
              exact ⟨rfl, Or.inr hret.symm, fun h0 => by omega⟩
            · rw [if_neg hm] at hret ⊢
              cases hcmd : nth x.commands c with
              | none => rw [hcmd] at hret; simp at hret
              | some cmd =>
                rw [hcmd] at hret
                simp only [invoke, Option.some.injEq] at hret
                left
                refine ⟨_, cmd.action, rfl, ?_, hret.symm, fun o ho => deref_mem x _ o ho,
                  Or.inr ⟨a0, w, toks, c, rfl, hsel, rfl⟩⟩
                simp only [handler_of]
                rw [hd.1, hcmd]; rfl

/-- C10, witness: the demo run `filetool count -p file.txt -l` returns the 7 of the `count`
handler. -/
theorem C10_return_value_witness :
    (cli_app_run 1 (demo_app (const_action 0) (const_action 7)) demo_count_argv).ret = some 7 ∧
    (∃ (call : Call) (f : cli_action),
      (cli_app_run 1 (demo_app (const_action 0) (const_action 7)) demo_count_argv).calls
        = [call] ∧ (7 : Int) = f call.opts) := by
  have hret : (cli_app_run 1 (demo_app (const_action 0) (const_action 7))
      demo_count_argv).ret = some 7 := by decide
  refine ⟨hret, ?_⟩
  rcases C10_return_value 1 _ demo_count_argv 7 hret with ⟨call, f, h1, _, h3, _⟩ | ⟨h1, _⟩
  · exact ⟨call, f, h1, h3⟩
  · exact absurd h1 (by decide)

/-! ### The first word -/

theorem find_index_from_none {α : Type} (p : α → Bool) (l : List α) :
    ∀ i : Nat, find_index_from p i l = none ↔ ∀ x ∈ l, p x = false := by
  induction l with
  | nil => intro i; simp [find_index_from]
  | cons x xs ih =>
    intro i
    simp only [find_index_from]
    by_cases hp : p x = true
    · simp [hp]
    · have hp2 : p x = false := by simpa using hp
      simp [hp2, ih (i + 1)]

theorem find_command_none (app : cli_app) (name : CString) :
    find_command app name = none ↔ ∀ cmd ∈ app.commands, command_matches_name cmd name = false :=
  find_index_from_none _ _ 0

/-- The run when the first word is neither a help token nor the alias of a command. -/
theorem cli_app_run_unknown (uninit : Nat) (app : cli_app) (a0 w : CString)
    (toks : List CString) (hh : is_help w = false) (hf : find_command app w = none) :
    cli_app_run uninit app (a0 :: w :: toks)
      = match app.default_action with
        | some f =>
          { app := app,
            calls := [{ callee := Callee.default,
                        opts := app.options.filter (fun o => o.command == none) }],
            ret := some (f (app.options.filter (fun o => o.command == none))) }
        | none => { app := app, calls := [], ret := some 1 } := by
  simp only [cli_app_run, hh, Bool.false_eq_true, if_false, hf]
  cases app.default_action with
  | none => rfl
  | some f => simp only [invoke, deref_get_command_options]

/-- C11: when the first word is not a help token and is an alias of no registered command, a
registered default handler is invoked once with exactly the global options (owner `NULL`) in
declaration order, whatever the remaining arguments are, and its result is returned; without
a default handler the run returns 1 and invokes nothing. The state is left as it was. -/
theorem C11_unknown_command (uninit : Nat) (app : cli_app) (a0 w : CString)
    (toks : List CString) (hh : is_help w = false)
    (hno : ∀ cmd ∈ app.commands, command_matches_name cmd w = false) :
    (∀ f, app.default_action = some f →
      cli_app_run uninit app (a0 :: w :: toks)
        = { app := app,
            calls := [{ callee := Callee.default,
                        opts := app.options.filter (fun o => o.command == none) }],
            ret := some (f (app.options.filter (fun o => o.command == none))) }) ∧
    (app.default_action = none →
      cli_app_run uninit app (a0 :: w :: toks) = { app := app, calls := [], ret := some 1 }) := by
  have hf := (find_command_none app w).2 hno
  have hrun := cli_app_run_unknown uninit app a0 w toks hh hf
  constructor
  · intro f hdf
    rw [hrun, hdf]
  · intro hdf
    rw [hrun, hdf]

/-- C11, witness: `tool unknowncmd extra` on an application with a default handler hands it
the one global option `-g` and returns its 5; on the demo application, which has no default
handler, it returns 1. -/
theorem C11_unknown_command_witness :
    is_help "unknowncmd".toList = false ∧
    (cli_app_run 1 default_app ["tool".toList, "unknowncmd".toList, "extra".toList]).ret
      = some 5 ∧
    (cli_app_run 1 default_app ["tool".toList, "unknowncmd".toList, "extra".toList]).calls.map
        (fun call => (call.callee, call.opts.map (fun o => o.names)))
      = [(Callee.default, ["-g".toList])] ∧
    (cli_app_run 1 (demo_app (const_action 0) (const_action 7))
      ["tool".toList, "unknowncmd".toList]).ret = some 1 := by
  have h := C11_unknown_command 1 default_app "tool".toList "unknowncmd".toList
    ["extra".toList] (by decide) (by decide)
  have h1 := h.1 (const_action 5) rfl
  have h2 := C11_unknown_command 1 (demo_app (const_action 0) (const_action 7)) "tool".toList
    "unknowncmd".toList [] (by decide) (by decide)
  refine ⟨by decide, ?_, ?_, ?_⟩
  · rw [h1]; rfl
  · rw [h1]; decide
  · rw [h2.2 rfl]

/-- C12: when the first word is `--help` or `-h`, the run returns 0, invokes no handler and
leaves the application state as it was, whatever is registered and whatever follows. -/
theorem C12_app_help (uninit : Nat) (app : cli_app) (a0 w : CString) (toks : List CString)
    (hh : is_help w = true) :
    cli_app_run uninit app (a0 :: w :: toks) = { app := app, calls := [], ret := some 0 } := by
  simp [cli_app_run, hh]

/-- C12, witness: `tool -h extra` on an application whose only command is declared as
`-h, help` and that has a default handler. -/
theorem C12_app_help_witness :
    is_help "-h".toList = true ∧
    command_matches_name { names := "-h, help".toList, action := const_action 3, help_text := [] }
      "-h".toList = true ∧
    (cli_app_run 1 help_alias_app ["tool".toList, "-h".toList, "extra".toList]).ret = some 0 ∧
    (cli_app_run 1 help_alias_app ["tool".toList, "-h".toList, "extra".toList]).calls = [] := by
  have h := C12_app_help 1 help_alias_app "tool".toList "-h".toList ["extra".toList]
    (by decide)
  refine ⟨by decide, by decide, ?_, ?_⟩
  · rw [h]
  · rw [h]

/-- C13: with fewer than two tokens, the default handler is invoked, with no options, and its
result returned exactly when no command is registered and a default handler exists; in every
other case no handler is invoked and the run returns 1. The state is left as it was. -/
theorem C13_no_command_word (uninit : Nat) (app : cli_app) (argv : List CString)
    (hlen : argv.length < 2) :
    (∀ f, app.commands = [] → app.default_action = some f →
      cli_app_run uninit app argv
        = { app := app, calls := [{ callee := Callee.default, opts := [] }],
            ret := some (f []) }) ∧
    ((app.commands ≠ [] ∨ app.default_action = none) →
      cli_app_run uninit app argv = { app := app, calls := [], ret := some 1 }) := by
  have hrun : cli_app_run uninit app argv
      = match app.commands, app.default_action with
        | [], some f => invoke app Callee.default f []
        | _, _ => { app := app, calls := [], ret := some 1 } := by
    cases argv with
    | nil => rfl
    | cons a rest =>
      cases rest with
      | nil => rfl
      | cons b rest2 => simp only [List.length_cons] at hlen; omega
  constructor
  · intro f hc hd
    rw [hrun, hc, hd]
    rfl
  · intro h
    rw [hrun]
    cases hc : app.commands with
    | nil =>
      cases hd : app.default_action with
      | none => rfl
      | some f =>
        rcases h with h | h
        · exact absurd hc h
        · rw [hd] at h; cases h
    | cons x xs => rfl

/-- C13, witness: `tool` alone returns the default handler's 5 when no command is registered,
and 1 once a command is registered, default handler or not. -/
theorem C13_no_command_word_witness :
    (["tool".toList] : List CString).length < 2 ∧
    (cli_app_run 1 plain_app ["tool".toList]).ret = some 5 ∧
    (cli_app_run 1 plain_app ["tool".toList]).calls
      = [{ callee := Callee.default, opts := [] }] ∧
    (cli_app_run 1 default_app ["tool".toList]).ret = some 1 ∧
    (cli_app_run 1 default_app ["tool".toList]).calls = [] := by
  have h1 := (C13_no_command_word 1 plain_app ["tool".toList] (by decide)).1
    (const_action 5) rfl rfl
  have h2 := (C13_no_command_word 1 default_app ["tool".toList] (by decide)).2
    (Or.inl (List.cons_ne_nil _ _))
  refine ⟨by decide, ?_, ?_, ?_, ?_⟩
  · rw [h1]; rfl
  · rw [h1]
  · rw [h2]
  · rw [h2]

theorem is_version_not_help (w : CString) (h : is_version w = true) : is_help w = false := by
  simp only [is_version, Bool.or_eq_true, beq_iff_eq] at h
  rcases h with h | h <;> subst h <;> decide

/-- C14 (amended): a first word `--version` or `-v` that is an alias of no registered command
makes `cli_app_run` print and then go on into the command lookup with that same word: without
a default handler the run returns 1 and invokes no handler; with a default handler that
handler is invoked with the global options and its result is returned. -/
theorem C14_version_fallthrough (uninit : Nat) (app : cli_app) (a0 w : CString)
    (toks : List CString) (hv : is_version w = true)
    (hno : ∀ cmd ∈ app.commands, command_matches_name cmd w = false) :
    prints_version (a0 :: w :: toks) = true ∧
    (app.default_action = none →
      cli_app_run uninit app (a0 :: w :: toks) = { app := app, calls := [], ret := some 1 }) ∧
    (∀ f, app.default_action = some f →
      cli_app_run uninit app (a0 :: w :: toks)
        = { app := app,
            calls := [{ callee := Callee.default,
                        opts := app.options.filter (fun o => o.command == none) }],
            ret := some (f (app.options.filter (fun o => o.command == none))) }) := by
  have hh := is_version_not_help w hv
  have hf := (find_command_none app w).2 hno
  have hrun := cli_app_run_unknown uninit app a0 w toks hh hf
  refine ⟨by simp [prints_version, hh, hv], ?_, ?_⟩
  · intro hdf
    rw [hrun, hdf]
  · intro f hdf
    rw [hrun, hdf]

/-- C14, witness: `filetool --version` on the demo application (no default handler) returns 1
without a call. -/
theorem C14_version_fallthrough_witness :
    is_version "--version".toList = true ∧
    prints_version ["filetool".toList, "--version".toList] = true ∧
    (cli_app_run 1 (demo_app (const_action 0) (const_action 7))
      ["filetool".toList, "--version".toList]).ret = some 1 ∧
    (cli_app_run 1 (demo_app (const_action 0) (const_action 7))
      ["filetool".toList, "--version".toList]).calls = [] := by
  have h := C14_version_fallthrough 1 (demo_app (const_action 0) (const_action 7))
    "filetool".toList "--version".toList [] (by decide) (by decide)
  refine ⟨by decide, h.1, ?_, ?_⟩
  · rw [h.2.1 rfl]
  · rw [h.2.1 rfl]

/-- C14, as stated, fails: no command of this application has `--version` or `-v` among its
aliases, yet `tool --version` and `tool -v` do not return 1 without a call: the lookup
misses, and the registered default handler is invoked and its 5 returned. -/
theorem C14_counterexample :
    (∀ cmd ∈ default_app.commands, command_matches_name cmd "--version".toList = false) ∧
    (∀ cmd ∈ default_app.commands, command_matches_name cmd "-v".toList = false) ∧
    (cli_app_run 1 default_app ["tool".toList, "--version".toList]).ret = some 5 ∧
    (cli_app_run 1 default_app ["tool".toList, "--version".toList]).calls.map
      (fun call => call.callee) = [Callee.default] ∧
    (cli_app_run 1 default_app ["tool".toList, "-v".toList]).ret = some 5 ∧
    (cli_app_run 1 default_app ["tool".toList, "-v".toList]).calls.map
      (fun call => call.callee) = [Callee.default] := by
  decide

/-! ### First match in an array -/

theorem find_index_from_iff {α : Type} (p : α → Bool) (l : List α) :
    ∀ (i j : Nat), find_index_from p i l = some j ↔
      i ≤ j ∧ ∃ x, nth l (j - i) = some x ∧ p x = true ∧
        ∀ m < j - i, ∀ y, nth l m = some y → p y = false := by
  induction l with
  | nil => intro i j; simp [find_index_from, nth]
  | cons x xs ih =>
    intro i j
    simp only [find_index_from]
    by_cases hp : p x = true
    · simp only [hp, if_true, Option.some.injEq]
      constructor
      · intro e
        subst e
        exact ⟨Nat.le_refl _, x, by simp [nth], hp, fun m hm => by omega⟩
      · rintro ⟨hle, y, hy, _, hmin⟩
        by_cases e : j = i
        · exact e.symm
        · exfalso
          have h0 := hmin 0 (by omega) x (by simp [nth])
          rw [hp] at h0; cases h0
    · have hp2 : p x = false := by simpa using hp
      simp only [hp2, Bool.false_eq_true, if_false, ih (i + 1) j]
      constructor
      · rintro ⟨hle, y, hy, hpy, hmin⟩
        have e : j - i = (j - (i + 1)) + 1 := by omega
        refine ⟨by omega, y, by rw [e]; exact hy, hpy, ?_⟩
        intro m hm z hz
        cases m with
        | zero =>
          simp only [nth, Option.some.injEq] at hz
          rw [← hz]; exact hp2
        | succ m => exact hmin m (by omega) z hz
      · rintro ⟨hle, y, hy, hpy, hmin⟩
        have hne : j ≠ i := by
          intro e
          subst e
          simp only [Nat.sub_self, nth, Option.some.injEq] at hy
          rw [← hy, hp2] at hpy; cases hpy
        have e : j - i = (j - (i + 1)) + 1 := by omega
        rw [e] at hy
        refine ⟨by omega, y, hy, hpy, ?_⟩
        intro m hm z hz
        exact hmin (m + 1) (by omega) z hz

theorem nth_take {α : Type} (l : List α) :
    ∀ (n i : Nat), nth (l.take n) i = if i < n then nth l i else none := by
  induction l with
  | nil => intro n i; cases n <;> simp [nth]
  | cons x xs ih =>
    intro n i
    cases n with
    | zero => simp [nth]
    | succ n =>
      cases i with
      | zero => simp [nth]
      | succ i => simp [nth, ih n i]

theorem nth_lt_length {α : Type} (l : List α) (k : Nat) (x : α) (h : nth l k = some x) :
    k < l.length := by
  induction l generalizing k with
  | nil => simp [nth] at h
  | cons y ys ih =>
    cases k with
    | zero => simp
    | succ n => simp only [List.length_cons]; exact Nat.succ_lt_succ (ih n h)

/-! ### The option lookup helper -/

theorem strstr_iff (hay needle : List Char) :
    strstr hay needle = true ↔ List.IsInfix needle hay := by
  induction hay with
  | nil => simp [strstr]
  | cons c cs ih =>
    rw [List.infix_cons_iff, ← ih]
    simp [strstr]

/-- C15: `cli_get_option` returns the first option, in index order below `count`, that is
present and whose raw alias string contains `name` as a substring, and `NULL` exactly when
there is none. So for a present option declared as `-p, --path` it answers the names `--pa`
and `p`, neither of which is in the option's alias set. -/
theorem C15_get_option_substring :
    (∀ (opts : List cli_option) (count : Nat) (name : CString) (i : Nat),
      cli_get_option opts count name = some i ↔
        i < count ∧ ∃ o, nth opts i = some o ∧ o.is_present = true ∧
          List.IsInfix name o.names ∧
          ∀ j < i, ∀ o2, nth opts j = some o2 →
            ¬ (o2.is_present = true ∧ List.IsInfix name o2.names)) ∧
    (∀ (opts : List cli_option) (count : Nat) (name : CString),
      cli_get_option opts count name = none ↔
        ∀ j < count, ∀ o, nth opts j = some o →
          ¬ (o.is_present = true ∧ List.IsInfix name o.names)) ∧
    (cli_get_option
        [{ names := "-p, --path".toList, help_text := [], command := some 0, required := true,
           is_flag := false, is_present := true, value := memset_value }] 1 "--pa".toList
      = some 0 ∧
     cli_get_option
        [{ names := "-p, --path".toList, help_text := [], command := some 0, required := true,
           is_flag := false, is_present := true, value := memset_value }] 1 "p".toList
      = some 0 ∧
     option_matches_name
        { names := "-p, --path".toList, help_text := [], command := some 0, required := true,
          is_flag := false, is_present := true, value := memset_value } "--pa".toList = false ∧
     option_matches_name
        { names := "-p, --path".toList, help_text := [], command := some 0, required := true,
          is_flag := false, is_present := true, value := memset_value } "p".toList = false) := by
  refine ⟨?_, ?_, by decide⟩
  · intro opts count name i
    unfold cli_get_option
    rw [find_index_from_iff]
    simp only [Nat.zero_le, true_and, Nat.sub_zero, nth_take, Bool.and_eq_true, strstr_iff]
    constructor
    · rintro ⟨o, ho, ⟨hs, hp⟩, hmin⟩
      by_cases hi : i < count
      · simp only [hi, if_true] at ho
        refine ⟨hi, o, ho, hp, hs, ?_⟩
        intro j hj o2 ho2 ⟨hp2, hs2⟩
        have := hmin j hj o2 (by simp [Nat.lt_trans hj hi, ho2])
        simp only [Bool.and_eq_false_iff] at this
        rcases this with h | h
        · rw [← strstr_iff] at hs2; rw [hs2] at h; cases h
        · rw [hp2] at h; cases h
      · simp [hi] at ho
    · rintro ⟨hi, o, ho, hp, hs, hmin⟩
      refine ⟨o, by simp [hi, ho], ⟨hs, hp⟩, ?_⟩
      intro m hm y hy
      simp only [Nat.lt_trans hm hi, if_true] at hy
      have := hmin m hm y hy
      by_cases h1 : strstr y.names name = true
      · by_cases h2 : y.is_present = true
        · exact absurd ⟨h2, (strstr_iff _ _).1 h1⟩ this
        · simp [h2]
      · simp [h1]
  · intro opts count name
    unfold cli_get_option
    rw [find_index_from_none]
    constructor
    · intro h j hj o ho ⟨hp, hs⟩
      have hm : o ∈ opts.take count := nth_mem _ j o (by rw [nth_take]; simp [hj, ho])
      have := h o hm
      rw [(strstr_iff _ _).2 hs, hp] at this
      cases this
    · intro h o ho
      obtain ⟨j, hj⟩ := mem_nth _ o ho
      rw [nth_take] at hj
      by_cases hjc : j < count
      · simp only [hjc, if_true] at hj
        have := h j hjc o hj
        by_cases h1 : strstr o.names name = true
        · by_cases h2 : o.is_present = true
          · exact absurd ⟨h2, (strstr_iff _ _).1 h1⟩ this
          · simp [h2]
        · simp [h1]
      · simp [hjc] at hj

/-! ### The registries -/

theorem nth_append_left {α : Type} (l r : List α) (i : Nat) (h : i < l.length) :
    nth (l ++ r) i = nth l i := by
  induction l generalizing i with
  | nil => simp at h
  | cons x xs ih =>
    cases i with
    | zero => rfl
    | succ n =>
      simp only [List.length_cons] at h
      simpa [nth] using ih n (by omega)

/-- A run changes no declaration. -/
theorem decl_eq_run (uninit : Nat) (app : cli_app) (argv : List CString) :
    DeclEq app (cli_app_run uninit app argv).app := by
  rcases cli_app_run_app uninit app argv with e | ⟨c, toks, e⟩
  · rw [e]; exact DeclEq.refl app
  · rw [e]
    exact (decl_eq_reset app _).trans (decl_eq_parse_loop uninit _ toks _)

theorem decl_eq_length {a b : cli_app} (h : DeclEq a b) : a.options.length = b.options.length := by
  have := congrArg List.length h.2.2
  simpa using this

theorem reachable_counts (app : cli_app) (h : Reachable app) :
    app.commands.length ≤ MAX_COMMAND_COUNT ∧ app.options.length ≤ MAX_OPTION_COUNT := by
  induction h with
  | create name version description default_action =>
    simp [cli_app_create, MAX_COMMAND_COUNT, MAX_OPTION_COUNT]
  | add_command names action help_text _ hadd ih =>
    unfold cli_app_add_command at hadd
    split at hadd
    · cases hadd
    · rename_i hc
      simp only [Option.some.injEq, Prod.mk.injEq] at hadd
      rw [← hadd.1]
      simp only [List.length_append, List.length_singleton]
      exact ⟨by omega, ih.2⟩
  | add_option cmd names required is_flag help_text _ hadd ih =>
    unfold cli_cmd_add_option at hadd
    split at hadd
    · cases hadd
    · rename_i hc
      simp only [Option.some.injEq] at hadd
      rw [← hadd]
      simp only [List.length_append, List.length_singleton]
      exact ⟨ih.1, by omega⟩
  | @run app0 uninit argv _ ih =>
    have hd := decl_eq_run uninit app0 argv
    rw [← hd.1, ← decl_eq_length hd]
    exact ih

/-- C16: in every reachable state both registries hold at most 64 entries. There, adding a
command (an option) aborts exactly when 64 commands (options) are registered; otherwise it
returns a pointer to the next free entry, makes the count one larger, leaves the earlier
entries, the other registry and the application record as they were, and the new entry holds
the given alias string, handler or owner, flags and help text, an option starting absent with
an all-zero value buffer. `cli_app_add_option` is `cli_cmd_add_option` with a `NULL` owner. -/
theorem C16_registry_capacity (app : cli_app) (h : Reachable app) :
    app.commands.length ≤ 64 ∧ app.options.length ≤ 64 ∧
    (∀ (names : CString) (action : cli_action) (help_text : CString),
      (cli_app_add_command app names action help_text = none ↔ app.commands.length = 64) ∧
      (app.commands.length < 64 →
        ∃ app2 cmd, cli_app_add_command app names action help_text = some (app2, cmd)) ∧
      (∀ app2 cmd, cli_app_add_command app names action help_text = some (app2, cmd) →
        cmd = app.commands.length ∧
        app2.commands.length = app.commands.length + 1 ∧
        (∀ i < app.commands.length, nth app2.commands i = nth app.commands i) ∧
        (∃ c, nth app2.commands cmd = some c ∧ c.names = names ∧ c.action = action ∧
          c.help_text = help_text) ∧
        app2.options = app.options ∧ app2.default_action = app.default_action ∧
        app2.name = app.name ∧ app2.version = app.version ∧
        app2.description = app.description)) ∧
    (∀ (cmd : Option Nat) (names : CString) (required is_flag : Bool) (help_text : CString),
      (cli_cmd_add_option app cmd names required is_flag help_text = none ↔
        app.options.length = 64) ∧
      (app.options.length < 64 →
        ∃ app2, cli_cmd_add_option app cmd names required is_flag help_text = some app2) ∧
      (∀ app2, cli_cmd_add_option app cmd names required is_flag help_text = some app2 →
        app2.options.length = app.options.length + 1 ∧
        (∀ i < app.options.length, nth app2.options i = nth app.options i) ∧
        nth app2.options app.options.length
          = some { names := names, help_text := help_text, command := cmd,
                   required := required, is_flag := is_flag, is_present := false,
                   value := List.replicate 256 NUL } ∧
        app2.commands = app.commands ∧ app2.default_action = app.default_action ∧
        app2.name = app.name ∧ app2.version = app.version ∧
        app2.description = app.description) ∧
      cli_app_add_option app names required is_flag help_text
        = cli_cmd_add_option app none names required is_flag help_text) := by
  obtain ⟨hc, ho⟩ := reachable_counts app h
  simp only [MAX_COMMAND_COUNT, MAX_OPTION_COUNT] at hc ho
  refine ⟨hc, ho, ?_, ?_⟩
  · intro names action help_text
    refine ⟨?_, ?_, ?_⟩
    · unfold cli_app_add_command MAX_COMMAND_COUNT
      constructor
      · intro e
        split at e
        · omega
        · cases e
      · intro e
        simp [e]
    · intro hlt
      unfold cli_app_add_command MAX_COMMAND_COUNT
      exact ⟨_, _, if_neg (by omega)⟩
    · intro app2 cmd hadd
      unfold cli_app_add_command at hadd
      split at hadd
      · cases hadd
      · simp only [Option.some.injEq, Prod.mk.injEq] at hadd
        obtain ⟨h1, h2⟩ := hadd
        subst h1 h2
        refine ⟨rfl, by simp, ?_, ?_, rfl, rfl, rfl, rfl, rfl⟩
        · intro i hi
          exact nth_append_left _ _ i hi
        · exact ⟨_, nth_append_length _ _ _, rfl, rfl, rfl⟩
  · intro cmd names required is_flag help_text
    refine ⟨?_, ?_, ?_, rfl⟩
    · unfold cli_cmd_add_option MAX_OPTION_COUNT
      constructor
      · intro e
        split at e
        · omega
        · cases e
      · intro e
        simp [e]
    · intro hlt
      unfold cli_cmd_add_option MAX_OPTION_COUNT
      exact ⟨_, if_neg (by omega)⟩
    · intro app2 hadd
      unfold cli_cmd_add_option at hadd
      split at hadd
      · cases hadd
      · simp only [Option.some.injEq] at hadd
        subst hadd
        refine ⟨by simp, ?_, ?_, rfl, rfl, rfl, rfl, rfl⟩
        · intro i hi
          exact nth_append_left _ _ i hi
        · exact nth_append_length _ _ _

/-- C16, witness: the demo application is reachable, with 2 commands and 6 options; a further
command gets pointer 2. -/
theorem C16_registry_capacity_witness :
    Reachable (demo_app (const_action 0) (const_action 7)) ∧
    (demo_app (const_action 0) (const_action 7)).commands.length = 2 ∧
    (demo_app (const_action 0) (const_action 7)).options.length = 6 ∧
    (demo_app (const_action 0) (const_action 7)).commands.length ≤ 64 ∧
    (cli_app_add_command (demo_app (const_action 0) (const_action 7)) "x".toList
      (const_action 1) []).map Prod.snd = some 2 := by
  have hr := demo_app_reachable (const_action 0) (const_action 7)
  have h := C16_registry_capacity _ hr
  exact ⟨hr, rfl, rfl, h.1, rfl⟩

/-! ### The options of a command -/

theorem get_command_options_from_length (cmd : Option Nat) (os : List cli_option) :
    ∀ i : Nat, (get_command_options_from cmd i os).length
      = (os.filter (fun o => o.command == cmd)).length := by
  induction os with
  | nil => intro i; rfl
  | cons o os ih =>
    intro i
    simp only [get_command_options_from, List.filter_cons]
    by_cases hc : o.command = cmd
    · simp [hc, ih (i + 1)]
    · have hb : (o.command == cmd) = false := by simpa using hc
      simp [hc, hb, ih (i + 1)]

theorem get_command_options_from_sorted (cmd : Option Nat) (os : List cli_option) :
    ∀ i : Nat, (get_command_options_from cmd i os).Pairwise (fun a b => a < b) := by
  induction os with
  | nil => intro i; exact List.Pairwise.nil
  | cons o os ih =>
    intro i
    simp only [get_command_options_from]
    by_cases hc : o.command = cmd
    · simp only [hc, if_true, List.pairwise_cons]
      refine ⟨?_, ih (i + 1)⟩
      intro k hk
      have := ((mem_get_command_options_from cmd os (i + 1) k).1 hk).1
      omega
    · simp only [hc, if_false]
      exact ih (i + 1)

/-- C17: for every command pointer, `NULL` included, `get_command_options` returns pointers to
exactly the registered options whose owner is that pointer, each once and in declaration
order, their number being `opt_count`; the result is empty exactly when no registered option
has that owner. It only reads the application. -/
theorem C17_options_for_command (app : cli_app) (cmd : Option Nat) :
    deref app (get_command_options app cmd) = app.options.filter (fun o => o.command == cmd) ∧
    (get_command_options app cmd).length
      = (app.options.filter (fun o => o.command == cmd)).length ∧
    (∀ k, k ∈ get_command_options app cmd ↔
      ∃ o, nth app.options k = some o ∧ o.command = cmd) ∧
    (get_command_options app cmd).Pairwise (fun a b => a < b) ∧
    (get_command_options app cmd = [] ↔ ∀ o ∈ app.options, o.command ≠ cmd) := by
  refine ⟨deref_get_command_options app cmd, get_command_options_from_length cmd _ 0,
    mem_get_command_options app cmd, get_command_options_from_sorted cmd _ 0, ?_⟩
  rw [List.eq_nil_iff_forall_not_mem]
  constructor
  · intro h o ho hc
    obtain ⟨k, hk⟩ := mem_nth _ o ho
    exact h k ((mem_get_command_options app cmd k).2 ⟨o, hk, hc⟩)
  · intro h k hk
    obtain ⟨o, ho, hc⟩ := (mem_get_command_options app cmd k).1 hk
    exact h o (nth_mem _ k o ho) hc

/-! ### The value buffer stays a terminated 256-byte array -/

theorem write_bytes_length (src buf : List Char) (h : src.length ≤ buf.length) :
    (write_bytes src buf).length = buf.length := by
  unfold write_bytes
  simp only [List.length_append, List.length_drop]
  omega

theorem takeWhile_length_lt (a : Char) (l : List Char) (h : a ∈ l) :
    (l.takeWhile (fun c => c != a)).length < l.length := by
  induction l with
  | nil => simp at h
  | cons c cs ih =>
    rw [List.takeWhile_cons]
    by_cases e : c = a
    · simp [e]
    · have hb : (c != a) = true := by simp [e]
      simp only [hb, if_true, List.length_cons]
      have : a ∈ cs := by
        rcases List.mem_cons.1 h with h1 | h1
        · exact absurd h1.symm e
        · exact h1
      exact Nat.succ_lt_succ (ih this)

/-- A 256-byte buffer that contains a NUL. -/
theorem memset_value_ok : memset_value.length = VALUE_SIZE ∧ NUL ∈ memset_value := by
  constructor
  · simp [memset_value]
  · unfold memset_value
    rw [List.mem_replicate]
    exact ⟨by decide, rfl⟩

theorem store_true_ok (o : cli_option) (h : o.value.length = VALUE_SIZE) :
    (store_true o).value.length = VALUE_SIZE ∧ NUL ∈ (store_true o).value := by
  constructor
  · simp only [store_true]
    rw [write_bytes_length _ _ (by rw [h]; simp [VALUE_SIZE])]
    exact h
  · simp [store_true, write_bytes]

theorem store_value_ok (v : CString) (o : cli_option) (h : o.value.length = VALUE_SIZE)
    (hv : v.length < VALUE_SIZE) :
    (store_value v o).value.length = VALUE_SIZE ∧ NUL ∈ (store_value v o).value := by
  constructor
  · simp only [store_value]
    rw [write_bytes_length _ _ (by rw [h]; simp; omega)]
    exact h
  · simp [store_value, write_bytes]

theorem parse_loop_buffer_inv (uninit : Nat) (opts : List Nat) :
    ∀ (toks : List CString) (app : cli_app),
      (∀ k o, nth app.options k = some o → o.value.length = VALUE_SIZE ∧ NUL ∈ o.value) →
      ∀ k o, nth (parse_loop uninit opts app toks).1.options k = some o →
        o.value.length = VALUE_SIZE ∧ NUL ∈ o.value := by
  refine parse_loop_induction uninit opts
    (fun app _ res =>
      (∀ k o, nth app.options k = some o → o.value.length = VALUE_SIZE ∧ NUL ∈ o.value) →
      ∀ k o, nth res.1.options k = some o → o.value.length = VALUE_SIZE ∧ NUL ∈ o.value)
    ?_ ?_ ?_ ?_ ?_ ?_ ?_ ?_
  · intro app h; exact h
  · intro app _ _ _ h; exact h
  · intro app _ _ _ _ h; exact h
  · intro app _ _ _ _ _ h; exact h
  · intro app _ _ _ _ _ h; exact h
  · intro app arg rest k _ _ _ _ ih h
    apply ih
    intro j o hj
    rw [nth_update, nth_update] at hj
    cases h0 : nth app.options j with
    | none => rw [h0] at hj; simp at hj
    | some o0 =>
      rw [h0] at hj
      simp only [Option.map_some', Option.some.injEq] at hj
      by_cases e : j = k
      · simp only [e, if_true] at hj
        rw [← hj]
        exact store_true_ok _ (h j o0 h0).1
      · simp only [e, if_false] at hj
        rw [← hj]; exact h j o0 h0
  · intro app arg rest k _ _ _ _ _ h j o hj
    rw [nth_update] at hj
    cases h0 : nth app.options j with
    | none => rw [h0] at hj; simp at hj
    | some o0 =>
      rw [h0] at hj
      simp only [Option.map_some', Option.some.injEq] at hj
      by_cases e : j = k
      · simp only [e, if_true] at hj
        rw [← hj]; exact h j o0 h0
      · simp only [e, if_false] at hj
        rw [← hj]; exact h j o0 h0
  · intro app arg v rest k _ _ _ _ _ hl ih h
    apply ih
    intro j o hj
    rw [nth_update, nth_update] at hj
    cases h0 : nth app.options j with
    | none => rw [h0] at hj; simp at hj
    | some o0 =>
      rw [h0] at hj
      simp only [Option.map_some', Option.some.injEq] at hj
      by_cases e : j = k
      · simp only [e, if_true] at hj
        rw [← hj]
        exact store_value_ok v _ (h j o0 h0).1 hl
      · simp only [e, if_false] at hj
        rw [← hj]; exact h j o0 h0

theorem reset_buffer_inv (app : cli_app) (opts : List Nat)
    (h : ∀ k o, nth app.options k = some o → o.value.length = VALUE_SIZE ∧ NUL ∈ o.value) :
    ∀ k o, nth (reset_options app opts).options k = some o →
      o.value.length = VALUE_SIZE ∧ NUL ∈ o.value := by
  intro k o hk
  rw [nth_reset] at hk
  cases h0 : nth app.options k with
  | none => rw [h0] at hk; simp at hk
  | some o0 =>
    rw [h0] at hk
    simp only [Option.map_some', Option.some.injEq] at hk
    by_cases e : k ∈ opts
    · simp only [e, if_true] at hk
      rw [← hk]; exact memset_value_ok
    · simp only [e, if_false] at hk
      rw [← hk]; exact h k o0 h0

theorem reachable_buffer_inv (app : cli_app) (h : Reachable app) :
    ∀ k o, nth app.options k = some o → o.value.length = VALUE_SIZE ∧ NUL ∈ o.value := by
  induction h with
  | create name version description default_action =>
    intro k o hk
    simp [cli_app_create, nth] at hk
  | add_command names action help_text _ hadd ih =>
    intro k o hk
    unfold cli_app_add_command at hadd
    split at hadd
    · cases hadd
    · simp only [Option.some.injEq, Prod.mk.injEq] at hadd
      rw [← hadd.1] at hk
      exact ih k o hk
  | add_option cmd names required is_flag help_text _ hadd ih =>
    intro k o hk
    unfold cli_cmd_add_option at hadd
    split at hadd
    · cases hadd
    · simp only [Option.some.injEq] at hadd
      rw [← hadd] at hk
      have hm := nth_mem _ k o hk
      simp only [List.mem_append, List.mem_singleton] at hm
      rcases hm with hm | hm
      · obtain ⟨j, hj⟩ := mem_nth _ o hm
        exact ih j o hj
      · rw [hm]; exact memset_value_ok
  | @run app0 uninit argv _ ih =>
    rcases cli_app_run_app uninit app0 argv with e | ⟨c, toks, e⟩
    · rw [e]; exact ih
    · rw [e]
      exact parse_loop_buffer_inv uninit _ toks _ (reset_buffer_inv _ _ ih)

/-- C18: in every reachable state the value buffer of every registered option is a 256-byte
array that contains a NUL, so the string it holds is at most 255 bytes long; and each write
of the parser (the reset, "true" with its terminator, a value shorter than 256 bytes with its
terminator) into a 256-byte buffer leaves a 256-byte buffer: none goes past its end. -/
theorem C18_value_buffer (app : cli_app) (h : Reachable app) :
    (∀ o ∈ app.options,
      o.value.length = 256 ∧ NUL ∈ o.value ∧ (cstr o.value).length ≤ 255) ∧
    (∀ (o : cli_option) (v : CString), o.value.length = 256 →
      (clear_option o).value.length = 256 ∧
      (store_true (mark_present o)).value.length = 256 ∧
      (v.length < 256 → (store_value v (mark_present o)).value.length = 256)) := by
  constructor
  · intro o ho
    obtain ⟨k, hk⟩ := mem_nth _ o ho
    obtain ⟨h1, h2⟩ := reachable_buffer_inv app h k o hk
    refine ⟨h1, h2, ?_⟩
    have := takeWhile_length_lt NUL o.value h2
    unfold cstr
    rw [h1] at this
    simp only [VALUE_SIZE] at this
    omega
  · intro o v ho
    refine ⟨memset_value_ok.1, (store_true_ok (mark_present o) ho).1, ?_⟩
    intro hv
    exact (store_value_ok v (mark_present o) ho hv).1

set_option maxRecDepth 8192 in
/-- C18, witness: after `filetool count -p file.txt -l` every buffer of the demo application
is 256 bytes long and terminated. -/
theorem C18_value_buffer_witness :
    Reachable (cli_app_run 1 (demo_app (const_action 0) (const_action 7)) demo_count_argv).app ∧
    (cli_app_run 1 (demo_app (const_action 0) (const_action 7)) demo_count_argv).app.options.map
        (fun o => (o.value.length, (cstr o.value).length))
      = [(256, 0), (256, 0), (256, 8), (256, 4), (256, 0), (256, 0)] ∧
    (∀ o ∈ (cli_app_run 1 (demo_app (const_action 0) (const_action 7))
        demo_count_argv).app.options,
      o.value.length = 256 ∧ NUL ∈ o.value ∧ (cstr o.value).length ≤ 255) := by
  have hr := Reachable.run 1 demo_count_argv
    (demo_app_reachable (const_action 0) (const_action 7))
  exact ⟨hr, by decide, (C18_value_buffer _ hr).1⟩

/-! ### Options of other owners -/

/-- The loop writes only to options of its pointer list. -/
theorem parse_loop_frame (uninit : Nat) (opts : List Nat) (j : Nat) (hj : j ∉ opts) :
    ∀ (toks : List CString) (app : cli_app),
      nth (parse_loop uninit opts app toks).1.options j = nth app.options j := by
  refine parse_loop_induction uninit opts
    (fun app _ res => nth res.1.options j = nth app.options j)
    ?_ ?_ ?_ ?_ ?_ ?_ ?_ ?_
  · intro app; rfl
  · intro app _ _ _; rfl
  · intro app _ _ _ _; rfl
  · intro app _ _ _ _ _; rfl
  · intro app _ _ _ _ _; rfl
  · intro app arg rest k _ _ hf _ ih
    have hne : j ≠ k := fun e => hj (e ▸ (find_option_some app opts arg k hf).1)
    rw [ih, nth_update_ne _ k j _ hne, nth_update_ne _ k j _ hne]
  · intro app arg rest k _ _ hf _ _
    have hne : j ≠ k := fun e => hj (e ▸ (find_option_some app opts arg k hf).1)
    exact nth_update_ne _ k j _ hne
  · intro app arg v rest k _ _ hf _ _ _ ih
    have hne : j ≠ k := fun e => hj (e ▸ (find_option_some app opts arg k hf).1)
    rw [ih, nth_update_ne _ k j _ hne, nth_update_ne _ k j _ hne]

/-- C19: in a run that selects command `c`, a token resolves only to an option whose owner is
`c`, and every option with another owner (another command, or none) is after the run exactly
as it was before. -/
theorem C19_per_command_options (uninit : Nat) (app : cli_app) (a0 w : CString)
    (toks : List CString) (c : Nat) (hsel : selects app w c = true) :
    (∀ k o, nth app.options k = some o → o.command ≠ some c →
      nth (cli_app_run uninit app (a0 :: w :: toks)).app.options k = some o) ∧
    (∀ tok k, resolves app (get_command_options app (some c)) tok k = true →
      ∃ o, nth app.options k = some o ∧ o.command = some c) := by
  constructor
  · intro k o hk hc
    have hnot : k ∉ get_command_options app (some c) := by
      intro hm
      obtain ⟨o2, h2, hc2⟩ := (mem_get_command_options app (some c) k).1 hm
      rw [hk] at h2
      simp only [Option.some.injEq] at h2
      rw [h2] at hc
      exact hc hc2
    rw [run_app_selected uninit app a0 w toks c hsel,
      parse_loop_frame uninit _ k hnot, nth_reset, hk]
    simp [hnot]
  · intro tok k hres
    have hf := (resolves_iff app _ tok k).1 hres
    exact (mem_get_command_options app (some c) k).1 (find_option_some app _ tok k hf).1

set_option maxRecDepth 8192 in
/-- C19, witness: `-p, --path` is declared under `info` (option 0) and under `count`
(option 2) of the demo application. After `filetool info -p y`, the run `filetool count -p x`
stores "x" in option 2 and leaves option 0 present with "y". -/
theorem C19_per_command_options_witness :
    selects (cli_app_run 1 (demo_app (const_action 0) (const_action 7))
      ["filetool".toList, "info".toList, "-p".toList, "y".toList]).app "count".toList 1
      = true ∧
    (cli_app_run 1
      (cli_app_run 1 (demo_app (const_action 0) (const_action 7))
        ["filetool".toList, "info".toList, "-p".toList, "y".toList]).app
      ["filetool".toList, "count".toList, "-p".toList, "x".toList]).app.options.map
        (fun o => (o.command, o.names, o.is_present, cstr o.value))
      = [(some 0, "-p, --path".toList, true, "y".toList),
         (some 0, "-v, --verbose".toList, false, []),
         (some 1, "-p, --path".toList, true, "x".toList),
         (some 1, "-l, --lines".toList, false, []),
         (some 1, "-w, --words".toList, false, []),
         (some 1, "-c, --chars".toList, false, [])] ∧
    nth (cli_app_run 1
        (cli_app_run 1 (demo_app (const_action 0) (const_action 7))
          ["filetool".toList, "info".toList, "-p".toList, "y".toList]).app
        ["filetool".toList, "count".toList, "-p".toList, "x".toList]).app.options 0
      = nth (cli_app_run 1 (demo_app (const_action 0) (const_action 7))
          ["filetool".toList, "info".toList, "-p".toList, "y".toList]).app.options 0 := by
  have hsel : selects (cli_app_run 1 (demo_app (const_action 0) (const_action 7))
      ["filetool".toList, "info".toList, "-p".toList, "y".toList]).app "count".toList 1
      = true := by decide
  have h := (C19_per_command_options 1 _ "filetool".toList "count".toList
    ["-p".toList, "x".toList] 1 hsel).1 0 _ rfl (by decide)
  exact ⟨hsel, by decide, h⟩

/-! ### Which command is dispatched -/

/-- A handler called by a run is the default handler or that of the command found by the
lookup on the first word. -/
theorem run_callee (uninit : Nat) (app : cli_app) (a0 w : CString) (toks : List CString) :
    ∀ call ∈ (cli_app_run uninit app (a0 :: w :: toks)).calls,
      call.callee = Callee.default ∨
      ∃ c, find_command app w = some c ∧ call.callee = Callee.command c := by
  intro call hcall
  by_cases hh : is_help w = true
  · have hrun : cli_app_run uninit app (a0 :: w :: toks)
        = { app := app, calls := [], ret := some 0 } := by
      simp [cli_app_run, hh]
    rw [hrun] at hcall
    simp at hcall
  · have hh : is_help w = false := by simpa using hh
    cases hf : find_command app w with
    | none =>
      rw [cli_app_run_unknown uninit app a0 w toks hh hf] at hcall
      cases hd : app.default_action with
      | none => rw [hd] at hcall; simp at hcall
      | some f =>
        rw [hd] at hcall
        simp only [List.mem_singleton] at hcall
        left; rw [hcall]
    | some c =>
      have hsel : selects app w c = true := (selects_iff app w c).2 ⟨hh, hf⟩
      rw [cli_app_run_selected uninit app a0 w toks c hsel, parse_command_args_eq] at hcall
      rcases hloop : parse_loop uninit (get_command_options app (some c))
        (reset_options app (get_command_options app (some c))) toks with ⟨x, fl⟩
      rw [hloop] at hcall
      cases fl with
      | abort => simp at hcall
      | ret code => simp at hcall
      | next =>
        simp only at hcall
        split at hcall
        · simp at hcall
        · split at hcall
          · simp only [invoke, List.mem_singleton] at hcall
            right
            exact ⟨c, rfl, by rw [hcall]⟩
          · simp at hcall

/-- C20: `find_command` returns the first command, in declaration order, whose alias set
contains the token, and `NULL` exactly when no registered command has it in its alias set. So
when two commands share an alias, the lookup never yields the later one and no run whose
first word is that alias invokes the later one's handler. -/
theorem C20_first_command_wins :
    (∀ (app : cli_app) (t : CString) (i : Nat),
      find_command app t = some i ↔
        ∃ cmd, nth app.commands i = some cmd ∧ command_matches_name cmd t = true ∧
          ∀ j < i, ∀ cmd2, nth app.commands j = some cmd2 →
            command_matches_name cmd2 t = false) ∧
    (∀ (app : cli_app) (t : CString),
      find_command app t = none ↔
        ∀ cmd ∈ app.commands, command_matches_name cmd t = false) ∧
    (∀ (uninit : Nat) (app : cli_app) (a0 t : CString) (toks : List CString) (i j : Nat)
        (ci cj : cli_command),
      i < j → nth app.commands i = some ci → nth app.commands j = some cj →
      command_matches_name ci t = true → command_matches_name cj t = true →
      find_command app t ≠ some j ∧
      ∀ call ∈ (cli_app_run uninit app (a0 :: t :: toks)).calls,
        call.callee ≠ Callee.command j) := by
  have first : ∀ (app : cli_app) (t : CString) (i : Nat),
      find_command app t = some i ↔
        ∃ cmd, nth app.commands i = some cmd ∧ command_matches_name cmd t = true ∧
          ∀ j < i, ∀ cmd2, nth app.commands j = some cmd2 →
            command_matches_name cmd2 t = false := by
    intro app t i
    unfold find_command
    rw [find_index_from_iff]
    simp
  have later : ∀ (app : cli_app) (t : CString) (i j : Nat) (ci cj : cli_command),
      i < j → nth app.commands i = some ci → command_matches_name ci t = true →
      find_command app t ≠ some j := by
    intro app t i j ci cj hij hi hm hf
    obtain ⟨_, _, _, hmin⟩ := (first app t j).1 hf
    have := hmin i hij ci hi
    rw [hm] at this; cases this
  refine ⟨first, fun app t => find_command_none app t, ?_⟩
  intro uninit app a0 t toks i j ci cj hij hi _ hm _
  have hne := later app t i j ci cj hij hi hm
  refine ⟨hne, ?_⟩
  intro call hcall hc
  rcases run_callee uninit app a0 t toks call hcall with h | ⟨c, hf, h⟩
  · rw [h] at hc; cases hc
  · rw [h] at hc
    simp only [Callee.command.injEq] at hc
    rw [hc] at hf
    exact hne hf

/-- C20, witness: with commands `count, c` and `copy, c`, the word `c` is looked up as command
0, `tool c` returns the 1 of its handler, and the handler of command 1 is not called. -/
theorem C20_first_command_wins_witness :
    command_matches_name { names := "count, c".toList, action := const_action 1, help_text := [] }
      "c".toList = true ∧
    command_matches_name { names := "copy, c".toList, action := const_action 2, help_text := [] }
      "c".toList = true ∧
    find_command twin_app "c".toList = some 0 ∧
    (cli_app_run 1 twin_app ["tool".toList, "c".toList]).ret = some 1 ∧
    (∀ call ∈ (cli_app_run 1 twin_app ["tool".toList, "c".toList]).calls,
      call.callee ≠ Callee.command 1) := by
  have h := C20_first_command_wins.2.2 1 twin_app "tool".toList "c".toList [] 0 1
    { names := "count, c".toList, action := const_action 1, help_text := [] }
    { names := "copy, c".toList, action := const_action 2, help_text := [] }
    (by decide) rfl rfl (by decide) (by decide)
  exact ⟨by decide, by decide, by decide, by decide, h.2⟩

/-! ### Global options -/

/-- A run leaves every option without an owner as it was. -/
theorem run_frame_global (uninit : Nat) (app : cli_app) (argv : List CString) (k : Nat)
    (o : cli_option) (hk : nth app.options k = some o) (hc : o.command = none) :
    nth (cli_app_run uninit app argv).app.options k = some o := by
  rcases cli_app_run_app uninit app argv with e | ⟨c, toks, e⟩
  · rw [e]; exact hk
  · have hnot : k ∉ get_command_options app (some c) := by
      intro hm
      obtain ⟨o2, h2, hc2⟩ := (mem_get_command_options app (some c) k).1 hm
      rw [hk] at h2
      simp only [Option.some.injEq] at h2
      rw [← h2, hc] at hc2
      cases hc2
    rw [e, parse_loop_frame uninit _ k hnot, nth_reset, hk]
    simp [hnot]

/-- The handler of a selected command is the only one its run can call. -/
theorem selected_calls (uninit : Nat) (app : cli_app) (a0 w : CString) (toks : List CString)
    (c : Nat) (hsel : selects app w c = true) :
    ∀ call ∈ (cli_app_run uninit app (a0 :: w :: toks)).calls,
      call.callee = Callee.command c := by
  intro call hcall
  rw [cli_app_run_selected uninit app a0 w toks c hsel, parse_command_args_eq] at hcall
  rcases hloop : parse_loop uninit (get_command_options app (some c))
    (reset_options app (get_command_options app (some c))) toks with ⟨x, fl⟩
  rw [hloop] at hcall
  cases fl with
  | abort => simp at hcall
  | ret code => simp at hcall
  | next =>
    simp only at hcall
    split at hcall
    · simp at hcall
    · split at hcall
      · simp only [invoke, List.mem_singleton] at hcall
        rw [hcall]
      · simp at hcall

/-- What the default handler is handed: options of the state before the run, without owner. -/
theorem default_call_opts (uninit : Nat) (app : cli_app) (argv : List CString) :
    ∀ call ∈ (cli_app_run uninit app argv).calls, call.callee = Callee.default →
      ∀ o ∈ call.opts, o ∈ app.options ∧ o.command = none := by
  intro call hcall hdef o ho
  have short : ∀ l : List CString, (l = [] ∨ ∃ a, l = [a]) →
      call ∈ (cli_app_run uninit app l).calls → False := by
    intro l hl h
    have hrun : cli_app_run uninit app l
        = match app.commands, app.default_action with
          | [], some f => invoke app Callee.default f []
          | _, _ => { app := app, calls := [], ret := some 1 } := by
      rcases hl with rfl | ⟨a, rfl⟩ <;> rfl
    rw [hrun] at h
    split at h
    · simp only [invoke, List.mem_singleton] at h
      rw [h] at ho
      simp [deref] at ho
    · simp at h
  cases argv with
  | nil => exact (short [] (Or.inl rfl) hcall).elim
  | cons a0 rest =>
    cases rest with
    | nil => exact (short [a0] (Or.inr ⟨a0, rfl⟩) hcall).elim
    | cons w toks =>
      by_cases hh : is_help w = true
      · have hrun : cli_app_run uninit app (a0 :: w :: toks)
            = { app := app, calls := [], ret := some 0 } := by
          simp [cli_app_run, hh]
        rw [hrun] at hcall
        simp at hcall
      · have hh : is_help w = false := by simpa using hh
        cases hf : find_command app w with
        | none =>
          rw [cli_app_run_unknown uninit app a0 w toks hh hf] at hcall
          cases hd : app.default_action with
          | none => rw [hd] at hcall; simp at hcall
          | some f =>
            rw [hd] at hcall
            simp only [List.mem_singleton] at hcall
            rw [hcall] at ho
            simp only [List.mem_filter, beq_iff_eq] at ho
            exact ho
        | some c =>
          have hsel : selects app w c = true := (selects_iff app w c).2 ⟨hh, hf⟩
          have := selected_calls uninit app a0 w toks c hsel call hcall
          rw [this] at hdef
          cases hdef

theorem reachable_global_inv (app : cli_app) (h : Reachable app) :
    ∀ k o, nth app.options k = some o → o.command = none →
      o.is_present = false ∧ o.value = memset_value := by
  induction h with
  | create name version description default_action =>
    intro k o hk
    simp [cli_app_create, nth] at hk
  | add_command names action help_text _ hadd ih =>
    intro k o hk
    unfold cli_app_add_command at hadd
    split at hadd
    · cases hadd
    · simp only [Option.some.injEq, Prod.mk.injEq] at hadd
      rw [← hadd.1] at hk
      exact ih k o hk
  | add_option cmd names required is_flag help_text _ hadd ih =>
    intro k o hk hc
    unfold cli_cmd_add_option at hadd
    split at hadd
    · cases hadd
    · simp only [Option.some.injEq] at hadd
      rw [← hadd] at hk
      have hm := nth_mem _ k o hk
      simp only [List.mem_append, List.mem_singleton] at hm
      rcases hm with hm | hm
      · obtain ⟨j, hj⟩ := mem_nth _ o hm
        exact ih j o hj hc
      · rw [hm]; exact ⟨rfl, rfl⟩
  | @run app0 uninit argv _ ih =>
    intro k o hk hc
    have hd := decl_nth (decl_eq_run uninit app0 argv) k
    rw [hk] at hd
    cases h0 : nth app0.options k with
    | none => rw [h0] at hd; simp at hd
    | some o0 =>
      rw [h0] at hd
      simp only [Option.map_some', Option.some.injEq] at hd
      have hc0 : o0.command = none := by
        have e := congrArg cli_option.command hd
        have e2 : o0.command = o.command := e
        rw [e2]; exact hc
      have hf := run_frame_global uninit app0 argv k o0 h0 hc0
      rw [hk] at hf
      simp only [Option.some.injEq] at hf
      rw [hf]
      exact ih k o0 h0 hc0

/-- C21: in every reachable state every option without an owner is absent and holds an
all-zero value buffer, hence the empty string; and whatever the arguments of a run from such a
state are, every option its default handler is handed is absent with an empty value. -/
theorem C21_global_options (app : cli_app) (h : Reachable app) :
    (∀ o ∈ app.options, o.command = none →
      o.is_present = false ∧ o.value = List.replicate 256 NUL ∧ cstr o.value = []) ∧
    (∀ (uninit : Nat) (argv : List CString),
      ∀ call ∈ (cli_app_run uninit app argv).calls, call.callee = Callee.default →
        ∀ o ∈ call.opts, o.is_present = false ∧ cstr o.value = []) := by
  have inv := reachable_global_inv app h
  constructor
  · intro o ho hc
    obtain ⟨k, hk⟩ := mem_nth _ o ho
    obtain ⟨h1, h2⟩ := inv k o hk hc
    refine ⟨h1, h2, ?_⟩
    rw [h2]; exact cstr_memset
  · intro uninit argv call hcall hdef o ho
    obtain ⟨hm, hc⟩ := default_call_opts uninit app argv call hcall hdef o ho
    obtain ⟨k, hk⟩ := mem_nth _ o hm
    obtain ⟨h1, h2⟩ := inv k o hk hc
    refine ⟨h1, ?_⟩
    rw [h2]; exact cstr_memset

theorem default_app_reachable : Reachable default_app := by
  have h0 := Reachable.create "tool".toList "1".toList [] (some (const_action 5))
  have h1 := Reachable.add_command "run".toList (const_action 0) [] h0 rfl
  have h2 := Reachable.add_option (some 0) "-q".toList false true [] h1 rfl
  have h3 := Reachable.add_option none "-g".toList false true [] h2 rfl
  exact h3

set_option maxRecDepth 8192 in
/-- C21, witness: after `tool run -q`, the run `tool other -g x` hands the default handler the
global flag `-g`, absent and empty although `-g` is among the arguments. -/
theorem C21_global_options_witness :
    Reachable (cli_app_run 1 default_app ["tool".toList, "run".toList, "-q".toList]).app ∧
    (cli_app_run 1
      (cli_app_run 1 default_app ["tool".toList, "run".toList, "-q".toList]).app
      ["tool".toList, "other".toList, "-g".toList, "x".toList]).calls.map
        (fun call => (call.callee,
          call.opts.map (fun o => (o.names, o.is_present, cstr o.value))))
      = [(Callee.default, [("-g".toList, false, [])])] ∧
    (∀ o ∈ (cli_app_run 1 default_app
        ["tool".toList, "run".toList, "-q".toList]).app.options,
      o.command = none →
        o.is_present = false ∧ o.value = List.replicate 256 NUL ∧ cstr o.value = []) := by
  have hr := Reachable.run 1 ["tool".toList, "run".toList, "-q".toList] default_app_reachable
  exact ⟨hr, by decide, (C21_global_options _ hr).1⟩

/-! ### `size_t` arithmetic -/

theorem SIZE_MOD_eq : SIZE_MOD = 18446744073709551616 := by decide

theorem testBit_high (y i : Nat) (hy : y < 2 ^ 64) (hi : 64 ≤ i) : y.testBit i = false :=
  Nat.testBit_lt_two_pow (Nat.lt_of_lt_of_le hy (Nat.pow_le_pow_right (by decide) hi))

/-- Masking a `size_t` with `~7` clears its three low bits. -/
theorem land_mask_eight (y : Nat) (hy : y < 2 ^ 64) :
    y &&& (2 ^ 64 - 8) = y / 8 * 8 := by
  have e1 : (2 ^ 64 - 8 : Nat) = (2 ^ 61 - 1) <<< 3 := by decide
  have e2 : y / 8 * 8 = (y >>> 3) <<< 3 := by
    rw [Nat.shiftLeft_eq, Nat.shiftRight_eq_div_pow]
  rw [e1, e2]
  apply Nat.eq_of_testBit_eq
  intro i
  simp only [Nat.testBit_and, Nat.testBit_shiftLeft, Nat.testBit_shiftRight,
    Nat.testBit_two_pow_sub_one]
  by_cases h3 : 3 ≤ i
  · have e : 3 + (i - 3) = i := by omega
    simp only [ge_iff_le, h3, decide_True, Bool.true_and, e]
    by_cases h64 : i - 3 < 61
    · simp [h64]
    · simp only [h64, decide_False, Bool.and_false]
      exact (testBit_high y i hy (by omega)).symm
  · simp [h3]

theorem ALIGN_UP_eq (x : Nat) (h : x + 7 < SIZE_MOD) : ALIGN_UP x PAGESIZE = round_up x 8 := by
  have hx : x + 7 < 2 ^ 64 := h
  have h1 : size_sub ((x + PAGESIZE) % SIZE_MOD) 1 = x + 7 := by
    unfold size_sub PAGESIZE
    rw [SIZE_MOD_eq] at *
    omega
  have h2 : size_not (size_sub PAGESIZE 1) = 2 ^ 64 - 8 := by decide
  unfold ALIGN_UP
  rw [h1, h2, land_mask_eight _ hx]
  rfl

theorem round_up_bounds (x : Nat) :
    x ≤ round_up x 8 ∧ round_up x 8 < x + 8 ∧ round_up x 8 % 8 = 0 := by
  unfold round_up
  omega

theorem round_up_of_multiple (x : Nat) (h : x % 8 = 0) : round_up x 8 = x := by
  unfold round_up
  omega

/-! ### `arena_push` -/

/-- `arena_push` once the alignment is computed without wrap-around. -/
theorem arena_push_eq (arena : cli_arena) (size : Nat) (h : arena.position + 7 < SIZE_MOD) :
    arena_push arena size
      = if (round_up arena.position 8 + size) % SIZE_MOD > arena.capacity then none
        else
          some ({ arena with position := (round_up arena.position 8 + size) % SIZE_MOD,
                             bytes := memset_zero arena.bytes (round_up arena.position 8) size },
                round_up arena.position 8) := by
  unfold arena_push
  simp only [ALIGN_UP_eq arena.position h]

/-- A push that fits: the exact sum is below the `size_t` modulus and within capacity. -/
theorem arena_push_fits (arena : cli_arena) (size : Nat)
    (h : round_up arena.position 8 + size ≤ arena.capacity) (hc : arena.capacity < SIZE_MOD) :
    arena_push arena size
      = some ({ arena with position := round_up arena.position 8 + size,
                           bytes := memset_zero arena.bytes (round_up arena.position 8) size },
              round_up arena.position 8) := by
  have hb := round_up_bounds arena.position
  have h7 : arena.position + 7 < SIZE_MOD := by rw [SIZE_MOD_eq] at *; omega
  have hm : (round_up arena.position 8 + size) % SIZE_MOD = round_up arena.position 8 + size :=
    Nat.mod_eq_of_lt (by omega)
  rw [arena_push_eq arena size h7, hm, if_neg (by omega)]

/-- For any `size_t` size the abort test of `arena_push` is made on the sum modulo `2 ^ 64`. -/
theorem arena_push_none_iff (arena : cli_arena) (size : Nat)
    (h7 : arena.position + 7 < SIZE_MOD) :
    arena_push arena size = none ↔
      (round_up arena.position 8 + size) % SIZE_MOD > arena.capacity := by
  rw [arena_push_eq arena size h7]
  constructor
  · intro h
    by_contra hn
    rw [if_neg hn] at h
    cases h
  · intro h
    rw [if_pos h]

theorem MINIMUM_CAPACITY_eq (size_app size_command size_option : Nat)
    (hfit : size_command * 64 + size_option * 64 + 16 + size_app < SIZE_MOD) :
    MINIMUM_CAPACITY size_app size_command size_option
      = size_command * 64 + size_option * 64 + 16 + size_app := by
  unfold MINIMUM_CAPACITY MAX_COMMAND_COUNT MAX_OPTION_COUNT ARENA_BASE
  rw [Nat.mod_eq_of_lt (show size_command * 64 < SIZE_MOD by omega),
    Nat.mod_eq_of_lt (show size_option * 64 < SIZE_MOD by omega),
    Nat.mod_eq_of_lt (show size_command * 64 + size_option * 64 + 16 < SIZE_MOD by omega),
    Nat.mod_eq_of_lt hfit]

/-- C24: when the sizes of the application, command and option records are multiples of the
pointer width and `MINIMUM_CAPACITY` is computed without wrap-around, none of the three
allocations of `cli_app_create` aborts: the application record is placed right after the
16-byte header, the 64 commands right after it and the 64 options right after them, in
disjoint ranges that end exactly at the capacity, where the position is left; and the record
`cli_app_create` returns has no command and no option registered. -/
theorem C24_create_allocations (size_app size_command size_option : Nat) (bytes : Nat → Nat)
    (ha : size_app % 8 = 0) (hc : size_command % 8 = 0) (ho : size_option % 8 = 0)
    (hfit : size_command * 64 + size_option * 64 + 16 + size_app < SIZE_MOD) :
    (∃ (arena : cli_arena) (app commands options : Nat),
      cli_app_create_arena size_app size_command size_option bytes
        = some (arena, app, commands, options) ∧
      arena.capacity = MINIMUM_CAPACITY size_app size_command size_option ∧
      arena.position = arena.capacity ∧
      app = ARENA_BASE ∧ app + size_app = commands ∧
      commands + size_command * 64 = options ∧
      options + size_option * 64 = arena.capacity) ∧
    (∀ (name version description : CString) (default_action : Option cli_action),
      (cli_app_create name version description default_action).commands.length = 0 ∧
      (cli_app_create name version description default_action).options.length = 0) := by
  refine ⟨?_, fun _ _ _ _ => ⟨rfl, rfl⟩⟩
  have hcapeq := MINIMUM_CAPACITY_eq size_app size_command size_option hfit
  have hs2 : (size_command * MAX_COMMAND_COUNT) % SIZE_MOD = size_command * 64 :=
    Nat.mod_eq_of_lt (show size_command * 64 < SIZE_MOD by omega)
  have hs3 : (size_option * MAX_OPTION_COUNT) % SIZE_MOD = size_option * 64 :=
    Nat.mod_eq_of_lt (show size_option * 64 < SIZE_MOD by omega)
  have r1 : round_up 16 8 = 16 := by decide
  have r2 : round_up (16 + size_app) 8 = 16 + size_app :=
    round_up_of_multiple _ (by omega)
  have r3 : round_up (16 + size_app + size_command * 64) 8
      = 16 + size_app + size_command * 64 := round_up_of_multiple _ (by omega)
  -- first push
  have p1 := arena_push_fits
    (arena_create (MINIMUM_CAPACITY size_app size_command size_option) bytes) size_app
    (by
      show round_up 16 8 + size_app ≤ MINIMUM_CAPACITY size_app size_command size_option
      rw [r1, hcapeq]; omega)
    (by
      show MINIMUM_CAPACITY size_app size_command size_option < SIZE_MOD
      rw [hcapeq]; exact hfit)
  have e1 : (arena_create (MINIMUM_CAPACITY size_app size_command size_option) bytes).position
      = 16 := rfl
  rw [e1, r1] at p1
  -- second push
  have p2 := arena_push_fits
    { arena_create (MINIMUM_CAPACITY size_app size_command size_option) bytes with
      position := 16 + size_app, bytes := memset_zero bytes 16 size_app }
    (size_command * 64)
    (by
      show round_up (16 + size_app) 8 + size_command * 64
        ≤ MINIMUM_CAPACITY size_app size_command size_option
      rw [r2, hcapeq]; omega)
    (by
      show MINIMUM_CAPACITY size_app size_command size_option < SIZE_MOD
      rw [hcapeq]; exact hfit)
  simp only [r2] at p2
  -- third push
  have p3 := arena_push_fits
    { arena_create (MINIMUM_CAPACITY size_app size_command size_option) bytes with
      position := 16 + size_app + size_command * 64,
      bytes := memset_zero (memset_zero bytes 16 size_app) (16 + size_app)
        (size_command * 64) }
    (size_option * 64)
    (by
      show round_up (16 + size_app + size_command * 64) 8 + size_option * 64
        ≤ MINIMUM_CAPACITY size_app size_command size_option
      rw [r3, hcapeq]; omega)
    (by
      show MINIMUM_CAPACITY size_app size_command size_option < SIZE_MOD
      rw [hcapeq]; exact hfit)
  simp only [r3] at p3
  refine ⟨{ capacity := MINIMUM_CAPACITY size_app size_command size_option,
            position := 16 + size_app + size_command * 64 + size_option * 64,
            bytes := memset_zero (memset_zero (memset_zero bytes 16 size_app) (16 + size_app)
              (size_command * 64)) (16 + size_app + size_command * 64) (size_option * 64) },
    16, 16 + size_app, 16 + size_app + size_command * 64, ?_, ?_⟩
  · unfold cli_app_create_arena
    rw [p1]
    simp only [hs2, hs3]
    simp only [arena_create] at p2 p3 ⊢
    rw [p2]
    simp only []
    rw [p3]
  · refine ⟨rfl, ?_, rfl, rfl, rfl, ?_⟩
    · show 16 + size_app + size_command * 64 + size_option * 64
        = MINIMUM_CAPACITY size_app size_command size_option
      rw [hcapeq]; omega
    · show 16 + size_app + size_command * 64 + size_option * 64
        = MINIMUM_CAPACITY size_app size_command size_option
      rw [hcapeq]; omega

/-- C24, witness: with the record sizes of a 64-bit build (64, 24 and 288 bytes) the capacity
is 20048 and the three blocks start at 16, 80 and 1616. -/
theorem C24_create_allocations_witness :
    (64 % 8 = 0 ∧ 24 % 8 = 0 ∧ 288 % 8 = 0) ∧
    24 * 64 + 288 * 64 + 16 + 64 < SIZE_MOD ∧
    (cli_app_create_arena 64 24 288 (fun _ => 0)).map
        (fun r => (r.1.capacity, r.1.position, r.2))
      = some (20048, 20048, 16, 80, 1616) ∧
    (cli_app_create_arena 64 24 288 (fun _ => 0)).isSome = true := by
  obtain ⟨⟨arena, app, commands, options, h, _⟩, _⟩ :=
    C24_create_allocations 64 24 288 (fun _ => 0) (by decide) (by decide) (by decide)
      (by decide)
  refine ⟨by decide, by decide, by decide, ?_⟩
  rw [h]; rfl

end Clic
